import Mathlib

/-!
# AGScript front end: the scanner, the AST model and the recursive-descent parser

A shallow embedding of `include/Lexer.hpp` (token kinds, the `Token` record and the
class `Lexer`), `include/ast/Expression.hpp`, `include/ast/Statement.hpp` and
`src/Parser.cpp`, with the loop of `main` in `src/Lexer.cpp` that calls the scanner until
the end of the input.

The parser object is the record `Parser` (token array, cursor, and the list of
`Parser::error` calls made so far). A member function of result type `T` becomes a
function `Parser → Outcome T`: it returns normally with a value and the new parser
state, or a `std::runtime_error` leaves it (`raised`, with the state at the throw), or
it indexes the token array outside its bounds (`outOfBounds`).

Each grammar rule takes a recursion budget that goes down by one at every call of
another rule, and every `while` or `do`-`while` loop is bounded by such a budget;
`noFuel` says that the budget ran out. `parse` starts `program` with a budget of
`32 * (number of tokens + 1)`, and `parse_ok` shows that on a token array that holds an
end-of-input token this budget never runs out and no access leaves the array.

The four lines `if (!cond) { error(peek(), message); throw ...; }`, which the source
repeats at every expected token, are the helper `expect`.

The scanner object is the record `Lexer` (source text, cursor, line and column
counters); a member function returns its result together with the scanner after the
call. The source text is a list of characters, one for each `char` of the
`std::string`; `isspace`, `isalpha` and `isdigit` classify the ASCII characters as the
"C" locale does and take no other character. The counters `line` and `column`
are `int` in the source, where an overflow of `line++` or `column++` is undefined; the
model holds them as integers and describes the runs in which no increment overflows.
These are all the runs on a source of fewer than `2^31 - 1` characters: the counters
stay in step with the cursor (`Lexer.InStep`, `advance_inStep`, `afterCalls_inStep`),
which keeps them between 1 and `2^31 - 1` (`inStep_int_range`). Every `while` loop
of the scanner moves the cursor at each round, so it is run for at most as many
rounds as characters are left; by `skipWhitespaceLoop_fuel`, `lexBooleanLoop_fuel`,
`lexNumberLoop_fuel` and `lexStringLoop_fuel` a larger bound changes nothing.
-/

namespace AGScript

/-- The enumeration `TokenType` of `Lexer.hpp`, in declaration order. -/
inductive TokenType where
  | IDENTIFIER
  | IF
  | ADD
  | MULTIPLY
  | SUBTRACT
  | DIVIDE
  | EQUAL
  | FUNCTION
  | LEFT_PARENTHESIS
  | RIGHT_PARENTHESIS
  | NOT_EQUAL
  | LESS_THAN
  | LESS_THAN_OR_EQUAL
  | GREATER_THAN
  | GREATER_THAN_OR_EQUAL
  | AND
  | OR
  | NOT
  | LEFT_BRACKET
  | RIGHT_BRACKET
  | LEFT_BRACE
  | RIGHT_BRACE
  | DOT
  | NEW_LINE
  | COMMENT
  | END_OF_FILE
  | COMMA
  | SEMI_COLON
  | INT_LITERAL
  | STRING_LITERAL
  | BOOLEAN_LITERAL
  | FLOAT_LITERAL
  | NULL_LITERAL
  | ASSIGN
  | KEYWORD
  | ELSE
  | RETURN
  | WHILE
  | IN
  | FOR
  | LET
  | UNKNOWN
  deriving DecidableEq, Repr

/-- The record `Token` of `Lexer.hpp`. -/
structure Token where
  type : TokenType
  value : String
  line : Int
  column : Int
  deriving DecidableEq, Repr

/-- Expression nodes of `ast/Expression.hpp`. Every `ExprPtr` that the expression rules
of the parser hand on comes from `std::make_unique`, so children are nodes, not
possibly-null pointers. -/
inductive Expr where
  | Literal (literal : Token)
  | Variable (name : String)
  | Unary (op : TokenType) (right : Expr)
  | Binary (op : TokenType) (left : Expr) (right : Expr)
  | Call (callee : Expr) (arguments : List Expr)

/-- An `ExprPtr` local that may hold `nullptr`. -/
abbrev ExprPtr := Option Expr

/-- Statement nodes of `ast/Statement.hpp`; a `StmtPtr` or `ExprPtr` member that can be
`nullptr` is an `Option`. -/
inductive Stmt where
  | ExpressionStatement (expression : ExprPtr)
  | VariableDeclaration (name : String) (initializer : ExprPtr)
  | BlockStatement (statements : List (Option Stmt))
  | IfStatement (condition : ExprPtr) (thenBranch : Option Stmt) (elseBranch : Option Stmt)
  | WhileStatement (condition : ExprPtr) (body : Option Stmt)
  | ForStatement (initializer : Option Stmt) (condition : ExprPtr) (increment : ExprPtr)
      (body : Option Stmt)
  | ReturnStatement (value : ExprPtr)
  | FunctionDeclaration (name : String) (parameters : List String) (body : Option Stmt)

/-- A `StmtPtr`: `none` is `nullptr`. -/
abbrev StmtPtr := Option Stmt

/-- The parser object: the token array, the cursor `current`, and the calls of
`Parser::error` so far (offending token and message, oldest first), which stand for the
lines written to the diagnostics stream. -/
structure Parser where
  tokens : List Token
  current : Nat
  errors : List (Token × String)

/-- How a member function call ends. -/
inductive Outcome (α : Type) where
  | ok (a : α) (p : Parser)
  | raised (p : Parser)
  | outOfBounds
  | noFuel

/-- A member function of `Parser` with result type `α`. -/
def P (α : Type) : Type := Parser → Outcome α

/-- What follows a call: the continuation runs after a normal return only. -/
def Outcome.andThen {α β : Type} (o : Outcome α) (k : α → P β) : Outcome β :=
  match o with
  | .ok a p1 => k a p1
  | .raised p1 => .raised p1
  | .outOfBounds => .outOfBounds
  | .noFuel => .noFuel

/-- Normal return of a value. -/
def P.pure {α : Type} (a : α) : P α := fun p => .ok a p

/-- Sequencing: the rest runs only after a normal return. -/
def P.bind {α β : Type} (m : P α) (k : α → P β) : P β := fun p =>
  (m p).andThen k

instance : Monad P where
  pure := P.pure
  bind := P.bind

/-- The statement `throw std::runtime_error("Parse error")`. -/
def raise {α : Type} : P α := fun p => .raised p

/-- The recursion budget is used up. -/
def outOfFuel {α : Type} : P α := fun _ => .noFuel

/-- `Parser::peek`: `tokens[current]`. -/
def peek : P Token := fun p =>
  match p.tokens[p.current]? with
  | some t => .ok t p
  | none => .outOfBounds

/-- `Parser::previous`: `tokens[current - 1]`; with `current = 0` the unsigned index
wraps around and is outside the array. -/
def previous : P Token := fun p =>
  if p.current = 0 then .outOfBounds
  else
    match p.tokens[p.current - 1]? with
    | some t => .ok t p
    | none => .outOfBounds

/-- `Parser::isAtEnd`. -/
def isAtEnd : P Bool := do
  let t ← peek
  pure (decide (t.type = TokenType.END_OF_FILE))

/-- `Parser::check`. -/
def check (type : TokenType) : P Bool := do
  let atEnd ← isAtEnd
  if atEnd then pure false
  else do
    let t ← peek
    pure (decide (t.type = type))

/-- The statement `current++`. -/
def incrCurrent : P Unit := fun p => .ok () { p with current := p.current + 1 }

/-- `Parser::advance`. -/
def advance : P Token := do
  let atEnd ← isAtEnd
  (if !atEnd then incrCurrent else pure ())
  previous

/-- `Parser::match`: the first listed kind that `check` accepts is consumed. -/
def «match» : List TokenType → P Bool
  | [] => pure false
  | type :: types => do
    let found ← check type
    if found then do
      let _ ← advance
      pure true
    else «match» types

/-- `Parser::error`: one diagnostic line for the token and the message. -/
def error (token : Token) (message : String) : P Unit := fun p =>
  .ok () { p with errors := p.errors ++ [(token, message)] }

/-- The statements `error(peek(), message); throw std::runtime_error("Parse error");`. -/
def fail {α : Type} (message : String) : P α := do
  let t ← peek
  error t message
  raise

/-- The recurring statement
`if (!cond) { error(peek(), message); throw std::runtime_error("Parse error"); }`. -/
def expect (cond : P Bool) (message : String) : P Unit := do
  let met ← cond
  if !met then fail message else pure ()

/-- One round of a `while` or `do`-`while` loop: go round again, or leave the loop. -/
inductive Step (σ : Type) where
  | next (s : σ)
  | done (s : σ)

/-- A loop whose body reports whether to go round again; at most `fuel` rounds. -/
def loop {σ : Type} (body : σ → P (Step σ)) : Nat → σ → P σ
  | 0, _ => outOfFuel
  | fuel + 1, s => do
    let step ← body s
    match step with
    | .next s1 => loop body fuel s1
    | .done s1 => pure s1

/-- The kinds at which `Parser::synchronize` stops without consuming. -/
def syncKinds : List TokenType :=
  [.FUNCTION, .LET, .IF, .WHILE, .FOR, .RETURN]

/-- One round of the loop of `Parser::synchronize`. -/
def synchronizeRound : P (Step Unit) := do
  let atEnd ← isAtEnd
  if !atEnd then do
    let prev ← previous
    if prev.type = TokenType.SEMI_COLON then pure (.done ())
    else do
      let next ← peek
      if next.type ∈ syncKinds then pure (.done ())
      else do
        let _ ← advance
        pure (.next ())
  else pure (.done ())

/-- `Parser::synchronize`. Each round of its loop that goes round again moves the cursor
over a token, so the number of tokens left bounds the rounds. -/
def synchronize : P Unit := do
  let _ ← advance
  fun p => loop (fun (_ : Unit) => synchronizeRound) (p.tokens.length - p.current + 1) () p

/-- A `try` block with `catch (...)`: the handler runs from the state at the throw. -/
def tryCatch {α : Type} (body : P α) (handler : P α) : P α := fun p =>
  match body p with
  | .raised p1 => handler p1
  | r => r

/-- `Parser::parameter_list` (no rule calls it). -/
def parameter_list (fuel : Nat) : P (List Expr) :=
  loop (fun params => do
    expect (check .IDENTIFIER) "Expected parameter name"
    let param ← advance
    let more ← «match» [.COMMA]
    if more then pure (.next (params ++ [Expr.Variable param.value]))
    else pure (.done (params ++ [Expr.Variable param.value]))) fuel []

mutual

/-- `Parser::declaration`. -/
def declaration : Nat → P StmtPtr
  | 0 => outOfFuel
  | n + 1 => do
    let isFunction ← «match» [.FUNCTION]
    if isFunction then function_decl n
    else do
      let isLet ← «match» [.LET]
      if isLet then variable_decl n
      else statement n

/-- `Parser::function_decl`: the parameter names are read and dropped, and so is the
body; the result is the placeholder `nullptr`. -/
def function_decl : Nat → P StmtPtr
  | 0 => outOfFuel
  | n + 1 => do
    expect (check .IDENTIFIER) "Expected function name after \x27function\x27"
    let _name ← advance
    expect («match» [.LEFT_PARENTHESIS]) "Expected \x27(\x27 after function name"
    let noParams ← check .RIGHT_PARENTHESIS
    (if !noParams then
      loop (fun (_ : Unit) => do
        expect (check .IDENTIFIER) "Expected parameter name"
        let _paramName ← advance
        let more ← «match» [.COMMA]
        if more then pure (.next ()) else pure (.done ())) n ()
    else pure ())
    expect («match» [.RIGHT_PARENTHESIS]) "Expected \x27)\x27 after function parameters"
    let _body ← block n
    pure none

/-- `Parser::variable_decl`. -/
def variable_decl : Nat → P StmtPtr
  | 0 => outOfFuel
  | n + 1 => do
    expect (check .IDENTIFIER) "Expected variable name after \x27let\x27"
    let _name ← advance
    let hasInit ← «match» [.ASSIGN]
    let _initializer : ExprPtr ←
      (if hasInit then (do
        let e ← expression n
        pure (some e))
      else pure none)
    expect («match» [.SEMI_COLON]) "Expected \x27;\x27 after variable declaration"
    pure none

/-- `Parser::block`. The loop condition `!check(RIGHT_BRACE) && !isAtEnd()` is
evaluated left to right. -/
def block : Nat → P StmtPtr
  | 0 => outOfFuel
  | n + 1 => do
    expect («match» [.LEFT_BRACE]) "Expected \x27\x7b\x27 to start block"
    let _statements ← loop (fun (statements : List StmtPtr) => do
      let closing ← check .RIGHT_BRACE
      if !closing then do
        let atEnd ← isAtEnd
        if !atEnd then do
          let s ← statement n
          pure (.next (statements ++ [s]))
        else pure (.done statements)
      else pure (.done statements)) n []
    expect («match» [.RIGHT_BRACE]) "Expected \x27\x7d\x27 after block"
    pure none

/-- `Parser::statement`. -/
def statement : Nat → P StmtPtr
  | 0 => outOfFuel
  | n + 1 => do
    let isIf ← «match» [.IF]
    if isIf then if_statement n
    else do
      let isWhile ← «match» [.WHILE]
      if isWhile then while_statement n
      else do
        let isReturn ← «match» [.RETURN]
        if isReturn then return_statement n
        else do
          let isFor ← «match» [.FOR]
          if isFor then for_statement n
          else do
            let isLet ← «match» [.LET]
            if isLet then variable_decl n
            else do
              let isBlock ← «match» [.LEFT_BRACE]
              if isBlock then block n
              else do
                let isEmpty ← «match» [.SEMI_COLON]
                if isEmpty then pure none
                else expression_statement n

/-- `Parser::expression_statement`. -/
def expression_statement : Nat → P StmtPtr
  | 0 => outOfFuel
  | n + 1 => do
    let _expr ← expression n
    expect («match» [.SEMI_COLON]) "Expected \x27;\x27 after expression"
    pure none

/-- `Parser::if_statement`. -/
def if_statement : Nat → P StmtPtr
  | 0 => outOfFuel
  | n + 1 => do
    expect («match» [.LEFT_PARENTHESIS]) "Expected \x27(\x27 after \x27if\x27"
    let _condition ← expression n
    expect («match» [.RIGHT_PARENTHESIS]) "Expected \x27)\x27 after if condition"
    let _thenBranch ← statement n
    let hasElse ← «match» [.ELSE]
    let _elseBranch : StmtPtr ← (if hasElse then statement n else pure none)
    pure none

/-- `Parser::while_statement`. -/
def while_statement : Nat → P StmtPtr
  | 0 => outOfFuel
  | n + 1 => do
    expect («match» [.LEFT_PARENTHESIS]) "Expected \x27(\x27 after \x27while\x27"
    let _condition ← expression n
    expect («match» [.RIGHT_PARENTHESIS]) "Expected \x27)\x27 after while condition"
    let _body ← statement n
    pure none

/-- `Parser::for_statement`. -/
def for_statement : Nat → P StmtPtr
  | 0 => outOfFuel
  | n + 1 => do
    expect («match» [.LEFT_PARENTHESIS]) "Expected \x27(\x27 after \x27for\x27"
    let emptyInit ← «match» [.SEMI_COLON]
    let _initializer : StmtPtr ←
      (if emptyInit then pure none
      else (do
        let isLet ← «match» [.LET]
        if isLet then variable_decl n
        else expression_statement n))
    let noCondition ← check .SEMI_COLON
    let _condition : ExprPtr ←
      (if !noCondition then (do
        let e ← expression n
        pure (some e))
      else pure none)
    expect («match» [.SEMI_COLON]) "Expected \x27;\x27 after loop condition"
    let noIncrement ← check .RIGHT_PARENTHESIS
    let _increment : ExprPtr ←
      (if !noIncrement then (do
        let e ← expression n
        pure (some e))
      else pure none)
    expect («match» [.RIGHT_PARENTHESIS]) "Expected \x27)\x27 after for clauses"
    let _body ← statement n
    pure none

/-- `Parser::return_statement`. -/
def return_statement : Nat → P StmtPtr
  | 0 => outOfFuel
  | n + 1 => do
    let noValue ← check .SEMI_COLON
    let _value : ExprPtr ←
      (if !noValue then (do
        let e ← expression n
        pure (some e))
      else pure none)
    expect («match» [.SEMI_COLON]) "Expected \x27;\x27 after return statement"
    pure none

/-- `Parser::expression`. -/
def expression : Nat → P Expr
  | 0 => outOfFuel
  | n + 1 => assignment n

/-- `Parser::assignment`: once `=` is matched and the right side parsed, the rule
reports the target as invalid and throws, whatever the left operand is. -/
def assignment : Nat → P Expr
  | 0 => outOfFuel
  | n + 1 => do
    let expr ← logical_or n
    let isAssign ← «match» [.ASSIGN]
    if isAssign then do
      let equals ← previous
      let _value ← assignment n
      error equals "Invalid assignment target."
      raise
    else pure expr

/-- `Parser::logical_or`: the right operand is parsed and dropped. -/
def logical_or : Nat → P Expr
  | 0 => outOfFuel
  | n + 1 => do
    let expr ← logical_and n
    loop (fun (expr : Expr) => do
      let found ← «match» [.OR]
      if found then do
        let _op ← previous
        let _right ← logical_and n
        pure (.next expr)
      else pure (.done expr)) n expr

/-- `Parser::logical_and`: the right operand is parsed and dropped. -/
def logical_and : Nat → P Expr
  | 0 => outOfFuel
  | n + 1 => do
    let expr ← equality n
    loop (fun (expr : Expr) => do
      let found ← «match» [.AND]
      if found then do
        let _op ← previous
        let _right ← equality n
        pure (.next expr)
      else pure (.done expr)) n expr

/-- `Parser::equality`: the right operand is parsed and dropped. -/
def equality : Nat → P Expr
  | 0 => outOfFuel
  | n + 1 => do
    let expr ← comparison n
    loop (fun (expr : Expr) => do
      let found ← «match» [.EQUAL, .NOT_EQUAL]
      if found then do
        let _op ← previous
        let _right ← comparison n
        pure (.next expr)
      else pure (.done expr)) n expr

/-- `Parser::comparison`. -/
def comparison : Nat → P Expr
  | 0 => outOfFuel
  | n + 1 => do
    let expr ← addition n
    loop (fun (expr : Expr) => do
      let found ← «match» [.LESS_THAN, .LESS_THAN_OR_EQUAL, .GREATER_THAN,
        .GREATER_THAN_OR_EQUAL]
      if found then do
        let op ← previous
        let right ← addition n
        pure (.next (Expr.Binary op.type expr right))
      else pure (.done expr)) n expr

/-- `Parser::addition`. -/
def addition : Nat → P Expr
  | 0 => outOfFuel
  | n + 1 => do
    let expr ← multiplication n
    loop (fun (expr : Expr) => do
      let found ← «match» [.ADD, .SUBTRACT]
      if found then do
        let op ← previous
        let right ← multiplication n
        pure (.next (Expr.Binary op.type expr right))
      else pure (.done expr)) n expr

/-- `Parser::multiplication`. -/
def multiplication : Nat → P Expr
  | 0 => outOfFuel
  | n + 1 => do
    let expr ← unary n
    loop (fun (expr : Expr) => do
      let found ← «match» [.MULTIPLY, .DIVIDE]
      if found then do
        let op ← previous
        let right ← unary n
        pure (.next (Expr.Binary op.type expr right))
      else pure (.done expr)) n expr

/-- `Parser::unary`. -/
def unary : Nat → P Expr
  | 0 => outOfFuel
  | n + 1 => do
    let found ← «match» [.NOT, .SUBTRACT]
    if found then do
      let op ← previous
      let right ← unary n
      pure (Expr.Unary op.type right)
    else primary n

/-- `Parser::primary`. -/
def primary : Nat → P Expr
  | 0 => outOfFuel
  | n + 1 => do
    let isLiteral ← «match» [.INT_LITERAL, .FLOAT_LITERAL, .STRING_LITERAL,
      .BOOLEAN_LITERAL, .NULL_LITERAL]
    if isLiteral then do
      let literal ← previous
      pure (Expr.Literal literal)
    else do
      let isIdentifier ← «match» [.IDENTIFIER]
      if isIdentifier then do
        let id ← previous
        let isCall ← check .LEFT_PARENTHESIS
        if isCall then function_call n (Expr.Variable id.value)
        else pure (Expr.Variable id.value)
      else do
        let isGroup ← «match» [.LEFT_PARENTHESIS]
        if isGroup then do
          let expr ← expression n
          expect («match» [.RIGHT_PARENTHESIS]) "Expected \x27)\x27 after expression."
          pure expr
        else fail "Expected expression."

/-- `Parser::function_call`. -/
def function_call : Nat → Expr → P Expr
  | 0, _ => outOfFuel
  | n + 1, callee => do
    expect («match» [.LEFT_PARENTHESIS]) "Expected \x27(\x27 after function name"
    let noArgs ← check .RIGHT_PARENTHESIS
    let args ← (if !noArgs then argument_list n else pure [])
    expect («match» [.RIGHT_PARENTHESIS]) "Expected \x27)\x27 after arguments"
    pure (Expr.Call callee args)

/-- `Parser::argument_list`. -/
def argument_list : Nat → P (List Expr)
  | 0 => outOfFuel
  | n + 1 =>
    loop (fun (args : List Expr) => do
      let e ← expression n
      let more ← «match» [.COMMA]
      if more then pure (.next (args ++ [e]))
      else pure (.done (args ++ [e]))) n []

end

/-- One round of the loop of `Parser::program`: a declaration that throws adds nothing
and is followed by `synchronize`. -/
def programRound (fuel : Nat) (declarations : List StmtPtr) : P (Step (List StmtPtr)) := do
  let atEnd ← isAtEnd
  if !atEnd then
    tryCatch
      (do
        let s ← declaration fuel
        pure (.next (declarations ++ [s])))
      (do
        synchronize
        pure (.next declarations))
  else pure (.done declarations)

/-- `Parser::program`. -/
def program (fuel : Nat) : P (List StmtPtr) :=
  loop (programRound fuel) fuel []

/-- Recursion budget that `Parser::parse` gives to `program` for a token array; by
`parse_ok` it is never used up when the array holds an end-of-input token. -/
def parseFuel (tokens : List Token) : Nat := 32 * (tokens.length + 1)

/-- The constructor `Parser::Parser(tokens)`. -/
def Parser.new (tokens : List Token) : Parser := ⟨tokens, 0, []⟩

/-- `Parser::parse` on a freshly constructed parser for `tokens`. -/
def parse (tokens : List Token) : Outcome (List StmtPtr) :=
  program (parseFuel tokens) (Parser.new tokens)

/-! ## The scanner of `Lexer.hpp` -/

/-- `std::isspace` in the "C" locale: space, `\t`, `\n`, `\v`, `\f`, `\r`. -/
def isspace (c : Char) : Bool :=
  c = ' ' || c = '\t' || c = '\n' || c = '\x0b' || c = '\x0c' || c = '\r'

/-- `std::isalpha` in the "C" locale: the ASCII letters. -/
def isalpha (c : Char) : Bool := c.isAlpha

/-- `std::isdigit`: the ASCII digits. -/
def isdigit (c : Char) : Bool := c.isDigit

/-- `std::isalnum` in the "C" locale. -/
def isalnum (c : Char) : Bool := isalpha c || isdigit c

/-- The scanner object: the source text (one `Char` for each `char` of the
`std::string`), the cursor `position`, and the `line` and `column` counters. The counters
are `int` in the source; the model holds the values they have as long as no increment
has overflowed, which is the case on every source of fewer than `2^31 - 1` characters
(`inStep_int_range`). -/
structure Lexer where
  source : List Char
  position : Nat
  line : Int
  column : Int
  deriving DecidableEq, Repr

/-- The constructor `Lexer::Lexer(source)`. -/
def Lexer.new (source : List Char) : Lexer := ⟨source, 0, 1, 1⟩

/-- `Lexer::advance`. Every call site has `position < source.size()`. The increments
are those of the source as long as `line++` and `column++` do not leave the range of
`int`, where the source has no defined behaviour: from counters in step with the cursor
and on a source of fewer than `2^31 - 1` characters they do not (`advance_inStep`,
`inStep_int_range`). -/
def Lexer.advance (lx : Lexer) : Lexer :=
  if lx.source[lx.position]? = some '\n' then
    { lx with line := lx.line + 1, column := 1, position := lx.position + 1 }
  else { lx with column := lx.column + 1, position := lx.position + 1 }

/-- The loop of `Lexer::skipWhitespace`, for at most `fuel` rounds. -/
def Lexer.skipWhitespaceLoop : Nat → Lexer → Lexer
  | 0, lx => lx
  | fuel + 1, lx =>
    match lx.source[lx.position]? with
    | some c => if isspace c then skipWhitespaceLoop fuel lx.advance else lx
    | none => lx

/-- `Lexer::skipWhitespace`. Each round of the loop moves `position` by one, so the
number of characters left bounds the rounds: when the bound is reached, `position` is
`source.size()` and the loop condition is false (`skipWhitespace_eq`). -/
def Lexer.skipWhitespace (lx : Lexer) : Lexer :=
  lx.skipWhitespaceLoop (lx.source.length - lx.position)

/-- `Lexer::makeToken`. -/
def Lexer.makeToken (lx : Lexer) (type : TokenType) (value : String) : Token :=
  ⟨type, value, lx.line, lx.column - value.length⟩

/-- `std::string::substr(pos, len)`. -/
def substr (source : List Char) (pos len : Nat) : String :=
  String.mk ((source.drop pos).take len)

/-- The loop of `Lexer::lexIdentifier`, for at most `fuel` rounds. -/
def Lexer.lexIdentifierLoop : Nat → Lexer → Lexer
  | 0, lx => lx
  | fuel + 1, lx =>
    match lx.source[lx.position]? with
    | some c => if isalnum c || c = '_' then lexIdentifierLoop fuel lx.advance else lx
    | none => lx

/-- `Lexer::lexIdentifier` (no function calls it). -/
def Lexer.lexIdentifier (lx : Lexer) : Token × Lexer :=
  let start := lx.position
  let startCol := lx.column
  let lx1 := lx.lexIdentifierLoop (lx.source.length - lx.position)
  (⟨.IDENTIFIER, substr lx.source start (lx1.position - start), lx1.line, startCol⟩, lx1)

/-- The loop of `Lexer::lexString`, for at most `fuel` rounds; the `break` statements are
the branches that return. -/
def Lexer.lexStringLoop : Nat → String → Lexer → String × Lexer
  | 0, strContent, lx => (strContent, lx)
  | fuel + 1, strContent, lx =>
    match lx.source[lx.position]? with
    | none => (strContent, lx)
    | some current =>
      if current = '"' then (strContent, lx.advance)
      else if current = '\\' then
        match lx.advance.source[lx.advance.position]? with
        | none => (strContent, lx.advance)
        | some nextChar =>
          if nextChar = '"' ∨ nextChar = '\\' then
            lexStringLoop fuel (strContent.push nextChar) lx.advance.advance
          else
            lexStringLoop fuel ((strContent.push '\\').push nextChar) lx.advance.advance
      else lexStringLoop fuel (strContent.push current) lx.advance

/-- `Lexer::lexString`: the token carries the line counter as it is after the scan. -/
def Lexer.lexString (lx : Lexer) : Token × Lexer :=
  let startColumn := lx.column
  let lx1 := lx.advance
  let r := Lexer.lexStringLoop (lx1.source.length - lx1.position) "" lx1
  (⟨.STRING_LITERAL, r.1, r.2.line, startColumn⟩, r.2)

/-- The loop of `Lexer::lexBoolean`, for at most `fuel` rounds. -/
def Lexer.lexBooleanLoop : Nat → String → Lexer → String × Lexer
  | 0, ident, lx => (ident, lx)
  | fuel + 1, ident, lx =>
    match lx.source[lx.position]? with
    | some c => if isalpha c then lexBooleanLoop fuel (ident.push c) lx.advance else (ident, lx)
    | none => (ident, lx)

/-- The table `keywords` of `Lexer::lexBoolean`. -/
def keywords : List (String × TokenType) :=
  [("return", .RETURN), ("function", .FUNCTION), ("if", .IF), ("else", .ELSE),
    ("true", .BOOLEAN_LITERAL), ("false", .BOOLEAN_LITERAL), ("null", .NULL_LITERAL),
    ("and", .AND), ("or", .OR), ("not", .NOT), ("while", .WHILE), ("for", .FOR),
    ("in", .IN), ("let", .LET)]

/-- `Lexer::lexBoolean`: the run of letters at the cursor, looked up in `keywords`. -/
def Lexer.lexBoolean (lx : Lexer) : Token × Lexer :=
  let startColumn := lx.column
  let r := Lexer.lexBooleanLoop (lx.source.length - lx.position) "" lx
  match keywords.lookup r.1 with
  | some type => (⟨type, r.1, r.2.line, startColumn⟩, r.2)
  | none => (⟨.IDENTIFIER, r.1, r.2.line, startColumn⟩, r.2)

/-- The loop of `Lexer::lexNumber`, for at most `fuel` rounds. -/
def Lexer.lexNumberLoop : Nat → Lexer → Lexer
  | 0, lx => lx
  | fuel + 1, lx =>
    match lx.source[lx.position]? with
    | some c => if isdigit c then lexNumberLoop fuel lx.advance else lx
    | none => lx

/-- `Lexer::lexNumber`. -/
def Lexer.lexNumber (lx : Lexer) : Token × Lexer :=
  let start := lx.position
  let startCol := lx.column
  let lx1 := lx.lexNumberLoop (lx.source.length - lx.position)
  (⟨.INT_LITERAL, substr lx.source start (lx1.position - start), lx1.line, startCol⟩, lx1)

/-- `Lexer::lexAssignOrEqual`. -/
def Lexer.lexAssignOrEqual (lx : Lexer) : Token × Lexer :=
  let startCol := lx.column
  let lx1 := lx.advance
  if lx1.source[lx1.position]? = some '=' then
    (⟨.EQUAL, "==", lx1.advance.line, startCol⟩, lx1.advance)
  else (⟨.ASSIGN, "=", lx1.line, startCol⟩, lx1)

/-- The statements `advance(); return makeToken(type, value);` of the `switch` in
`Lexer::getNextToken`. -/
def Lexer.single (lx : Lexer) (type : TokenType) (value : String) : Token × Lexer :=
  (lx.advance.makeToken type value, lx.advance)

/-- `Lexer::getNextToken`: the token and the scanner after the call. -/
def Lexer.getNextToken (lx0 : Lexer) : Token × Lexer :=
  let lx := lx0.skipWhitespace
  match lx.source[lx.position]? with
  | none => (lx.makeToken .END_OF_FILE "", lx)
  | some current =>
    if current = 'f' ∨ current = 't' then lx.lexBoolean
    else if isalpha current ∨ current = '_' then lx.lexBoolean
    else if isdigit current then lx.lexNumber
    else if current = '"' then lx.lexString
    else if current = '+' then lx.single .ADD "+"
    else if current = '-' then lx.single .SUBTRACT "-"
    else if current = '=' then lx.lexAssignOrEqual
    else if current = '(' then lx.single .LEFT_PARENTHESIS "("
    else if current = ')' then lx.single .RIGHT_PARENTHESIS ")"
    else if current = ';' then lx.single .SEMI_COLON ";"
    else if current = '\x7b' then lx.single .LEFT_BRACKET "\x7b"
    else if current = '\x7d' then lx.single .RIGHT_BRACKET "\x7d"
    else if current = '[' then lx.single .LEFT_BRACE "]"
    else if current = ']' then lx.single .RIGHT_BRACE "]"
    else if current = '.' then lx.single .DOT "."
    else if current = '"' then lx.single .STRING_LITERAL "\""
    else if current = ',' then lx.single .COMMA ","
    else if current = '!' then lx.single .NOT "!"
    else lx.single .UNKNOWN (String.singleton current)

/-- The scanner after `k` calls of `getNextToken`. -/
def Lexer.afterCalls : Nat → Lexer → Lexer
  | 0, lx => lx
  | k + 1, lx => afterCalls k lx.getNextToken.2

/-- The loop of `main` in `src/Lexer.cpp`: `getNextToken` is called until it returns the
end-of-input token. The result is the tokens in order, the end-of-input token last;
`none` when `fuel` calls did not reach it. -/
def Lexer.tokenize : Nat → Lexer → Option (List Token)
  | 0, _ => none
  | fuel + 1, lx =>
    if lx.getNextToken.1.type = .END_OF_FILE then some [lx.getNextToken.1]
    else (tokenize fuel lx.getNextToken.2).map (lx.getNextToken.1 :: ·)

/-! ## Vocabulary of the statements -/

/-- Token kinds that `Parser::primary` turns into a literal node. -/
def literalKinds : List TokenType :=
  [.INT_LITERAL, .FLOAT_LITERAL, .STRING_LITERAL, .BOOLEAN_LITERAL, .NULL_LITERAL]

def operatorKinds : List TokenType :=
  [.OR, .AND, .EQUAL, .NOT_EQUAL, .LESS_THAN, .LESS_THAN_OR_EQUAL, .GREATER_THAN,
    .GREATER_THAN_OR_EQUAL, .ADD, .SUBTRACT, .MULTIPLY, .DIVIDE, .ASSIGN]

/-- A token of the given kind and text, placed at line 1, column 1 (the parser never
reads the position). -/
def tok (type : TokenType) (value : String) : Token := ⟨type, value, 1, 1⟩

/-- The tokens `op1 x1 ... opk xk` that follow the first operand of a chain. -/
def chainTokens : List (Token × Token) → List Token
  | [] => []
  | (op, x) :: rest => op :: x :: chainTokens rest

/-- The left fold of a chain over its first operand: each operator makes the tree built
so far its left operand and the next literal its right operand. -/
def leftFold (acc : Expr) : List (Token × Token) → Expr
  | [] => acc
  | (op, x) :: rest => leftFold (.Binary op.type acc (.Literal x)) rest

/-- Every value that a member function returns normally satisfies `V`. -/
def Returns {α : Type} (m : P α) (V : α → Prop) : Prop :=
  ∀ p a q, m p = .ok a q → V a

/-- The parser state `p` seen inside a longer run: `pre` are tokens in front of its token
array and `errs` are diagnostics reported before its own. -/
def Parser.shift (pre : List Token) (errs : List (Token × String)) (p : Parser) : Parser :=
  ⟨pre ++ p.tokens, pre.length + p.current, errs ++ p.errors⟩

/-- The outcome of a call, seen inside the longer run. -/
def Outcome.shift {α : Type} (pre : List Token) (errs : List (Token × String)) :
    Outcome α → Outcome α
  | .ok a p => .ok a (p.shift pre errs)
  | .raised p => .raised (p.shift pre errs)
  | .outOfBounds => .outOfBounds
  | .noFuel => .noFuel

/-- The call `m2` follows the call `m1`: wherever `m1` ends within its budget and within
the token array, `m2` run inside the longer run ends the same way. -/
def Sim (pre : List Token) (errs : List (Token × String)) {α : Type} (m1 m2 : P α) : Prop :=
  ∀ p, m1 p ≠ .noFuel → m1 p ≠ .outOfBounds → m2 (p.shift pre errs) = (m1 p).shift pre errs

/-- The cursor of `p` is on a token that is not the end-of-input token. -/
def NotAtEnd (p : Parser) : Prop :=
  ∃ t, p.tokens[p.current]? = some t ∧ t.type ≠ .END_OF_FILE

/-- What a loop body owes for termination: a round that asks for another round has moved
the cursor beyond `c`. -/
def Step.Advanced {σ : Type} (c : Nat) : Step σ → Parser → Prop
  | .next _, r => c < r.current
  | .done _, _ => True

/-- The token array `ts` holds an end-of-input token at index `e`. -/
def EofAt (ts : List Token) (e : Nat) : Prop :=
  ∃ t, ts[e]? = some t ∧ t.type = .END_OF_FILE

/-- A call of `m` from the state `p`, whose token array is `ts` and whose cursor has not
passed the end-of-input token at index `e`, stays inside the array and inside its budget:
it returns or throws, with the same token array, a cursor that went forward at most up to
`e`, and no diagnostic lost. A normal return satisfies `Q`; a throw comes with more than
`o` diagnostics reported. -/
def Sound (ts : List Token) (e o : Nat) {α : Type} (m : P α) (p : Parser)
    (Q : α → Parser → Prop) : Prop :=
  p.tokens = ts → p.current ≤ e →
    match m p with
    | .ok a q => q.tokens = ts ∧ p.current ≤ q.current ∧ q.current ≤ e
        ∧ p.errors.length ≤ q.errors.length ∧ Q a q
    | .raised q => q.tokens = ts ∧ p.current ≤ q.current ∧ q.current ≤ e
        ∧ p.errors.length ≤ q.errors.length ∧ o < q.errors.length
    | .outOfBounds => False
    | .noFuel => False

/-- What `Parser::parse` hands back, in comparable form: the number of statements
returned, the final cursor, and the diagnostics; `none` when it does not return. -/
def parseSummary : Outcome (List StmtPtr) → Option (Nat × Nat × List (Token × String))
  | .ok ds p => some (ds.length, p.current, p.errors)
  | _ => none

/-- Where a call threw: the cursor and the diagnostics at the throw; `none` when the call
did not throw. -/
def raisedAt {α : Type} : Outcome α → Option (Nat × List (Token × String))
  | .raised p => some (p.current, p.errors)
  | _ => none

/-- The kinds of the binary operators. -/
def binaryKinds : List TokenType :=
  [.OR, .AND, .EQUAL, .NOT_EQUAL, .LESS_THAN, .LESS_THAN_OR_EQUAL, .GREATER_THAN,
    .GREATER_THAN_OR_EQUAL, .ADD, .SUBTRACT, .MULTIPLY, .DIVIDE]

/-- What `Parser::parse` hands back, each statement pointer reduced to whether it holds a
node: the flags, the final cursor, and the diagnostics; `none` when it does not return. -/
def parseShape : Outcome (List StmtPtr) → Option (List Bool × Nat × List (Token × String))
  | .ok ds p => some (ds.map Option.isSome, p.current, p.errors)
  | _ => none

/-- The decoding of a string-literal body as the specification words it: `\"` gives `"`,
`\\` gives `\`, any other `\X` stays the two characters `\X`, and every other character
stands for itself. -/
def decode : List Char → List Char
  | [] => []
  | [c] => [c]
  | c :: x :: rest =>
    if c = '\\' then
      (if x = '"' ∨ x = '\\' then x :: decode rest else c :: x :: decode rest)
    else c :: decode (x :: rest)

/-- A string-literal body that a closing quote can follow: read from the left, it holds
no quote outside an escape and does not end inside an escape. -/
def escapedBody : List Char → Bool
  | [] => true
  | [c] => c ≠ '"' && c ≠ '\\'
  | c :: x :: rest =>
    if c = '\\' then escapedBody rest else c ≠ '"' && escapedBody (x :: rest)

/-- The classification of a word as the specification words it: the keyword kind of a
keyword, the boolean literal for `true` and `false`, the null literal for `null`, and an
identifier otherwise. -/
def wordKind (w : String) : TokenType :=
  if w = "function" then .FUNCTION
  else if w = "let" then .LET
  else if w = "if" then .IF
  else if w = "else" then .ELSE
  else if w = "while" then .WHILE
  else if w = "for" then .FOR
  else if w = "in" then .IN
  else if w = "return" then .RETURN
  else if w = "and" then .AND
  else if w = "or" then .OR
  else if w = "not" then .NOT
  else if w = "true" ∨ w = "false" then .BOOLEAN_LITERAL
  else if w = "null" then .NULL_LITERAL
  else .IDENTIFIER

/-- The 1-based line of the character at index `i` of a source: one more than the number
of newlines in front of it. -/
def lineAt (source : List Char) (i : Nat) : Int :=
  1 + ((source.take i).count '\n' : Nat)

/-- The 1-based column of the character at index `i` of a source: one more than the
number of characters between the last newline in front of it and itself. -/
def columnAt (source : List Char) (i : Nat) : Int :=
  1 + (((source.take i).reverse.takeWhile (· ≠ '\n')).length : Nat)

/-- The counters of the scanner agree with its cursor: `line` and `column` are the line
and column of the character at `position`. -/
def Lexer.InStep (lx : Lexer) : Prop :=
  lx.position ≤ lx.source.length ∧ lx.line = lineAt lx.source lx.position
    ∧ lx.column = columnAt lx.source lx.position

/-- The kinds of the claim that the scanner never produces them. -/
def neverKinds : List TokenType :=
  [.FLOAT_LITERAL, .MULTIPLY, .DIVIDE, .NOT_EQUAL, .LESS_THAN, .LESS_THAN_OR_EQUAL,
    .GREATER_THAN, .GREATER_THAN_OR_EQUAL, .KEYWORD, .NEW_LINE, .COMMENT]

/-- The one-character tokens other than `[`, each with the kind that the `switch` of
`Lexer::getNextToken` gives it. -/
def punctuation : List (Char × TokenType) :=
  [('+', .ADD), ('-', .SUBTRACT), ('(', .LEFT_PARENTHESIS), (')', .RIGHT_PARENTHESIS),
    (';', .SEMI_COLON), ('\x7b', .LEFT_BRACKET), ('\x7d', .RIGHT_BRACKET),
    (']', .RIGHT_BRACE), ('.', .DOT), (',', .COMMA), ('!', .NOT)]

/-- Where `Parser::synchronize` may stop: the cursor `s` is on the end-of-input token, or
the token before it is a `;`, or the token at it starts a statement-level construct. -/
def SyncStop (tokens : List Token) (s : Nat) : Prop :=
  (∃ t, tokens[s]? = some t ∧ t.type = .END_OF_FILE)
    ∨ (∃ t, tokens[s - 1]? = some t ∧ t.type = .SEMI_COLON)
    ∨ (∃ t, tokens[s]? = some t ∧ t.type ∈ syncKinds)

/-! ## Running the helpers -/

@[simp] theorem run_pure {α : Type} (a : α) (p : Parser) : (pure a : P α) p = .ok a p := rfl

@[simp] theorem run_bind {α β : Type} (m : P α) (k : α → P β) (p : Parser) :
    (m >>= k) p = (m p).andThen k := rfl

@[simp] theorem andThen_ok {α β : Type} (a : α) (p : Parser) (k : α → P β) :
    (Outcome.ok a p).andThen k = k a p := rfl

@[simp] theorem andThen_raised {α β : Type} (p : Parser) (k : α → P β) :
    (Outcome.raised p : Outcome α).andThen k = .raised p := rfl

@[simp] theorem andThen_outOfBounds {α β : Type} (k : α → P β) :
    (Outcome.outOfBounds : Outcome α).andThen k = .outOfBounds := rfl

@[simp] theorem andThen_noFuel {α β : Type} (k : α → P β) :
    (Outcome.noFuel : Outcome α).andThen k = .noFuel := rfl

@[simp] theorem run_ite {α : Type} (c : Prop) [Decidable c] (t e : P α) (p : Parser) :
    (if c then t else e) p = if c then t p else e p := by
  split <;> rfl

@[simp] theorem run_raise {α : Type} (p : Parser) : (raise : P α) p = .raised p := rfl

@[simp] theorem run_outOfFuel {α : Type} (p : Parser) : (outOfFuel : P α) p = .noFuel := rfl

@[simp] theorem run_error (t : Token) (msg : String) (p : Parser) :
    error t msg p = .ok () { p with errors := p.errors ++ [(t, msg)] } := rfl

@[simp] theorem run_incrCurrent (p : Parser) :
    incrCurrent p = .ok () { p with current := p.current + 1 } := rfl

theorem run_peek {p : Parser} {t : Token} (h : p.tokens[p.current]? = some t) :
    peek p = .ok t p := by
  simp [peek, h]

theorem run_previous {p : Parser} {t : Token} {c : Nat} (hc : p.current = c + 1)
    (h : p.tokens[c]? = some t) : previous p = .ok t p := by
  simp [previous, hc, h]

theorem run_isAtEnd {p : Parser} {t : Token} (h : p.tokens[p.current]? = some t) :
    isAtEnd p = .ok (decide (t.type = .END_OF_FILE)) p := by
  simp [isAtEnd, run_peek h]

theorem run_check {p : Parser} {t : Token} (h : p.tokens[p.current]? = some t)
    (type : TokenType) :
    check type p = .ok (decide (t.type ≠ .END_OF_FILE ∧ t.type = type)) p := by
  by_cases he : t.type = .END_OF_FILE <;> simp [check, run_isAtEnd h, run_peek h, he]

theorem run_advance {p : Parser} {t : Token} (h : p.tokens[p.current]? = some t)
    (he : t.type ≠ .END_OF_FILE) :
    advance p = .ok t { p with current := p.current + 1 } := by
  simp [advance, run_isAtEnd h, he, previous, h]

theorem run_match_true {p : Parser} {t : Token} (h : p.tokens[p.current]? = some t)
    (he : t.type ≠ .END_OF_FILE) {T : List TokenType} (hm : t.type ∈ T) :
    «match» T p = .ok true { p with current := p.current + 1 } := by
  induction T with
  | nil => simp at hm
  | cons ty tys ih =>
    by_cases hty : t.type = ty
    · simp [«match», run_check h, he, hty.symm ▸ he, hty, run_advance h he]
    · have : t.type ∈ tys := by simpa [hty] using hm
      simp [«match», run_check h, hty, ih this]

theorem run_match_false {p : Parser} {t : Token} (h : p.tokens[p.current]? = some t)
    {T : List TokenType} (hm : t.type ∉ T) :
    «match» T p = .ok false p := by
  induction T with
  | nil => simp [«match»]
  | cons ty tys ih =>
    have h1 : t.type ≠ ty := fun h' => hm (by simp [h'])
    have h2 : t.type ∉ tys := fun h' => hm (by simp [h'])
    simp [«match», run_check h, h1, ih h2]

theorem run_match_eof {p : Parser} {t : Token} (h : p.tokens[p.current]? = some t)
    (he : t.type = .END_OF_FILE) (T : List TokenType) :
    «match» T p = .ok false p := by
  induction T with
  | nil => simp [«match»]
  | cons ty tys ih => simp [«match», run_check h, he, ih]

theorem loop_next {σ : Type} {body : σ → P (Step σ)} {s r : σ} {p q : Parser}
    (h : body s p = .ok (.next r) q) (k : Nat) :
    loop body (k + 1) s p = loop body k r q := by
  simp [loop, h]

theorem loop_done {σ : Type} {body : σ → P (Step σ)} {s r : σ} {p q : Parser}
    (h : body s p = .ok (.done r) q) (k : Nat) :
    loop body (k + 1) s p = .ok r q := by
  simp [loop, h]

theorem loop_raised {σ : Type} {body : σ → P (Step σ)} {s : σ} {p q : Parser}
    (h : body s p = .raised q) (k : Nat) :
    loop body (k + 1) s p = .raised q := by
  simp [loop, h]

theorem getElem?_of_drop {l : List Token} {c : Nat} {t : Token} {ts : List Token}
    (h : l.drop c = t :: ts) : l[c]? = some t ∧ l.drop (c + 1) = ts := by
  constructor
  · have := List.getElem?_drop (L := l) (i := c) (j := 0)
    simpa [h] using this.symm
  · have : l.drop (c + 1) = (l.drop c).drop 1 := by simp [List.drop_drop, Nat.add_comm]
    simp [this, h]

theorem ne_eof_of_mem_literalKinds {k : TokenType} (h : k ∈ literalKinds) :
    k ≠ .END_OF_FILE := by
  intro he
  subst he
  simp [literalKinds] at h

/-- A literal token is turned into a literal node by `primary`. -/
theorem primary_literal (n : Nat) {p : Parser} {t : Token}
    (h : p.tokens[p.current]? = some t) (ht : t.type ∈ literalKinds) :
    primary (n + 1) p = .ok (.Literal t) { p with current := p.current + 1 } := by
  have he := ne_eof_of_mem_literalKinds ht
  have hm := run_match_true h he ht
  simp only [literalKinds] at hm
  simp [primary, hm, previous, h]

theorem unary_literal (n : Nat) {p : Parser} {t : Token}
    (h : p.tokens[p.current]? = some t) (ht : t.type ∈ literalKinds) :
    unary (n + 2) p = .ok (.Literal t) { p with current := p.current + 1 } := by
  have hm : «match» [.NOT, .SUBTRACT] p = .ok false p := by
    apply run_match_false h
    intro hc
    simp [literalKinds] at ht hc
    rcases hc with hc | hc <;> simp [hc] at ht
  simp [unary, hm, primary_literal n h ht]

/-- The loop shared by `comparison`, `addition` and `multiplication`, run on a chain
`op1 x1 ... opk xk` of literal operands that a token `u` of another kind follows: it
returns the left fold of the chain over the tree built so far. -/
theorem chain_loop (types : List TokenType) (operand : P Expr) (u : Token)
    (rest : List Token) (hu : u.type ∉ types) (heof : TokenType.END_OF_FILE ∉ types)
    (hop : ∀ (p : Parser) (x v : Token), p.tokens[p.current]? = some x →
      x.type ∈ literalKinds → p.tokens[p.current + 1]? = some v →
      (v.type ∈ types ∨ v = u) →
      operand p = .ok (.Literal x) { p with current := p.current + 1 })
    (pairs : List (Token × Token)) :
    ∀ (acc : Expr) (p : Parser) (k : Nat),
      (∀ ox ∈ pairs, ox.1.type ∈ types ∧ ox.2.type ∈ literalKinds) →
      p.tokens.drop p.current = chainTokens pairs ++ u :: rest →
      pairs.length < k →
      loop (fun (expr : Expr) => do
        let found ← «match» types
        if found then do
          let op ← previous
          let right ← operand
          pure (.next (Expr.Binary op.type expr right))
        else pure (.done expr)) k acc p
        = .ok (leftFold acc pairs) { p with current := p.current + 2 * pairs.length } := by
  induction pairs with
  | nil =>
    intro acc p k _ hd hk
    obtain ⟨k, rfl⟩ : ∃ k1, k = k1 + 1 := ⟨k - 1, by simp at hk; omega⟩
    have h0 := (getElem?_of_drop (by simpa [chainTokens] using hd)).1
    rw [loop_done (r := acc) (q := p)]
    · simp [leftFold]
    · simp [run_match_false h0 hu]
  | cons ox ps ih =>
    intro acc p k hall hd hk
    obtain ⟨op, x⟩ := ox
    obtain ⟨k, rfl⟩ : ∃ k1, k = k1 + 1 := ⟨k - 1, by simp at hk; omega⟩
    have hox := hall (op, x) (by simp)
    simp only [chainTokens, List.cons_append] at hd
    obtain ⟨h0, hd1⟩ := getElem?_of_drop hd
    obtain ⟨h1, hd2⟩ := getElem?_of_drop hd1
    have hne : op.type ≠ .END_OF_FILE := fun he => heof (he ▸ hox.1)
    have hv : ∃ v, p.tokens[p.current + 1 + 1]? = some v ∧ (v.type ∈ types ∨ v = u) := by
      cases ps with
      | nil =>
        exact ⟨u, (getElem?_of_drop (by simpa [chainTokens] using hd2)).1, Or.inr rfl⟩
      | cons oy qs =>
        refine ⟨oy.1, (getElem?_of_drop (t := oy.1) (by simpa [chainTokens] using hd2)).1,
          Or.inl (hall oy (by simp)).1⟩
    obtain ⟨v, hv1, hv2⟩ := hv
    rw [loop_next (r := .Binary op.type acc (.Literal x))
      (q := { p with current := p.current + 1 + 1 })]
    · rw [ih _ _ k (fun o ho => hall o (by simp [ho])) (by simpa using hd2)
        (by simp at hk; omega)]
      simp [leftFold]
      omega
    · have hm := run_match_true h0 hne hox.1
      have hp : previous { p with current := p.current + 1 } = .ok op _ :=
        run_previous (c := p.current) rfl h0
      have hun := hop { p with current := p.current + 1 } x v h1 hox.2 hv1 hv2
      simp [hm, hp, hun]

/-- `multiplication` on a chain `x0 op1 x1 ... opk xk` of literals joined by `*` and `/`
and followed by a token of another kind. -/
theorem multiplication_chain (n : Nat) (x0 u : Token) (rest : List Token)
    (pairs : List (Token × Token)) (p : Parser)
    (hx0 : x0.type ∈ literalKinds)
    (hall : ∀ ox ∈ pairs, ox.1.type ∈ [TokenType.MULTIPLY, TokenType.DIVIDE]
      ∧ ox.2.type ∈ literalKinds)
    (hu : u.type ∉ [TokenType.MULTIPLY, TokenType.DIVIDE])
    (hd : p.tokens.drop p.current = x0 :: (chainTokens pairs ++ u :: rest))
    (hk : pairs.length < n + 2) :
    multiplication (n + 3) p
      = .ok (leftFold (.Literal x0) pairs)
          { p with current := p.current + 1 + 2 * pairs.length } := by
  obtain ⟨h0, hd1⟩ := getElem?_of_drop hd
  rw [multiplication]
  simp only [run_bind, unary_literal n h0 hx0, andThen_ok]
  rw [chain_loop [.MULTIPLY, .DIVIDE] (unary (n + 2)) u rest hu (by simp)
    (fun q x v hq hx _ _ => unary_literal n hq hx) pairs _ _ _ hall (by simpa using hd1) hk]

/-- `multiplication` on one literal that no `*` or `/` follows. -/
theorem multiplication_literal (n : Nat) {p : Parser} {x v : Token}
    (hx : p.tokens[p.current]? = some x) (hl : x.type ∈ literalKinds)
    (hv : p.tokens[p.current + 1]? = some v)
    (hn : v.type ∉ [TokenType.MULTIPLY, TokenType.DIVIDE]) :
    multiplication (n + 3) p = .ok (.Literal x) { p with current := p.current + 1 } := by
  have hm := run_match_false (p := { p with current := p.current + 1 }) hv hn
  simp [multiplication, unary_literal n hx hl, loop, hm]

/-- `addition` on one literal that no additive or multiplicative operator follows. -/
theorem addition_literal (n : Nat) {p : Parser} {x v : Token}
    (hx : p.tokens[p.current]? = some x) (hl : x.type ∈ literalKinds)
    (hv : p.tokens[p.current + 1]? = some v)
    (hn : v.type ∉ [TokenType.ADD, TokenType.SUBTRACT, TokenType.MULTIPLY,
      TokenType.DIVIDE]) :
    addition (n + 4) p = .ok (.Literal x) { p with current := p.current + 1 } := by
  have h1 : v.type ∉ [TokenType.MULTIPLY, TokenType.DIVIDE] := by
    intro h; apply hn; simp at h ⊢; tauto
  have h2 : v.type ∉ [TokenType.ADD, TokenType.SUBTRACT] := by
    intro h; apply hn; simp at h ⊢; tauto
  have hm := run_match_false (p := { p with current := p.current + 1 }) hv h2
  simp [addition, multiplication_literal n hx hl hv h1, loop, hm]

/-- `addition` on a chain `x0 op1 x1 ... opk xk` of literals joined by `+` and `-` and
followed by a token that is no additive or multiplicative operator. -/
theorem addition_chain (n : Nat) (x0 u : Token) (rest : List Token)
    (pairs : List (Token × Token)) (p : Parser)
    (hx0 : x0.type ∈ literalKinds)
    (hall : ∀ ox ∈ pairs, ox.1.type ∈ [TokenType.ADD, TokenType.SUBTRACT]
      ∧ ox.2.type ∈ literalKinds)
    (hu : u.type ∉ [TokenType.ADD, TokenType.SUBTRACT, TokenType.MULTIPLY,
      TokenType.DIVIDE])
    (hd : p.tokens.drop p.current = x0 :: (chainTokens pairs ++ u :: rest))
    (hk : pairs.length < n + 3) :
    addition (n + 4) p
      = .ok (leftFold (.Literal x0) pairs)
          { p with current := p.current + 1 + 2 * pairs.length } := by
  obtain ⟨h0, hd1⟩ := getElem?_of_drop hd
  have hu1 : u.type ∉ [TokenType.MULTIPLY, TokenType.DIVIDE] := by
    intro h; apply hu; simp at h ⊢; tauto
  have hu2 : u.type ∉ [TokenType.ADD, TokenType.SUBTRACT] := by
    intro h; apply hu; simp at h ⊢; tauto
  have hnm : ∀ v : Token, (v.type ∈ [TokenType.ADD, TokenType.SUBTRACT] ∨ v = u) →
      v.type ∉ [TokenType.MULTIPLY, TokenType.DIVIDE] := by
    intro v hv
    rcases hv with hv | rfl
    · intro h
      simp at h hv
      rcases hv with hv | hv <;> simp [hv] at h
    · exact hu1
  have hfirst : ∃ v, p.tokens[p.current + 1]? = some v
      ∧ (v.type ∈ [TokenType.ADD, TokenType.SUBTRACT] ∨ v = u) := by
    cases pairs with
    | nil => exact ⟨u, (getElem?_of_drop (by simpa [chainTokens] using hd1)).1, Or.inr rfl⟩
    | cons oy qs =>
      exact ⟨oy.1, (getElem?_of_drop (t := oy.1) (by simpa [chainTokens] using hd1)).1,
        Or.inl (hall oy (by simp)).1⟩
  obtain ⟨v, hv1, hv2⟩ := hfirst
  rw [addition]
  simp only [run_bind, multiplication_literal n h0 hx0 hv1 (hnm v hv2), andThen_ok]
  rw [chain_loop [.ADD, .SUBTRACT] (multiplication (n + 3)) u rest hu2 (by simp)
    (fun q x w hq hx hw hw2 => multiplication_literal n hq hx hw (hnm w hw2))
    pairs _ _ _ hall (by simpa using hd1) hk]

theorem not_mem_of_not_mem_operatorKinds {k : TokenType} (h : k ∉ operatorKinds)
    {T : List TokenType} (hs : ∀ t ∈ T, t ∈ operatorKinds) : k ∉ T :=
  fun hk => h (hs k hk)

/-- When `comparison` has parsed a tree and the next token is no operator, the rules
above it hand the tree on unchanged. -/
theorem expression_of_comparison (n : Nat) {p p1 : Parser} {e : Expr} {u : Token}
    (h : comparison (n + 1) p = .ok e p1) (hu : p1.tokens[p1.current]? = some u)
    (hn : u.type ∉ operatorKinds) :
    expression (n + 6) p = .ok e p1 := by
  have h1 := run_match_false hu (not_mem_of_not_mem_operatorKinds hn
    (T := [.EQUAL, .NOT_EQUAL]) (by simp [operatorKinds]))
  have h2 := run_match_false hu (not_mem_of_not_mem_operatorKinds hn
    (T := [.AND]) (by simp [operatorKinds]))
  have h3 := run_match_false hu (not_mem_of_not_mem_operatorKinds hn
    (T := [.OR]) (by simp [operatorKinds]))
  have h4 := run_match_false hu (not_mem_of_not_mem_operatorKinds hn
    (T := [.ASSIGN]) (by simp [operatorKinds]))
  simp [expression, assignment, logical_or, logical_and, equality, h, loop, h1, h2, h3, h4]

/-- When `addition` has parsed a tree and the next token is no operator, the rules above
it hand the tree on unchanged. -/
theorem expression_of_addition (n : Nat) {p p1 : Parser} {e : Expr} {u : Token}
    (h : addition (n + 1) p = .ok e p1) (hu : p1.tokens[p1.current]? = some u)
    (hn : u.type ∉ operatorKinds) :
    expression (n + 7) p = .ok e p1 := by
  have h0 := run_match_false hu (not_mem_of_not_mem_operatorKinds hn
    (T := [.LESS_THAN, .LESS_THAN_OR_EQUAL, .GREATER_THAN, .GREATER_THAN_OR_EQUAL])
    (by simp [operatorKinds]))
  apply expression_of_comparison (n + 1) _ hu hn
  simp [comparison, h, loop, h0]

/-- When `multiplication` has parsed a tree and the next token is no operator, the rules
above it hand the tree on unchanged. -/
theorem expression_of_multiplication (n : Nat) {p p1 : Parser} {e : Expr} {u : Token}
    (h : multiplication (n + 1) p = .ok e p1) (hu : p1.tokens[p1.current]? = some u)
    (hn : u.type ∉ operatorKinds) :
    expression (n + 8) p = .ok e p1 := by
  have h0 := run_match_false hu (not_mem_of_not_mem_operatorKinds hn
    (T := [.ADD, .SUBTRACT]) (by simp [operatorKinds]))
  apply expression_of_addition (n + 1) _ hu hn
  simp [addition, h, loop, h0]

theorem getElem?_chain_end (x0 u : Token) (pairs : List (Token × Token))
    (rest : List Token) :
    (x0 :: (chainTokens pairs ++ u :: rest))[1 + 2 * pairs.length]? = some u := by
  induction pairs generalizing x0 with
  | nil => simp [chainTokens]
  | cons ox ps ih =>
    have : 1 + 2 * (ps.length + 1) = (1 + 2 * ps.length) + 1 + 1 := by omega
    simp only [List.length_cons, this, chainTokens, List.cons_append,
      List.getElem?_cons_succ]
    exact ih ox.2

/-- The operators whose rules build a binary node: on `a op b` followed by a token that is
no operator, `expression` returns `Binary(op, a, b)`. -/
theorem expression_binary_literal (fuel : Nat) (a op b u : Token) (rest : List Token)
    (ha : a.type ∈ literalKinds) (hb : b.type ∈ literalKinds)
    (hop : op.type ∈ [TokenType.LESS_THAN, TokenType.LESS_THAN_OR_EQUAL,
      TokenType.GREATER_THAN, TokenType.GREATER_THAN_OR_EQUAL, TokenType.ADD,
      TokenType.SUBTRACT, TokenType.MULTIPLY, TokenType.DIVIDE])
    (hu : u.type ∉ operatorKinds) (hfuel : 12 ≤ fuel) :
    expression fuel (Parser.new (a :: op :: b :: u :: rest))
      = .ok (.Binary op.type (.Literal a) (.Literal b))
          ⟨a :: op :: b :: u :: rest, 3, []⟩ := by
  obtain ⟨m, rfl⟩ : ∃ m, fuel = m + 12 := ⟨fuel - 12, by omega⟩
  have hu1 : u.type ∉ [TokenType.MULTIPLY, TokenType.DIVIDE] :=
    not_mem_of_not_mem_operatorKinds hu (by simp [operatorKinds])
  have hu2 : u.type ∉ [TokenType.ADD, TokenType.SUBTRACT, TokenType.MULTIPLY,
      TokenType.DIVIDE] :=
    not_mem_of_not_mem_operatorKinds hu (by simp [operatorKinds])
  have hu3 : u.type ∉ [TokenType.LESS_THAN, TokenType.LESS_THAN_OR_EQUAL,
      TokenType.GREATER_THAN, TokenType.GREATER_THAN_OR_EQUAL] :=
    not_mem_of_not_mem_operatorKinds hu (by simp [operatorKinds])
  have hcases : op.type ∈ [TokenType.LESS_THAN, TokenType.LESS_THAN_OR_EQUAL,
      TokenType.GREATER_THAN, TokenType.GREATER_THAN_OR_EQUAL]
      ∨ op.type ∈ [TokenType.ADD, TokenType.SUBTRACT]
      ∨ op.type ∈ [TokenType.MULTIPLY, TokenType.DIVIDE] := by
    simp at hop ⊢
    tauto
  rcases hcases with hc | hc | hc
  · apply expression_of_comparison (m + 6) (u := u) _ (by simp) hu
    have hna : ∀ v : Token, (v.type ∈ [TokenType.LESS_THAN, TokenType.LESS_THAN_OR_EQUAL,
        TokenType.GREATER_THAN, TokenType.GREATER_THAN_OR_EQUAL] ∨ v = u) →
        v.type ∉ [TokenType.ADD, TokenType.SUBTRACT, TokenType.MULTIPLY,
          TokenType.DIVIDE] := by
      intro v hv
      rcases hv with hv | rfl
      · intro h
        simp at h hv
        rcases hv with hv | hv | hv | hv <;> simp [hv] at h
      · exact hu2
    have h1 := addition_literal (m + 2) (x := a) (v := op)
      (p := Parser.new (a :: op :: b :: u :: rest)) (by simp [Parser.new]) ha
      (by simp [Parser.new]) (hna op (Or.inl hc))
    have h2 := chain_loop [.LESS_THAN, .LESS_THAN_OR_EQUAL, .GREATER_THAN,
      .GREATER_THAN_OR_EQUAL] (addition (m + 6)) u rest hu3 (by simp)
      (fun q x w hq hx hw hw2 => addition_literal (m + 2) hq hx hw (hna w hw2))
      [(op, b)] (.Literal a) ⟨a :: op :: b :: u :: rest, 1, []⟩ (m + 6)
      (by intro ox hox; simp at hox; subst hox; exact ⟨hc, hb⟩) (by simp [chainTokens]) (by simp)
    rw [comparison]
    simp only [run_bind, h1, andThen_ok]
    simpa [Parser.new, leftFold] using h2
  · apply expression_of_addition (m + 5) (u := u) _ (by simp) hu
    have := addition_chain (m + 2) a u rest [(op, b)]
      (Parser.new (a :: op :: b :: u :: rest)) ha
      (by intro ox hox; simp at hox; subst hox; exact ⟨hc, hb⟩) hu2
      (by simp [chainTokens, Parser.new]) (by simp)
    simpa [Parser.new, leftFold] using this
  · apply expression_of_multiplication (m + 4) (u := u) _ (by simp) hu
    have := multiplication_chain (m + 2) a u rest [(op, b)]
      (Parser.new (a :: op :: b :: u :: rest)) ha
      (by intro ox hox; simp at hox; subst hox; exact ⟨hc, hb⟩) hu1
      (by simp [chainTokens, Parser.new]) (by simp)
    simpa [Parser.new, leftFold] using this

/-- C4: on a chain `x0 op1 x1 ... opk xk` of literal operands whose operators are all
`+`/`-` or all `*`/`/`, followed by a token that is no operator, `Parser::expression`
returns the left fold `Binary(opk, ... Binary(op1, x0, x1) ..., xk)` and leaves the cursor
on the following token, for every recursion budget of at least `k + 10`. -/
theorem expression_chain (fuel : Nat) (x0 u : Token) (pairs : List (Token × Token))
    (rest : List Token) (hx0 : x0.type ∈ literalKinds)
    (hops : (∀ ox ∈ pairs, ox.1.type ∈ [TokenType.ADD, TokenType.SUBTRACT])
      ∨ (∀ ox ∈ pairs, ox.1.type ∈ [TokenType.MULTIPLY, TokenType.DIVIDE]))
    (hlit : ∀ ox ∈ pairs, ox.2.type ∈ literalKinds)
    (hu : u.type ∉ operatorKinds) (hfuel : pairs.length + 10 ≤ fuel) :
    expression fuel (Parser.new (x0 :: (chainTokens pairs ++ u :: rest)))
      = .ok (leftFold (.Literal x0) pairs)
          { Parser.new (x0 :: (chainTokens pairs ++ u :: rest)) with
            current := 1 + 2 * pairs.length } := by
  obtain ⟨m, rfl⟩ : ∃ m, fuel = m + 10 := ⟨fuel - 10, by omega⟩
  have hend := getElem?_chain_end x0 u pairs rest
  rcases hops with hops | hops
  · apply expression_of_addition (m + 3) (u := u) _ (by simpa using hend) hu
    have := addition_chain m x0 u rest pairs
      (Parser.new (x0 :: (chainTokens pairs ++ u :: rest))) hx0
      (fun ox h => ⟨hops ox h, hlit ox h⟩)
      (not_mem_of_not_mem_operatorKinds hu (by simp [operatorKinds]))
      (by simp [Parser.new]) (by omega)
    simpa [Parser.new] using this
  · apply expression_of_multiplication (m + 2) (u := u) _ (by simpa using hend) hu
    have := multiplication_chain m x0 u rest pairs
      (Parser.new (x0 :: (chainTokens pairs ++ u :: rest))) hx0
      (fun ox h => ⟨hops ox h, hlit ox h⟩)
      (not_mem_of_not_mem_operatorKinds hu (by simp [operatorKinds]))
      (by simp [Parser.new]) (by omega)
    simpa [Parser.new] using this

/-- C3: for literal tokens `a`, `b`, `c` and a following token that is no operator,
`Parser::expression` parses `a + b * c` as `Binary(ADD, a, Binary(MULTIPLY, b, c))` and
`a * b + c` as `Binary(ADD, Binary(MULTIPLY, a, b), c)`, the cursor ending on the
following token. -/
theorem expression_precedence (fuel : Nat) (a b c add mul u : Token) (rest : List Token)
    (ha : a.type ∈ literalKinds) (hb : b.type ∈ literalKinds) (hc : c.type ∈ literalKinds)
    (hadd : add.type = .ADD) (hmul : mul.type = .MULTIPLY)
    (hu : u.type ∉ operatorKinds) (hfuel : 12 ≤ fuel) :
    expression fuel (Parser.new (a :: add :: b :: mul :: c :: u :: rest))
        = .ok (.Binary .ADD (.Literal a) (.Binary .MULTIPLY (.Literal b) (.Literal c)))
            { Parser.new (a :: add :: b :: mul :: c :: u :: rest) with current := 5 }
    ∧ expression fuel (Parser.new (a :: mul :: b :: add :: c :: u :: rest))
        = .ok (.Binary .ADD (.Binary .MULTIPLY (.Literal a) (.Literal b)) (.Literal c))
            { Parser.new (a :: mul :: b :: add :: c :: u :: rest) with current := 5 } := by
  obtain ⟨m, rfl⟩ : ∃ m, fuel = m + 12 := ⟨fuel - 12, by omega⟩
  have hu1 : u.type ∉ [TokenType.MULTIPLY, TokenType.DIVIDE] :=
    not_mem_of_not_mem_operatorKinds hu (by simp [operatorKinds])
  have hu2 : u.type ∉ [TokenType.ADD, TokenType.SUBTRACT] :=
    not_mem_of_not_mem_operatorKinds hu (by simp [operatorKinds])
  constructor
  · apply expression_of_addition (m + 5) (u := u) _ (by simp [Parser.new]) hu
    have h1 := multiplication_literal (m + 2) (x := a) (v := add)
      (p := Parser.new (a :: add :: b :: mul :: c :: u :: rest)) (by simp [Parser.new]) ha
      (by simp [Parser.new]) (by simp [hadd])
    have h2 := run_match_true (t := add) (T := [.ADD, .SUBTRACT])
      (p := ⟨a :: add :: b :: mul :: c :: u :: rest, 1, []⟩) (by simp) (by simp [hadd])
      (by simp [hadd])
    have h3 := multiplication_chain (m + 2) b u rest [(mul, c)]
      ⟨a :: add :: b :: mul :: c :: u :: rest, 2, []⟩ hb (by simp [hmul, hc]) hu1
      (by simp [chainTokens]) (by simp)
    have h4 := run_match_false (t := u) (T := [.ADD, .SUBTRACT])
      (p := ⟨a :: add :: b :: mul :: c :: u :: rest, 5, []⟩) (by simp) hu2
    simp [Parser.new] at h1 h2 h3 h4 ⊢
    simp [addition, h1, loop, h2, previous, h3, leftFold, h4, hadd, hmul]
  · apply expression_of_addition (m + 5) (u := u) _ (by simp [Parser.new]) hu
    have h1 := multiplication_chain (m + 2) a add (c :: u :: rest) [(mul, b)]
      (Parser.new (a :: mul :: b :: add :: c :: u :: rest)) ha (by simp [hmul, hb])
      (by simp [hadd]) (by simp [chainTokens, Parser.new]) (by simp)
    have h2 := run_match_true (t := add) (T := [.ADD, .SUBTRACT])
      (p := ⟨a :: mul :: b :: add :: c :: u :: rest, 3, []⟩) (by simp) (by simp [hadd])
      (by simp [hadd])
    have h3 := multiplication_literal (m + 2) (x := c) (v := u)
      (p := ⟨a :: mul :: b :: add :: c :: u :: rest, 4, []⟩) (by simp) hc
      (by simp) hu1
    have h4 := run_match_false (t := u) (T := [.ADD, .SUBTRACT])
      (p := ⟨a :: mul :: b :: add :: c :: u :: rest, 5, []⟩) (by simp) hu2
    simp [Parser.new] at h1 h2 h3 h4 ⊢
    simp [addition, h1, loop, h2, previous, h3, leftFold, h4, hadd, hmul]

/-- The instance `1 + 2 * 3` and `1 * 2 + 3` of `expression_precedence`. -/
theorem expression_precedence_witness :
    expression 12 (Parser.new [tok .INT_LITERAL "1", tok .ADD "+", tok .INT_LITERAL "2",
        tok .MULTIPLY "*", tok .INT_LITERAL "3", tok .END_OF_FILE ""])
      = .ok (.Binary .ADD (.Literal (tok .INT_LITERAL "1"))
          (.Binary .MULTIPLY (.Literal (tok .INT_LITERAL "2"))
            (.Literal (tok .INT_LITERAL "3"))))
          ⟨[tok .INT_LITERAL "1", tok .ADD "+", tok .INT_LITERAL "2",
            tok .MULTIPLY "*", tok .INT_LITERAL "3", tok .END_OF_FILE ""], 5, []⟩
    ∧ expression 12 (Parser.new [tok .INT_LITERAL "1", tok .MULTIPLY "*",
        tok .INT_LITERAL "2", tok .ADD "+", tok .INT_LITERAL "3", tok .END_OF_FILE ""])
      = .ok (.Binary .ADD (.Binary .MULTIPLY (.Literal (tok .INT_LITERAL "1"))
            (.Literal (tok .INT_LITERAL "2"))) (.Literal (tok .INT_LITERAL "3")))
          ⟨[tok .INT_LITERAL "1", tok .MULTIPLY "*", tok .INT_LITERAL "2",
            tok .ADD "+", tok .INT_LITERAL "3", tok .END_OF_FILE ""], 5, []⟩ :=
  expression_precedence 12 (tok .INT_LITERAL "1") (tok .INT_LITERAL "2")
    (tok .INT_LITERAL "3") (tok .ADD "+") (tok .MULTIPLY "*") (tok .END_OF_FILE "") []
    (by decide) (by decide) (by decide) rfl rfl (by decide) (by decide)

/-- The instance `1 - 2 - 3` of `expression_chain`. -/
theorem expression_chain_witness :
    expression 12 (Parser.new [tok .INT_LITERAL "1", tok .SUBTRACT "-",
        tok .INT_LITERAL "2", tok .SUBTRACT "-", tok .INT_LITERAL "3",
        tok .END_OF_FILE ""])
      = .ok (.Binary .SUBTRACT (.Binary .SUBTRACT (.Literal (tok .INT_LITERAL "1"))
            (.Literal (tok .INT_LITERAL "2"))) (.Literal (tok .INT_LITERAL "3")))
          ⟨[tok .INT_LITERAL "1", tok .SUBTRACT "-", tok .INT_LITERAL "2",
            tok .SUBTRACT "-", tok .INT_LITERAL "3", tok .END_OF_FILE ""], 5, []⟩ :=
  expression_chain 12 (tok .INT_LITERAL "1") (tok .END_OF_FILE "")
    [(tok .SUBTRACT "-", tok .INT_LITERAL "2"), (tok .SUBTRACT "-", tok .INT_LITERAL "3")]
    [] (by decide) (Or.inl (by decide)) (by decide) (by decide) (by decide)

/-! ## Placeholder results of the statement rules -/

theorem returns_pure {α : Type} {V : α → Prop} {a : α} (h : V a) :
    Returns (pure a : P α) V := by
  intro p b q hb
  simp at hb
  exact hb.1 ▸ h

theorem returns_bind {α β : Type} {m : P α} {k : α → P β} {W : α → Prop} {V : β → Prop}
    (hm : Returns m W) (hk : ∀ a, W a → Returns (k a) V) : Returns (m >>= k) V := by
  intro p b q hb
  simp only [run_bind] at hb
  cases hmp : m p with
  | ok a r =>
    rw [hmp] at hb
    exact hk a (hm p a r hmp) r b q hb
  | raised r => rw [hmp] at hb; simp at hb
  | outOfBounds => rw [hmp] at hb; simp at hb
  | noFuel => rw [hmp] at hb; simp at hb

theorem returns_true {α : Type} (m : P α) : Returns m (fun _ => True) :=
  fun _ _ _ _ => trivial

theorem returns_seq {α β : Type} {m : P α} {k : α → P β} {V : β → Prop}
    (hk : ∀ a, Returns (k a) V) : Returns (m >>= k) V :=
  returns_bind (returns_true m) (fun a _ => hk a)

theorem returns_ite {α : Type} {c : Prop} [Decidable c] {t e : P α} {V : α → Prop}
    (ht : Returns t V) (he : Returns e V) : Returns (if c then t else e) V := by
  split
  · exact ht
  · exact he

theorem returns_outOfFuel {α : Type} {V : α → Prop} : Returns (outOfFuel : P α) V := by
  intro p a q h
  simp at h

theorem returns_raise {α : Type} {V : α → Prop} : Returns (raise : P α) V := by
  intro p a q h
  simp at h

theorem returns_loop {σ : Type} {body : σ → P (Step σ)} {V : σ → Prop}
    (hb : ∀ s, V s → Returns (body s) (fun st => match st with | .next r => V r | .done r => V r)) :
    ∀ (k : Nat) (s : σ), V s → Returns (loop body k s) V := by
  intro k
  induction k with
  | zero => intro s _; exact returns_outOfFuel
  | succ k ih =>
    intro s hs
    rw [AGScript.loop]
    refine returns_bind (hb s hs) ?_
    intro st hst
    cases st with
    | next r => exact ih r hst
    | done r => exact returns_pure hst

theorem returns_tryCatch {α : Type} {m h : P α} {V : α → Prop}
    (hm : Returns m V) (hh : Returns h V) : Returns (tryCatch m h) V := by
  intro p a q hq
  unfold AGScript.tryCatch at hq
  cases hmp : m p with
  | ok b r =>
    rw [hmp] at hq
    simp at hq
    exact hq.1 ▸ hm p b r hmp
  | raised r => rw [hmp] at hq; exact hh r a q hq
  | outOfBounds => rw [hmp] at hq; simp at hq
  | noFuel => rw [hmp] at hq; simp at hq

theorem statement_rules_return_null (n : Nat) :
    Returns (declaration n) (· = none) ∧ Returns (function_decl n) (· = none)
    ∧ Returns (variable_decl n) (· = none) ∧ Returns (block n) (· = none)
    ∧ Returns (statement n) (· = none) ∧ Returns (expression_statement n) (· = none)
    ∧ Returns (if_statement n) (· = none) ∧ Returns (while_statement n) (· = none)
    ∧ Returns (for_statement n) (· = none) ∧ Returns (return_statement n) (· = none) := by
  induction n with
  | zero =>
    simp only [declaration, function_decl, variable_decl, block, statement,
      expression_statement, if_statement, while_statement, for_statement, return_statement]
    exact ⟨returns_outOfFuel, returns_outOfFuel, returns_outOfFuel, returns_outOfFuel,
      returns_outOfFuel, returns_outOfFuel, returns_outOfFuel, returns_outOfFuel,
      returns_outOfFuel, returns_outOfFuel⟩
  | succ n ih =>
    obtain ⟨_, h2, h3, h4, h5, h6, h7, h8, h9, h10⟩ := ih
    refine ⟨?_, ?_, ?_, ?_, ?_, ?_, ?_, ?_, ?_, ?_⟩
    all_goals
      first
        | rw [declaration] | rw [function_decl] | rw [variable_decl] | rw [block]
        | rw [statement] | rw [expression_statement] | rw [if_statement]
        | rw [while_statement] | rw [for_statement] | rw [return_statement]
      repeat (first
        | with_reducible assumption
        | with_reducible exact returns_pure rfl
        | with_reducible apply returns_ite
        | (with_reducible apply returns_seq; intro _))

theorem program_returns_null (fuel : Nat) :
    Returns (program fuel) (fun ds => ∀ s ∈ ds, s = none) := by
  unfold program
  apply returns_loop (V := fun ds => ∀ s ∈ ds, s = none)
  · intro ds hds
    unfold programRound
    apply returns_seq
    intro b
    apply returns_ite
    · apply returns_tryCatch
      · refine returns_bind (statement_rules_return_null fuel).1 ?_
        intro s hs
        refine returns_pure ?_
        show ∀ x ∈ ds ++ [s], x = none
        intro x hx
        rcases List.mem_append.mp hx with hx | hx
        · exact hds x hx
        · exact List.mem_singleton.mp hx ▸ hs
      · apply returns_seq
        intro _
        exact returns_pure hds
    · exact returns_pure hds
  · intro s hs
    cases hs

/-- C2 fails on the code: every entry of the statement sequence that `Parser::parse`
returns is the placeholder `nullptr`, never a constructed node. -/
theorem parse_entries_null (tokens : List Token) (stmts : List StmtPtr) (p : Parser)
    (h : parse tokens = .ok stmts p) : ∀ s ∈ stmts, s = none :=
  program_returns_null _ _ _ _ h

/-- The instance `1 ;` of `parse_entries_null`: one statement is returned and it is
`nullptr`. -/
theorem parse_entries_null_witness :
    parse [tok .INT_LITERAL "1", tok .SEMI_COLON ";", tok .END_OF_FILE ""]
        = .ok [none] ⟨[tok .INT_LITERAL "1", tok .SEMI_COLON ";", tok .END_OF_FILE ""], 2, []⟩
      ∧ ∀ s ∈ [(none : StmtPtr)], s = none :=
  ⟨rfl, parse_entries_null [tok .INT_LITERAL "1", tok .SEMI_COLON ";",
    tok .END_OF_FILE ""] [none] _ rfl⟩

/-- C1 fails on the code: the program `let x = 1; x = 2;` has two well-formed top-level
declarations, and `Parser::parse` returns one statement and reports the `=` of the
second as an invalid assignment target; the program made of the empty block has one
well-formed declaration, and `Parser::parse` returns no statement and reports that it
expected a second opening brace. -/
theorem parse_wellformed_program_loses_statement :
    parse [tok .LET "let", tok .IDENTIFIER "x", tok .ASSIGN "=", tok .INT_LITERAL "1",
        tok .SEMI_COLON ";", tok .IDENTIFIER "x", tok .ASSIGN "=", tok .INT_LITERAL "2",
        tok .SEMI_COLON ";", tok .END_OF_FILE ""]
      = .ok [none]
          ⟨[tok .LET "let", tok .IDENTIFIER "x", tok .ASSIGN "=", tok .INT_LITERAL "1",
            tok .SEMI_COLON ";", tok .IDENTIFIER "x", tok .ASSIGN "=",
            tok .INT_LITERAL "2", tok .SEMI_COLON ";", tok .END_OF_FILE ""], 9,
            [(tok .ASSIGN "=", "Invalid assignment target.")]⟩
    ∧ parse [tok .LEFT_BRACE "\x7b", tok .RIGHT_BRACE "\x7d", tok .END_OF_FILE ""]
      = .ok []
          ⟨[tok .LEFT_BRACE "\x7b", tok .RIGHT_BRACE "\x7d", tok .END_OF_FILE ""], 2,
            [(tok .RIGHT_BRACE "\x7d", "Expected \x27\x7b\x27 to start block")]⟩ :=
  ⟨rfl, rfl⟩

/-- C5 fails on the code: on `1 or 2`, `1 and 2`, `1 == 2` and `1 != 2`
`Parser::expression` consumes the three tokens and returns the left literal alone; no
binary node is built and the right operand is dropped. -/
theorem expression_drops_right_operand :
    expression 12 (Parser.new [tok .INT_LITERAL "1", tok .OR "or", tok .INT_LITERAL "2",
        tok .END_OF_FILE ""])
      = .ok (.Literal (tok .INT_LITERAL "1"))
          ⟨[tok .INT_LITERAL "1", tok .OR "or", tok .INT_LITERAL "2",
            tok .END_OF_FILE ""], 3, []⟩
    ∧ expression 12 (Parser.new [tok .INT_LITERAL "1", tok .AND "and",
        tok .INT_LITERAL "2", tok .END_OF_FILE ""])
      = .ok (.Literal (tok .INT_LITERAL "1"))
          ⟨[tok .INT_LITERAL "1", tok .AND "and", tok .INT_LITERAL "2",
            tok .END_OF_FILE ""], 3, []⟩
    ∧ expression 12 (Parser.new [tok .INT_LITERAL "1", tok .EQUAL "==",
        tok .INT_LITERAL "2", tok .END_OF_FILE ""])
      = .ok (.Literal (tok .INT_LITERAL "1"))
          ⟨[tok .INT_LITERAL "1", tok .EQUAL "==", tok .INT_LITERAL "2",
            tok .END_OF_FILE ""], 3, []⟩
    ∧ expression 12 (Parser.new [tok .INT_LITERAL "1", tok .NOT_EQUAL "!=",
        tok .INT_LITERAL "2", tok .END_OF_FILE ""])
      = .ok (.Literal (tok .INT_LITERAL "1"))
          ⟨[tok .INT_LITERAL "1", tok .NOT_EQUAL "!=", tok .INT_LITERAL "2",
            tok .END_OF_FILE ""], 3, []⟩ :=
  ⟨rfl, rfl, rfl, rfl⟩

/-- C7 fails on the code: on `x = 1;` the left operand of `=` is a Variable node, and
`Parser::assignment` still reports the invalid-assignment-target error at the `=` token;
`Parser::parse` returns no statement and one diagnostic. -/
theorem parse_identifier_assignment_rejected :
    logical_or 10 (Parser.new [tok .IDENTIFIER "x", tok .ASSIGN "=",
        tok .INT_LITERAL "1", tok .SEMI_COLON ";", tok .END_OF_FILE ""])
      = .ok (.Variable "x")
          ⟨[tok .IDENTIFIER "x", tok .ASSIGN "=", tok .INT_LITERAL "1",
            tok .SEMI_COLON ";", tok .END_OF_FILE ""], 1, []⟩
    ∧ assignment 11 (Parser.new [tok .IDENTIFIER "x", tok .ASSIGN "=",
        tok .INT_LITERAL "1", tok .SEMI_COLON ";", tok .END_OF_FILE ""])
      = .raised
          ⟨[tok .IDENTIFIER "x", tok .ASSIGN "=", tok .INT_LITERAL "1",
            tok .SEMI_COLON ";", tok .END_OF_FILE ""], 3,
            [(tok .ASSIGN "=", "Invalid assignment target.")]⟩
    ∧ parse [tok .IDENTIFIER "x", tok .ASSIGN "=", tok .INT_LITERAL "1",
        tok .SEMI_COLON ";", tok .END_OF_FILE ""]
      = .ok []
          ⟨[tok .IDENTIFIER "x", tok .ASSIGN "=", tok .INT_LITERAL "1",
            tok .SEMI_COLON ";", tok .END_OF_FILE ""], 4,
            [(tok .ASSIGN "=", "Invalid assignment target.")]⟩ :=
  ⟨rfl, rfl, rfl⟩

/-! ## A larger budget and a longer run change no outcome -/

section
variable {pre : List Token} {errs : List (Token × String)}

theorem sim_pure {α : Type} (a : α) : Sim pre errs (pure a : P α) (pure a) := by
  intro p _ _
  rfl

theorem sim_bind {α β : Type} {m1 m2 : P α} {k1 k2 : α → P β}
    (hm : Sim pre errs m1 m2) (hk : ∀ a, Sim pre errs (k1 a) (k2 a)) :
    Sim pre errs (m1 >>= k1) (m2 >>= k2) := by
  intro p h1 h2
  simp only [run_bind] at h1 h2 ⊢
  cases hmp : m1 p with
  | ok a q =>
    rw [hmp] at h1 h2
    rw [hm p (by simp [hmp]) (by simp [hmp]), hmp]
    exact hk a q h1 h2
  | raised q =>
    rw [hm p (by simp [hmp]) (by simp [hmp]), hmp]
    rfl
  | outOfBounds => rw [hmp] at h2; exact absurd rfl h2
  | noFuel => rw [hmp] at h1; exact absurd rfl h1

theorem sim_ite {α : Type} {c : Prop} [Decidable c] {t1 t2 e1 e2 : P α}
    (ht : Sim pre errs t1 t2) (he : Sim pre errs e1 e2) :
    Sim pre errs (if c then t1 else e1) (if c then t2 else e2) := by
  split
  · exact ht
  · exact he

theorem sim_outOfFuel {α : Type} (m : P α) : Sim pre errs (outOfFuel : P α) m := by
  intro p h _
  exact absurd rfl h

theorem sim_raise {α : Type} : Sim pre errs (raise : P α) raise := by
  intro p _ _
  rfl

theorem shift_getElem? (p : Parser) :
    (p.shift pre errs).tokens[(p.shift pre errs).current]? = p.tokens[p.current]? := by
  simp [Parser.shift, List.getElem?_append_right]

theorem sim_peek : Sim pre errs peek peek := by
  intro p _ _
  simp only [AGScript.peek, shift_getElem?]
  cases p.tokens[p.current]? <;> rfl

theorem sim_previous : Sim pre errs previous previous := by
  intro p _ h
  unfold AGScript.previous at h ⊢
  by_cases hc : p.current = 0
  · simp [hc] at h
  · have h1 : (p.shift pre errs).current ≠ 0 := by simp [Parser.shift]; omega
    have h2 : (p.shift pre errs).tokens[(p.shift pre errs).current - 1]?
        = p.tokens[p.current - 1]? := by
      have : pre.length + p.current - 1 = pre.length + (p.current - 1) := by omega
      simp [Parser.shift, this, List.getElem?_append_right]
    simp only [h1, h2, hc, if_false]
    cases p.tokens[p.current - 1]? <;> rfl

theorem sim_incrCurrent : Sim pre errs incrCurrent incrCurrent := by
  intro p _ _
  simp [Parser.shift, Outcome.shift, Nat.add_assoc]

theorem sim_error (t : Token) (msg : String) : Sim pre errs (error t msg) (error t msg) := by
  intro p _ _
  simp [Parser.shift, Outcome.shift]

theorem sim_isAtEnd : Sim pre errs isAtEnd isAtEnd :=
  sim_bind sim_peek (fun _ => sim_pure _)

theorem sim_check (type : TokenType) : Sim pre errs (check type) (check type) :=
  sim_bind sim_isAtEnd (fun _ => sim_ite (sim_pure _) (sim_bind sim_peek (fun _ => sim_pure _)))

theorem sim_advance : Sim pre errs advance advance :=
  sim_bind sim_isAtEnd (fun _ =>
    sim_bind (sim_ite sim_incrCurrent (sim_pure _)) (fun _ => sim_previous))

theorem sim_match (types : List TokenType) : Sim pre errs («match» types) («match» types) := by
  induction types with
  | nil => exact sim_pure _
  | cons ty tys ih =>
    exact sim_bind (sim_check ty) (fun _ =>
      sim_ite (sim_bind sim_advance (fun _ => sim_pure _)) ih)

theorem sim_fail {α : Type} (msg : String) : Sim pre errs (fail msg : P α) (fail msg) :=
  sim_bind sim_peek (fun _ => sim_bind (sim_error _ _) (fun _ => sim_raise))

theorem sim_expect {c1 c2 : P Bool} (hc : Sim pre errs c1 c2) (msg : String) :
    Sim pre errs (expect c1 msg) (expect c2 msg) :=
  sim_bind hc (fun _ => sim_ite (sim_fail msg) (sim_pure _))

theorem sim_loop {σ : Type} {b1 b2 : σ → P (Step σ)}
    (hb : ∀ s, Sim pre errs (b1 s) (b2 s)) :
    ∀ (k1 k2 : Nat), k1 ≤ k2 → ∀ s, Sim pre errs (loop b1 k1 s) (loop b2 k2 s) := by
  intro k1
  induction k1 with
  | zero => intro k2 _ s; exact sim_outOfFuel _
  | succ k1 ih =>
    intro k2 hk s
    obtain ⟨k2, rfl⟩ : ∃ j, k2 = j + 1 := ⟨k2 - 1, by omega⟩
    rw [AGScript.loop, AGScript.loop]
    refine sim_bind (hb s) ?_
    intro st
    cases st with
    | next r => exact ih k2 (by omega) r
    | done r => exact sim_pure _

theorem sim_tryCatch {α : Type} {m1 m2 h1 h2 : P α}
    (hm : Sim pre errs m1 m2) (hh : Sim pre errs h1 h2) :
    Sim pre errs (tryCatch m1 h1) (tryCatch m2 h2) := by
  intro p hf ho
  unfold AGScript.tryCatch at hf ho ⊢
  cases hmp : m1 p with
  | ok a q =>
    rw [hm p (by simp [hmp]) (by simp [hmp]), hmp]
    rfl
  | raised q =>
    rw [hmp] at hf ho
    rw [hm p (by simp [hmp]) (by simp [hmp]), hmp]
    exact hh q hf ho
  | outOfBounds => rw [hmp] at ho; exact absurd rfl ho
  | noFuel => rw [hmp] at hf; exact absurd rfl hf

theorem sim_synchronize : Sim pre errs synchronize synchronize := by
  refine sim_bind sim_advance ?_
  intro _ p hf ho
  have hb : ∀ s : Unit, Sim pre errs ((fun _ => synchronizeRound) s)
      ((fun _ => synchronizeRound) s) := by
    intro _
    unfold synchronizeRound
    exact sim_bind sim_isAtEnd (fun _ => sim_ite
      (sim_bind sim_previous (fun _ => sim_ite (sim_pure _)
        (sim_bind sim_peek (fun _ => sim_ite (sim_pure _)
          (sim_bind sim_advance (fun _ => sim_pure _))))))
      (sim_pure _))
  have hl : (p.shift pre errs).tokens.length - (p.shift pre errs).current + 1
      = p.tokens.length - p.current + 1 := by
    simp [Parser.shift]
    omega
  show AGScript.loop _ _ () (p.shift pre errs) = _
  rw [hl]
  exact sim_loop hb _ _ (Nat.le_refl _) () p hf ho

/-- A larger budget and a longer run around it change no outcome of a grammar rule that
ended within its budget and within the token array. -/
theorem sim_rules (n : Nat) :
    ∀ j, n ≤ j →
      Sim pre errs (declaration n) (declaration j)
      ∧ Sim pre errs (function_decl n) (function_decl j)
      ∧ Sim pre errs (variable_decl n) (variable_decl j)
      ∧ Sim pre errs (block n) (block j)
      ∧ Sim pre errs (statement n) (statement j)
      ∧ Sim pre errs (expression_statement n) (expression_statement j)
      ∧ Sim pre errs (if_statement n) (if_statement j)
      ∧ Sim pre errs (while_statement n) (while_statement j)
      ∧ Sim pre errs (for_statement n) (for_statement j)
      ∧ Sim pre errs (return_statement n) (return_statement j)
      ∧ Sim pre errs (expression n) (expression j)
      ∧ Sim pre errs (assignment n) (assignment j)
      ∧ Sim pre errs (logical_or n) (logical_or j)
      ∧ Sim pre errs (logical_and n) (logical_and j)
      ∧ Sim pre errs (equality n) (equality j)
      ∧ Sim pre errs (comparison n) (comparison j)
      ∧ Sim pre errs (addition n) (addition j)
      ∧ Sim pre errs (multiplication n) (multiplication j)
      ∧ Sim pre errs (unary n) (unary j)
      ∧ Sim pre errs (primary n) (primary j)
      ∧ Sim pre errs (argument_list n) (argument_list j)
      ∧ (∀ c, Sim pre errs (function_call n c) (function_call j c)) := by
  induction n with
  | zero =>
    intro j _
    simp only [declaration, function_decl, variable_decl, block, statement, expression_statement, if_statement, while_statement, for_statement, return_statement, expression, assignment, logical_or, logical_and, equality, comparison, addition, multiplication, unary, primary, argument_list, function_call]
    exact ⟨sim_outOfFuel _, sim_outOfFuel _, sim_outOfFuel _, sim_outOfFuel _, sim_outOfFuel _, sim_outOfFuel _, sim_outOfFuel _, sim_outOfFuel _, sim_outOfFuel _, sim_outOfFuel _, sim_outOfFuel _, sim_outOfFuel _, sim_outOfFuel _, sim_outOfFuel _, sim_outOfFuel _, sim_outOfFuel _, sim_outOfFuel _, sim_outOfFuel _, sim_outOfFuel _, sim_outOfFuel _, sim_outOfFuel _, fun _ => sim_outOfFuel _⟩
  | succ n ih =>
    intro j hj
    obtain ⟨j, rfl⟩ : ∃ i, j = i + 1 := ⟨j - 1, by omega⟩
    have hle : n ≤ j := by omega
    obtain ⟨h0, h1, h2, h3, h4, h5, h6, h7, h8, h9, h10, h11, h12, h13, h14, h15, h16, h17, h18, h19, h20, hfc⟩ := ih j hle
    refine ⟨?_, ?_, ?_, ?_, ?_, ?_, ?_, ?_, ?_, ?_, ?_, ?_, ?_, ?_, ?_, ?_, ?_, ?_, ?_, ?_, ?_, fun c => ?_⟩
    all_goals
      first
        | rw [declaration, declaration] | rw [function_decl, function_decl] | rw [variable_decl, variable_decl] | rw [block, block] | rw [statement, statement] | rw [expression_statement, expression_statement] | rw [if_statement, if_statement] | rw [while_statement, while_statement] | rw [for_statement, for_statement] | rw [return_statement, return_statement] | rw [expression, expression] | rw [assignment, assignment] | rw [logical_or, logical_or] | rw [logical_and, logical_and] | rw [equality, equality] | rw [comparison, comparison] | rw [addition, addition] | rw [multiplication, multiplication] | rw [unary, unary] | rw [primary, primary] | rw [argument_list, argument_list]
        | rw [function_call, function_call]
      repeat (first
        | with_reducible exact sim_pure _
        | with_reducible exact sim_raise
        | with_reducible exact sim_fail _
        | with_reducible exact sim_match _
        | with_reducible exact sim_check _
        | with_reducible exact sim_advance
        | with_reducible exact sim_previous
        | with_reducible exact sim_peek
        | with_reducible exact sim_isAtEnd
        | with_reducible exact sim_error _ _
        | with_reducible assumption
        | with_reducible exact hfc _
        | with_reducible apply sim_expect
        | with_reducible apply sim_ite
        | (with_reducible refine sim_loop ?_ _ _ hle _; intro _)
        | with_reducible refine sim_bind ?_ (fun _ => ?_))

theorem sim_program (n j : Nat) (h : n ≤ j) : Sim pre errs (program n) (program j) := by
  unfold program
  refine sim_loop ?_ _ _ h _
  intro ds
  unfold programRound
  refine sim_bind sim_isAtEnd (fun _ => sim_ite ?_ (sim_pure _))
  refine sim_tryCatch (sim_bind (sim_rules n j h).1 (fun _ => sim_pure _))
    (sim_bind sim_synchronize (fun _ => sim_pure _))

end

/-! ## The rules stay inside the token array and inside their budget -/

section
variable {ts : List Token} {e o : Nat}

theorem sound_bind {α β : Type} {m : P α} {k : α → P β} {p : Parser}
    {R : α → Parser → Prop} {Q : β → Parser → Prop}
    (hm : Sound ts e o m p R)
    (hk : ∀ a q, p.current ≤ q.current → q.current ≤ e →
      p.errors.length ≤ q.errors.length → R a q → Sound ts e o (k a) q Q) :
    Sound ts e o (m >>= k) p Q := by
  intro ht hc
  have h1 := hm ht hc
  simp only [run_bind]
  cases hmp : m p with
  | ok a q =>
    rw [hmp] at h1
    obtain ⟨hqt, hqc, hqe, hql, hR⟩ := h1
    have h2 := hk a q hqc hqe hql hR hqt hqe
    simp only [andThen_ok]
    cases hkq : k a q with
    | ok b r =>
      rw [hkq] at h2
      obtain ⟨hrt, hrc, hre, hrl, hQ⟩ := h2
      exact ⟨hrt, by omega, hre, by omega, hQ⟩
    | raised r =>
      rw [hkq] at h2
      obtain ⟨hrt, hrc, hre, hrl, ho⟩ := h2
      exact ⟨hrt, by omega, hre, by omega, ho⟩
    | outOfBounds => rw [hkq] at h2; exact h2
    | noFuel => rw [hkq] at h2; exact h2
  | raised q => rw [hmp] at h1; exact h1
  | outOfBounds => rw [hmp] at h1; exact h1
  | noFuel => rw [hmp] at h1; exact h1

theorem sound_pure {α : Type} {a : α} {p : Parser} {Q : α → Parser → Prop} (h : Q a p) :
    Sound ts e o (pure a : P α) p Q := by
  intro ht hc
  exact ⟨ht, Nat.le_refl _, hc, Nat.le_refl _, h⟩

theorem sound_ite {α : Type} {c : Prop} [Decidable c] {t f : P α} {p : Parser}
    {Q : α → Parser → Prop} (ht : c → Sound ts e o t p Q) (hf : ¬c → Sound ts e o f p Q) :
    Sound ts e o (if c then t else f) p Q := by
  split
  · exact ht ‹_›
  · exact hf ‹_›

theorem sound_weaken {α : Type} {m : P α} {p : Parser} {R Q : α → Parser → Prop}
    (hm : Sound ts e o m p R)
    (h : ∀ a q, p.current ≤ q.current → q.current ≤ e →
      p.errors.length ≤ q.errors.length → R a q → Q a q) :
    Sound ts e o m p Q := by
  intro ht hc
  have h1 := hm ht hc
  cases hmp : m p with
  | ok a q =>
    rw [hmp] at h1
    obtain ⟨hqt, hqc, hqe, hql, hR⟩ := h1
    exact ⟨hqt, hqc, hqe, hql, h a q hqc hqe hql hR⟩
  | raised q => rw [hmp] at h1; exact h1
  | outOfBounds => rw [hmp] at h1; exact h1
  | noFuel => rw [hmp] at h1; exact h1

theorem sound_raise {α : Type} {p : Parser} {Q : α → Parser → Prop}
    (h : o < p.errors.length) : Sound ts e o (raise : P α) p Q := by
  intro ht hc
  exact ⟨ht, Nat.le_refl _, hc, Nat.le_refl _, h⟩

theorem sound_error (t : Token) (msg : String) (p : Parser) :
    Sound ts e o (error t msg) p
      (fun _ q => q.current = p.current ∧ q.errors.length = p.errors.length + 1) := by
  intro ht hc
  simp [ht, hc]

theorem sound_peek (he : EofAt ts e) (p : Parser) :
    Sound ts e o peek p (fun t q => q = p ∧ p.tokens[p.current]? = some t) := by
  intro ht hc
  obtain ⟨t, hte, _⟩ := he
  have hlt : e < ts.length := by
    by_contra hn
    rw [List.getElem?_eq_none (by omega)] at hte
    exact absurd hte (by simp)
  have hcur : p.current < p.tokens.length := by rw [ht]; omega
  have hs : p.tokens[p.current]? = some p.tokens[p.current] := List.getElem?_eq_getElem hcur
  rw [run_peek hs]
  exact ⟨ht, Nat.le_refl _, hc, Nat.le_refl _, rfl, hs⟩

theorem NotAtEnd.lt (he : EofAt ts e) {p : Parser} (h : NotAtEnd p) (ht : p.tokens = ts)
    (hc : p.current ≤ e) : p.current < e := by
  obtain ⟨t, hte, hty⟩ := he
  obtain ⟨u, hu, hne⟩ := h
  rcases Nat.lt_or_ge p.current e with h1 | h1
  · exact h1
  · have : p.current = e := by omega
    rw [this, ht, hte] at hu
    cases hu
    exact absurd hty hne

theorem sound_isAtEnd (he : EofAt ts e) (p : Parser) :
    Sound ts e o isAtEnd p (fun b q => q = p ∧ (b = false → NotAtEnd p)) := by
  refine sound_bind (sound_peek he p) ?_
  rintro t q - - - ⟨rfl, ht⟩
  refine sound_pure ⟨rfl, ?_⟩
  intro hb
  exact ⟨t, ht, by simpa using hb⟩

theorem sound_check (he : EofAt ts e) (type : TokenType) (p : Parser) :
    Sound ts e o (check type) p (fun b q => q = p ∧ (b = true → NotAtEnd p)) := by
  refine sound_bind (sound_isAtEnd he p) ?_
  rintro b q - - - ⟨rfl, hb⟩
  refine sound_ite (fun _ => sound_pure ⟨rfl, by simp⟩) ?_
  intro hnb
  refine sound_bind (sound_peek he q) ?_
  rintro t r - - - ⟨rfl, _⟩
  exact sound_pure ⟨rfl, fun _ => hb (by simpa using hnb)⟩

theorem EofAt.lt_length (he : EofAt ts e) : e < ts.length := by
  obtain ⟨t, hte, _⟩ := he
  by_contra hn
  rw [List.getElem?_eq_none (by omega)] at hte
  exact absurd hte (by simp)

theorem sound_previous (he : EofAt ts e) {p : Parser} (h : 0 < p.current) :
    Sound ts e o previous p (fun _ q => q = p) := by
  intro ht hc
  have hlt := he.lt_length
  have hcur : p.current - 1 < p.tokens.length := by rw [ht]; omega
  have hs : p.tokens[p.current - 1]? = some p.tokens[p.current - 1] :=
    List.getElem?_eq_getElem hcur
  rw [run_previous (c := p.current - 1) (by omega) hs]
  exact ⟨ht, Nat.le_refl _, hc, Nat.le_refl _, rfl⟩

theorem sound_advance (he : EofAt ts e) {p : Parser} (h : NotAtEnd p) :
    Sound ts e o advance p
      (fun _ q => q.current = p.current + 1 ∧ q.errors.length = p.errors.length) := by
  intro ht hc
  have hlt := NotAtEnd.lt he h ht hc
  obtain ⟨t, htk, hne⟩ := h
  rw [run_advance htk hne]
  exact ⟨ht, by simp, by simp; omega, by simp, by simp⟩

theorem sound_advance_any (he : EofAt ts e) {p : Parser} (h : 0 < p.current ∨ NotAtEnd p) :
    Sound ts e o AGScript.advance p
      (fun _ q => 0 < q.current ∧ (NotAtEnd p → q.current = p.current + 1)
        ∧ q.errors.length = p.errors.length) := by
  by_cases hn : NotAtEnd p
  · exact sound_weaken (sound_advance he hn) (fun _ q _ _ _ hq => ⟨by omega, fun _ => hq.1, hq.2⟩)
  · have hpos : 0 < p.current := by
      rcases h with h | h
      · exact h
      · exact absurd h hn
    unfold AGScript.advance
    refine sound_bind (sound_isAtEnd he p) ?_
    rintro b q - - - ⟨rfl, hb⟩
    have hbt : b = true := by
      cases b with
      | true => rfl
      | false => exact absurd (hb rfl) hn
    subst hbt
    refine sound_bind (R := fun _ r => r = q)
      (sound_ite (fun h => by simp at h) (fun _ => sound_pure rfl)) ?_
    rintro _ r - - - rfl
    exact sound_weaken (sound_previous he hpos)
      (fun _ r _ _ _ hr => by subst hr; exact ⟨hpos, fun h => absurd h hn, rfl⟩)

theorem sound_match (he : EofAt ts e) (types : List TokenType) (p : Parser) :
    Sound ts e o (AGScript.«match» types) p
      (fun b q => (b = true → q.current = p.current + 1
          ∧ q.errors.length = p.errors.length) ∧ (b = false → q = p)) := by
  induction types with
  | nil => exact sound_pure ⟨by simp, fun _ => rfl⟩
  | cons ty tys ih =>
    rw [AGScript.«match»]
    refine sound_bind (sound_check he ty p) ?_
    rintro b q - - - ⟨rfl, hb⟩
    refine sound_ite ?_ (fun _ => ih)
    intro hbt
    refine sound_bind (sound_advance he (hb hbt)) ?_
    intro _ r _ _ _ hr
    exact sound_pure ⟨fun _ => hr, by simp⟩

theorem sound_fail {α : Type} (he : EofAt ts e) (msg : String) {p : Parser}
    {Q : α → Parser → Prop} (h : o ≤ p.errors.length) :
    Sound ts e o (fail msg : P α) p Q := by
  unfold AGScript.fail
  refine sound_bind (sound_peek he p) ?_
  rintro t q - - - ⟨rfl, _⟩
  refine sound_bind (sound_error t msg q) ?_
  intro _ r _ _ _ hr
  exact sound_raise (by omega)

theorem sound_expect_match (he : EofAt ts e) (types : List TokenType) (msg : String)
    {p : Parser} (h : o ≤ p.errors.length) :
    Sound ts e o (AGScript.expect (AGScript.«match» types) msg) p
      (fun _ q => q.current = p.current + 1 ∧ q.errors.length = p.errors.length) := by
  unfold AGScript.expect
  refine sound_bind (sound_match he types p) ?_
  intro b q _ _ _ hq
  cases b with
  | true => exact sound_ite (fun h => by simp at h) (fun _ => sound_pure (hq.1 rfl))
  | false =>
    have := hq.2 rfl
    subst this
    exact sound_ite (fun _ => sound_fail he msg h) (fun h => by simp at h)

theorem sound_expect_check (he : EofAt ts e) (type : TokenType) (msg : String)
    {p : Parser} (h : o ≤ p.errors.length) :
    Sound ts e o (AGScript.expect (AGScript.check type) msg) p (fun _ q => q = p ∧ NotAtEnd p) := by
  unfold AGScript.expect
  refine sound_bind (sound_check he type p) ?_
  rintro b q - - - ⟨rfl, hq⟩
  cases b with
  | true => exact sound_ite (fun h => by simp at h) (fun _ => sound_pure ⟨rfl, hq rfl⟩)
  | false => exact sound_ite (fun _ => sound_fail he msg h) (fun h => by simp at h)

theorem sound_loop {σ : Type} {body : σ → P (Step σ)} (c l : Nat)
    (hb : ∀ s q, c ≤ q.current → l ≤ q.errors.length →
      Sound ts e o (body s) q (Step.Advanced q.current)) :
    ∀ (rounds : Nat) (s : σ) (p : Parser), c ≤ p.current → l ≤ p.errors.length →
      e - p.current < rounds → Sound ts e o (loop body rounds s) p (fun _ _ => True) := by
  intro rounds
  induction rounds with
  | zero => intro s p _ _ h; omega
  | succ k ih =>
    intro s p hc hl hr
    rw [AGScript.loop]
    refine sound_bind (hb s p hc hl) ?_
    intro st q hq1 hq2 hq3 hst
    cases st with
    | next r =>
      have : p.current < q.current := hst
      exact ih r q (by omega) (by omega) (by omega)
    | done r => exact sound_pure trivial

theorem sound_tryCatch {α : Type} {m h : P α} {p : Parser} {Q : α → Parser → Prop}
    (u : Nat) (hm : Sound ts e u m p Q)
    (hh : ∀ q, p.current ≤ q.current → q.current ≤ e →
      p.errors.length ≤ q.errors.length → Sound ts e o h q Q) :
    Sound ts e o (tryCatch m h) p Q := by
  intro ht hc
  have h1 := hm ht hc
  unfold AGScript.tryCatch
  cases hmp : m p with
  | ok a q => rw [hmp] at h1; exact h1
  | raised q =>
    rw [hmp] at h1
    obtain ⟨hqt, hqc, hqe, hql, _⟩ := h1
    have h2 := hh q hqc hqe hql hqt hqe
    show match h q with
      | .ok a r => _
      | .raised r => _
      | .outOfBounds => False
      | .noFuel => False
    cases hhq : h q with
    | ok b r =>
      rw [hhq] at h2
      obtain ⟨hrt, hrc, hre, hrl, hQ⟩ := h2
      exact ⟨hrt, by omega, hre, by omega, hQ⟩
    | raised r =>
      rw [hhq] at h2
      obtain ⟨hrt, hrc, hre, hrl, ho⟩ := h2
      exact ⟨hrt, by omega, hre, by omega, ho⟩
    | outOfBounds => rw [hhq] at h2; exact h2
    | noFuel => rw [hhq] at h2; exact h2
  | outOfBounds => rw [hmp] at h1; exact h1
  | noFuel => rw [hmp] at h1; exact h1

theorem sound_synchronizeRound (he : EofAt ts e) {p : Parser} (h : 0 < p.current) :
    Sound ts e o AGScript.synchronizeRound p (Step.Advanced p.current) := by
  unfold AGScript.synchronizeRound
  refine sound_bind (sound_isAtEnd he p) ?_
  rintro b q - - - ⟨rfl, hb⟩
  refine sound_ite ?_ (fun _ => sound_pure trivial)
  intro hnb
  have hn : NotAtEnd q := hb (by simpa using hnb)
  refine sound_bind (sound_previous he h) ?_
  rintro prev r - - - rfl
  refine sound_ite (fun _ => sound_pure trivial) (fun _ => ?_)
  refine sound_bind (sound_peek he r) ?_
  rintro next r1 - - - ⟨rfl, _⟩
  refine sound_ite (fun _ => sound_pure trivial) (fun _ => ?_)
  refine sound_bind (sound_advance he hn) ?_
  intro _ r2 _ _ _ hr2
  exact sound_pure (by show r1.current < r2.current; omega)

theorem sound_synchronize (he : EofAt ts e) {p : Parser} (h : 0 < p.current ∨ NotAtEnd p) :
    Sound ts e o AGScript.synchronize p (fun _ q => NotAtEnd p → p.current < q.current) := by
  unfold AGScript.synchronize
  refine sound_bind (sound_advance_any he h) ?_
  intro _ q hq1 hq2 hq3 hq
  intro ht hc
  have hlt := he.lt_length
  have hl := @sound_loop ts e o Unit (fun (_ : Unit) => AGScript.synchronizeRound)
    1 0 (fun _ r hr _ => by
      have hpos : 0 < r.current := by omega
      exact sound_synchronizeRound he hpos)
    (q.tokens.length - q.current + 1) () q (by omega) (by omega) (by rw [ht]; omega)
  have h3 := sound_weaken hl
    (Q := fun _ r => NotAtEnd p → p.current < r.current)
    (fun _ r hr1 _ _ _ hn => by have := hq.2.1 hn; omega)
  exact h3 ht hc

/-- Every grammar rule, run from a state whose cursor has not passed the end-of-input token
at index `e` and with at least `32 * (e - current)` plus a rule-specific constant of budget,
returns or throws without leaving the token array and without using up the budget; the
statement rules move the cursor forward when they return. -/
theorem sound_rules (he : EofAt ts e) (n : Nat) :
      (∀ p o, o ≤ p.errors.length → 32 * (e - p.current) + 13 ≤ n →
        Sound ts e o (declaration n) p (fun _ q => p.current < q.current))
      ∧ (∀ p o, o ≤ p.errors.length → 32 * (e - p.current) + 1 ≤ n →
        Sound ts e o (function_decl n) p (fun _ q => p.current < q.current))
      ∧ (∀ p o, o ≤ p.errors.length → 32 * (e - p.current) + 1 ≤ n →
        Sound ts e o (variable_decl n) p (fun _ q => p.current < q.current))
      ∧ (∀ p o, o ≤ p.errors.length → 32 * (e - p.current) + 1 ≤ n →
        Sound ts e o (block n) p (fun _ q => p.current < q.current))
      ∧ (∀ p o, o ≤ p.errors.length → 32 * (e - p.current) + 12 ≤ n →
        Sound ts e o (statement n) p (fun _ q => p.current < q.current))
      ∧ (∀ p o, o ≤ p.errors.length → 32 * (e - p.current) + 11 ≤ n →
        Sound ts e o (expression_statement n) p (fun _ q => p.current < q.current))
      ∧ (∀ p o, o ≤ p.errors.length → 32 * (e - p.current) + 1 ≤ n →
        Sound ts e o (if_statement n) p (fun _ q => p.current < q.current))
      ∧ (∀ p o, o ≤ p.errors.length → 32 * (e - p.current) + 1 ≤ n →
        Sound ts e o (while_statement n) p (fun _ q => p.current < q.current))
      ∧ (∀ p o, o ≤ p.errors.length → 32 * (e - p.current) + 1 ≤ n →
        Sound ts e o (for_statement n) p (fun _ q => p.current < q.current))
      ∧ (∀ p o, o ≤ p.errors.length → 32 * (e - p.current) + 11 ≤ n →
        Sound ts e o (return_statement n) p (fun _ q => p.current < q.current))
      ∧ (∀ p o, o ≤ p.errors.length → 32 * (e - p.current) + 10 ≤ n →
        Sound ts e o (expression n) p (fun _ _ => True))
      ∧ (∀ p o, o ≤ p.errors.length → 32 * (e - p.current) + 9 ≤ n →
        Sound ts e o (assignment n) p (fun _ _ => True))
      ∧ (∀ p o, o ≤ p.errors.length → 32 * (e - p.current) + 8 ≤ n →
        Sound ts e o (logical_or n) p (fun _ _ => True))
      ∧ (∀ p o, o ≤ p.errors.length → 32 * (e - p.current) + 7 ≤ n →
        Sound ts e o (logical_and n) p (fun _ _ => True))
      ∧ (∀ p o, o ≤ p.errors.length → 32 * (e - p.current) + 6 ≤ n →
        Sound ts e o (equality n) p (fun _ _ => True))
      ∧ (∀ p o, o ≤ p.errors.length → 32 * (e - p.current) + 5 ≤ n →
        Sound ts e o (comparison n) p (fun _ _ => True))
      ∧ (∀ p o, o ≤ p.errors.length → 32 * (e - p.current) + 4 ≤ n →
        Sound ts e o (addition n) p (fun _ _ => True))
      ∧ (∀ p o, o ≤ p.errors.length → 32 * (e - p.current) + 3 ≤ n →
        Sound ts e o (multiplication n) p (fun _ _ => True))
      ∧ (∀ p o, o ≤ p.errors.length → 32 * (e - p.current) + 2 ≤ n →
        Sound ts e o (unary n) p (fun _ _ => True))
      ∧ (∀ p o, o ≤ p.errors.length → 32 * (e - p.current) + 1 ≤ n →
        Sound ts e o (primary n) p (fun _ _ => True))
      ∧ (∀ p o, o ≤ p.errors.length → 32 * (e - p.current) + 11 ≤ n →
        Sound ts e o (argument_list n) p (fun _ _ => True))
      ∧ (∀ c p o, o ≤ p.errors.length → 32 * (e - p.current) + 1 ≤ n →
        Sound ts e o (function_call n c) p (fun _ _ => True)) := by
  induction n with
  | zero =>
    refine ⟨?_, ?_, ?_, ?_, ?_, ?_, ?_, ?_, ?_, ?_, ?_, ?_, ?_, ?_, ?_, ?_, ?_, ?_, ?_, ?_, ?_, ?_⟩
    all_goals (intros; omega)
  | succ n ih =>
    obtain ⟨hdecl, hfun, hvar, hblock, hstmt, hes, hif, hwhile, hfor, hret, hexpr, hasg, hlor, hland, heq, hcmp, hadd, hmul, hun, hprim, hargs, hcall⟩ := ih
    refine ⟨?_, ?_, ?_, ?_, ?_, ?_, ?_, ?_, ?_, ?_, ?_, ?_, ?_, ?_, ?_, ?_, ?_, ?_, ?_, ?_, ?_, ?_⟩
    -- declaration
    · intro p o ho hb
      rw [declaration]
      refine sound_bind (sound_match he _ p) ?_
      intro b q _ _ _ hm
      refine sound_ite (fun hbt => ?_) (fun hbf => ?_)
      · have := hm.1 hbt
        exact sound_weaken (hfun q o (by omega) (by omega)) (fun _ r _ _ _ h => by omega)
      · have := hm.2 (by simpa using hbf)
        subst this
        refine sound_bind (sound_match he _ q) ?_
        intro b1 q1 _ _ _ hm1
        refine sound_ite (fun hbt => ?_) (fun hbf1 => ?_)
        · have := hm1.1 hbt
          exact sound_weaken (hvar q1 o (by omega) (by omega)) (fun _ r _ _ _ h => by omega)
        · have := hm1.2 (by simpa using hbf1)
          subst this
          exact hstmt q1 o ho (by omega)
    -- function_decl
    · intro p o ho hb
      rw [function_decl]
      refine sound_bind (sound_expect_check he _ _ ho) ?_
      rintro _ q - - - ⟨rfl, hn⟩
      refine sound_bind (sound_advance he hn) ?_
      intro _ q1 _ _ _ _
      refine sound_bind (sound_expect_match he _ _ (by omega)) ?_
      intro _ q2 _ _ _ _
      refine sound_bind (sound_check he _ q2) ?_
      rintro b q3 - - - ⟨rfl, -⟩
      refine sound_bind (R := fun _ _ => True) (sound_ite (fun _ => ?_)
        (fun _ => sound_pure trivial)) ?_
      · refine sound_loop q3.current o ?_ n () q3 (Nat.le_refl _) (by omega) (by omega)
        intro s r _ _
        refine sound_bind (sound_expect_check he _ _ (by omega)) ?_
        rintro _ r1 - - - ⟨rfl, hn1⟩
        refine sound_bind (sound_advance he hn1) ?_
        intro _ r2 _ _ _ _
        refine sound_bind (sound_match he _ r2) ?_
        intro b2 r3 _ _ _ _
        refine sound_ite (fun _ => sound_pure ?_) (fun _ => sound_pure trivial)
        show r1.current < r3.current
        omega
      · intro _ q4 _ _ _ _
        refine sound_bind (sound_expect_match he _ _ (by omega)) ?_
        intro _ q5 _ _ _ _
        refine sound_bind (hblock q5 o (by omega) (by omega)) ?_
        intro _ q6 _ _ _ _
        exact sound_pure (by omega)
    -- variable_decl
    · intro p o ho hb
      rw [variable_decl]
      refine sound_bind (sound_expect_check he _ _ ho) ?_
      rintro _ q - - - ⟨rfl, hn⟩
      refine sound_bind (sound_advance he hn) ?_
      intro _ q1 _ _ _ _
      refine sound_bind (sound_match he _ q1) ?_
      intro b q2 _ _ _ _
      refine sound_bind (R := fun _ _ => True) (sound_ite
        (fun _ => sound_bind (hexpr _ o (by omega) (by omega)) (fun _ _ _ _ _ _ => sound_pure trivial))
        (fun _ => sound_pure trivial)) ?_
      intro _ q3 _ _ _ _
      refine sound_bind (sound_expect_match he _ _ (by omega)) ?_
      intro _ q4 _ _ _ _
      exact sound_pure (by omega)
    -- block
    · intro p o ho hb
      rw [block]
      refine sound_bind (sound_expect_match he _ _ ho) ?_
      intro _ q _ _ _ _
      refine sound_bind (sound_loop q.current o ?_ n [] q (Nat.le_refl _) (by omega) (by omega)) ?_
      · intro s r _ _
        refine sound_bind (sound_check he _ r) ?_
        rintro b r1 - - - ⟨rfl, -⟩
        refine sound_ite (fun _ => ?_) (fun _ => sound_pure trivial)
        refine sound_bind (sound_isAtEnd he r1) ?_
        rintro b1 r2 - - - ⟨rfl, -⟩
        refine sound_ite (fun _ => ?_) (fun _ => sound_pure trivial)
        refine sound_bind (hstmt r2 o (by omega) (by omega)) ?_
        intro _ r3 _ _ _ h3
        exact sound_pure h3
      · intro _ q1 _ _ _ _
        refine sound_bind (sound_expect_match he _ _ (by omega)) ?_
        intro _ q2 _ _ _ _
        exact sound_pure (by omega)
    -- statement
    · intro p o ho hb
      rw [statement]
      refine sound_bind (sound_match he _ p) ?_
      intro b q _ _ _ hm
      refine sound_ite (fun hbt => ?_) (fun hbf => ?_)
      · have := hm.1 hbt
        exact sound_weaken (hif q o (by omega) (by omega)) (fun _ r _ _ _ h => by omega)
      have := hm.2 (by simpa using hbf)
      subst this
      refine sound_bind (sound_match he _ q) ?_
      intro b q1 _ _ _ hm
      refine sound_ite (fun hbt => ?_) (fun hbf => ?_)
      · have := hm.1 hbt
        exact sound_weaken (hwhile q1 o (by omega) (by omega)) (fun _ r _ _ _ h => by omega)
      have := hm.2 (by simpa using hbf)
      subst this
      refine sound_bind (sound_match he _ q1) ?_
      intro b q2 _ _ _ hm
      refine sound_ite (fun hbt => ?_) (fun hbf => ?_)
      · have := hm.1 hbt
        exact sound_weaken (hret q2 o (by omega) (by omega)) (fun _ r _ _ _ h => by omega)
      have := hm.2 (by simpa using hbf)
      subst this
      refine sound_bind (sound_match he _ q2) ?_
      intro b q3 _ _ _ hm
      refine sound_ite (fun hbt => ?_) (fun hbf => ?_)
      · have := hm.1 hbt
        exact sound_weaken (hfor q3 o (by omega) (by omega)) (fun _ r _ _ _ h => by omega)
      have := hm.2 (by simpa using hbf)
      subst this
      refine sound_bind (sound_match he _ q3) ?_
      intro b q4 _ _ _ hm
      refine sound_ite (fun hbt => ?_) (fun hbf => ?_)
      · have := hm.1 hbt
        exact sound_weaken (hvar q4 o (by omega) (by omega)) (fun _ r _ _ _ h => by omega)
      have := hm.2 (by simpa using hbf)
      subst this
      refine sound_bind (sound_match he _ q4) ?_
      intro b q5 _ _ _ hm
      refine sound_ite (fun hbt => ?_) (fun hbf => ?_)
      · have := hm.1 hbt
        exact sound_weaken (hblock q5 o (by omega) (by omega)) (fun _ r _ _ _ h => by omega)
      have := hm.2 (by simpa using hbf)
      subst this
      refine sound_bind (sound_match he _ q5) ?_
      intro b q6 _ _ _ hm
      refine sound_ite (fun hbt => ?_) (fun hbf => ?_)
      · have := hm.1 hbt
        exact sound_pure (by omega)
      have := hm.2 (by simpa using hbf)
      subst this
      exact hes q6 o ho (by omega)
    -- expression_statement
    · intro p o ho hb
      rw [expression_statement]
      refine sound_bind (hexpr p o ho (by omega)) ?_
      intro _ q _ _ _ _
      refine sound_bind (sound_expect_match he _ _ (by omega)) ?_
      intro _ q1 _ _ _ _
      exact sound_pure (by omega)
    -- if_statement
    · intro p o ho hb
      rw [if_statement]
      refine sound_bind (sound_expect_match he _ _ ho) ?_
      intro _ q _ _ _ _
      refine sound_bind (hexpr q o (by omega) (by omega)) ?_
      intro _ q1 _ _ _ _
      refine sound_bind (sound_expect_match he _ _ (by omega)) ?_
      intro _ q2 _ _ _ _
      refine sound_bind (hstmt q2 o (by omega) (by omega)) ?_
      intro _ q3 _ _ _ _
      refine sound_bind (sound_match he _ q3) ?_
      intro b q4 _ _ _ _
      refine sound_bind (R := fun _ _ => True) (sound_ite
        (fun _ => sound_weaken (hstmt q4 o (by omega) (by omega)) (fun _ _ _ _ _ _ => trivial))
        (fun _ => sound_pure trivial)) ?_
      intro _ q5 _ _ _ _
      exact sound_pure (by omega)
    -- while_statement
    · intro p o ho hb
      rw [while_statement]
      refine sound_bind (sound_expect_match he _ _ ho) ?_
      intro _ q _ _ _ _
      refine sound_bind (hexpr q o (by omega) (by omega)) ?_
      intro _ q1 _ _ _ _
      refine sound_bind (sound_expect_match he _ _ (by omega)) ?_
      intro _ q2 _ _ _ _
      refine sound_bind (hstmt q2 o (by omega) (by omega)) ?_
      intro _ q3 _ _ _ _
      exact sound_pure (by omega)
    -- for_statement
    · intro p o ho hb
      rw [for_statement]
      refine sound_bind (sound_expect_match he _ _ ho) ?_
      intro _ q _ _ _ _
      refine sound_bind (sound_match he _ q) ?_
      intro b q1 _ _ _ _
      refine sound_bind (R := fun _ _ => True) (sound_ite (fun _ => sound_pure trivial)
        (fun _ => ?_)) ?_
      · refine sound_bind (sound_match he _ q1) ?_
        intro b1 q2 _ _ _ _
        exact sound_ite
          (fun _ => sound_weaken (hvar q2 o (by omega) (by omega)) (fun _ _ _ _ _ _ => trivial))
          (fun _ => sound_weaken (hes q2 o (by omega) (by omega)) (fun _ _ _ _ _ _ => trivial))
      intro _ q3 _ _ _ _
      refine sound_bind (sound_check he _ q3) ?_
      rintro b2 q4 - - - ⟨rfl, -⟩
      refine sound_bind (R := fun _ _ => True) (sound_ite
        (fun _ => sound_bind (hexpr _ o (by omega) (by omega)) (fun _ _ _ _ _ _ => sound_pure trivial))
        (fun _ => sound_pure trivial)) ?_
      intro _ q5 _ _ _ _
      refine sound_bind (sound_expect_match he _ _ (by omega)) ?_
      intro _ q6 _ _ _ _
      refine sound_bind (sound_check he _ q6) ?_
      rintro b3 q7 - - - ⟨rfl, -⟩
      refine sound_bind (R := fun _ _ => True) (sound_ite
        (fun _ => sound_bind (hexpr _ o (by omega) (by omega)) (fun _ _ _ _ _ _ => sound_pure trivial))
        (fun _ => sound_pure trivial)) ?_
      intro _ q8 _ _ _ _
      refine sound_bind (sound_expect_match he _ _ (by omega)) ?_
      intro _ q9 _ _ _ _
      refine sound_bind (hstmt q9 o (by omega) (by omega)) ?_
      intro _ q10 _ _ _ _
      exact sound_pure (by omega)
    -- return_statement
    · intro p o ho hb
      rw [return_statement]
      refine sound_bind (sound_check he _ p) ?_
      rintro b q - - - ⟨rfl, -⟩
      refine sound_bind (R := fun _ _ => True) (sound_ite
        (fun _ => sound_bind (hexpr _ o (by omega) (by omega)) (fun _ _ _ _ _ _ => sound_pure trivial))
        (fun _ => sound_pure trivial)) ?_
      intro _ q1 _ _ _ _
      refine sound_bind (sound_expect_match he _ _ (by omega)) ?_
      intro _ q2 _ _ _ _
      exact sound_pure (by omega)
    -- expression
    · intro p o ho hb
      rw [expression]
      exact hasg p o ho (by omega)
    -- assignment
    · intro p o ho hb
      rw [assignment]
      refine sound_bind (hlor p o ho (by omega)) ?_
      intro x q _ _ _ _
      refine sound_bind (sound_match he _ q) ?_
      intro b q1 _ _ _ hm
      refine sound_ite (fun hbt => ?_) (fun _ => sound_pure trivial)
      have := hm.1 hbt
      refine sound_bind (sound_previous he (by omega)) ?_
      rintro eq q2 - - - rfl
      refine sound_bind (hasg q2 o (by omega) (by omega)) ?_
      intro _ q3 _ _ _ _
      refine sound_bind (sound_error _ _ q3) ?_
      intro _ q4 _ _ _ _
      exact sound_raise (by omega)
    · intro p o ho hb
      rw [logical_or]
      refine sound_bind (hland p o ho (by omega)) ?_
      intro x q _ _ _ _
      refine sound_loop q.current o ?_ n x q (Nat.le_refl _) (by omega) (by omega)
      intro s r _ _
      refine sound_bind (sound_match he _ r) ?_
      intro b r1 _ _ _ hm
      refine sound_ite (fun hbt => ?_) (fun _ => sound_pure trivial)
      have := hm.1 hbt
      refine sound_bind (sound_previous he (by omega)) ?_
      rintro _ r2 - - - rfl
      refine sound_bind (hland r2 o (by omega) (by omega)) ?_
      intro _ r3 _ _ _ _
      exact sound_pure (by show r.current < r3.current; omega)
    · intro p o ho hb
      rw [logical_and]
      refine sound_bind (heq p o ho (by omega)) ?_
      intro x q _ _ _ _
      refine sound_loop q.current o ?_ n x q (Nat.le_refl _) (by omega) (by omega)
      intro s r _ _
      refine sound_bind (sound_match he _ r) ?_
      intro b r1 _ _ _ hm
      refine sound_ite (fun hbt => ?_) (fun _ => sound_pure trivial)
      have := hm.1 hbt
      refine sound_bind (sound_previous he (by omega)) ?_
      rintro _ r2 - - - rfl
      refine sound_bind (heq r2 o (by omega) (by omega)) ?_
      intro _ r3 _ _ _ _
      exact sound_pure (by show r.current < r3.current; omega)
    · intro p o ho hb
      rw [equality]
      refine sound_bind (hcmp p o ho (by omega)) ?_
      intro x q _ _ _ _
      refine sound_loop q.current o ?_ n x q (Nat.le_refl _) (by omega) (by omega)
      intro s r _ _
      refine sound_bind (sound_match he _ r) ?_
      intro b r1 _ _ _ hm
      refine sound_ite (fun hbt => ?_) (fun _ => sound_pure trivial)
      have := hm.1 hbt
      refine sound_bind (sound_previous he (by omega)) ?_
      rintro _ r2 - - - rfl
      refine sound_bind (hcmp r2 o (by omega) (by omega)) ?_
      intro _ r3 _ _ _ _
      exact sound_pure (by show r.current < r3.current; omega)
    · intro p o ho hb
      rw [comparison]
      refine sound_bind (hadd p o ho (by omega)) ?_
      intro x q _ _ _ _
      refine sound_loop q.current o ?_ n x q (Nat.le_refl _) (by omega) (by omega)
      intro s r _ _
      refine sound_bind (sound_match he _ r) ?_
      intro b r1 _ _ _ hm
      refine sound_ite (fun hbt => ?_) (fun _ => sound_pure trivial)
      have := hm.1 hbt
      refine sound_bind (sound_previous he (by omega)) ?_
      rintro _ r2 - - - rfl
      refine sound_bind (hadd r2 o (by omega) (by omega)) ?_
      intro _ r3 _ _ _ _
      exact sound_pure (by show r.current < r3.current; omega)
    · intro p o ho hb
      rw [addition]
      refine sound_bind (hmul p o ho (by omega)) ?_
      intro x q _ _ _ _
      refine sound_loop q.current o ?_ n x q (Nat.le_refl _) (by omega) (by omega)
      intro s r _ _
      refine sound_bind (sound_match he _ r) ?_
      intro b r1 _ _ _ hm
      refine sound_ite (fun hbt => ?_) (fun _ => sound_pure trivial)
      have := hm.1 hbt
      refine sound_bind (sound_previous he (by omega)) ?_
      rintro _ r2 - - - rfl
      refine sound_bind (hmul r2 o (by omega) (by omega)) ?_
      intro _ r3 _ _ _ _
      exact sound_pure (by show r.current < r3.current; omega)
    · intro p o ho hb
      rw [multiplication]
      refine sound_bind (hun p o ho (by omega)) ?_
      intro x q _ _ _ _
      refine sound_loop q.current o ?_ n x q (Nat.le_refl _) (by omega) (by omega)
      intro s r _ _
      refine sound_bind (sound_match he _ r) ?_
      intro b r1 _ _ _ hm
      refine sound_ite (fun hbt => ?_) (fun _ => sound_pure trivial)
      have := hm.1 hbt
      refine sound_bind (sound_previous he (by omega)) ?_
      rintro _ r2 - - - rfl
      refine sound_bind (hun r2 o (by omega) (by omega)) ?_
      intro _ r3 _ _ _ _
      exact sound_pure (by show r.current < r3.current; omega)
    -- unary
    · intro p o ho hb
      rw [unary]
      refine sound_bind (sound_match he _ p) ?_
      intro b q _ _ _ hm
      refine sound_ite (fun hbt => ?_) (fun hbf => ?_)
      · have := hm.1 hbt
        refine sound_bind (sound_previous he (by omega)) ?_
        rintro _ q1 - - - rfl
        refine sound_bind (hun q1 o (by omega) (by omega)) ?_
        intro _ q2 _ _ _ _
        exact sound_pure trivial
      · have := hm.2 (by simpa using hbf)
        subst this
        exact hprim q o ho (by omega)
    -- primary
    · intro p o ho hb
      rw [primary]
      refine sound_bind (sound_match he _ p) ?_
      intro b q _ _ _ hm
      refine sound_ite (fun hbt => ?_) (fun hbf => ?_)
      · have := hm.1 hbt
        refine sound_bind (sound_previous he (by omega)) ?_
        rintro _ q1 - - - rfl
        exact sound_pure trivial
      have := hm.2 (by simpa using hbf)
      subst this
      refine sound_bind (sound_match he _ q) ?_
      intro b q1 _ _ _ hm
      refine sound_ite (fun hbt => ?_) (fun hbf => ?_)
      · have := hm.1 hbt
        refine sound_bind (sound_previous he (by omega)) ?_
        rintro _ q2 - - - rfl
        refine sound_bind (sound_check he _ q2) ?_
        rintro b q3 - - - ⟨rfl, -⟩
        exact sound_ite (fun _ => hcall _ q3 o (by omega) (by omega))
          (fun _ => sound_pure trivial)
      have := hm.2 (by simpa using hbf)
      subst this
      refine sound_bind (sound_match he _ q1) ?_
      intro b q2 _ _ _ hm
      refine sound_ite (fun hbt => ?_) (fun hbf => ?_)
      · have := hm.1 hbt
        refine sound_bind (hexpr q2 o (by omega) (by omega)) ?_
        intro _ q3 _ _ _ _
        refine sound_bind (sound_expect_match he _ _ (by omega)) ?_
        intro _ q4 _ _ _ _
        exact sound_pure trivial
      have := hm.2 (by simpa using hbf)
      subst this
      exact sound_fail he _ ho
    -- argument_list
    · intro p o ho hb
      rw [argument_list]
      refine sound_loop p.current o ?_ n [] p (Nat.le_refl _) ho (by omega)
      intro s r _ _
      refine sound_bind (hexpr r o (by omega) (by omega)) ?_
      intro _ r1 _ _ _ _
      refine sound_bind (sound_match he _ r1) ?_
      intro b r2 _ _ _ hm
      refine sound_ite (fun hbt => sound_pure ?_) (fun _ => sound_pure trivial)
      have := hm.1 hbt
      show r.current < r2.current
      omega
    -- function_call
    · intro c p o ho hb
      rw [function_call]
      refine sound_bind (sound_expect_match he _ _ ho) ?_
      intro _ q _ _ _ _
      refine sound_bind (sound_check he _ q) ?_
      rintro b q1 - - - ⟨rfl, -⟩
      refine sound_bind (R := fun _ _ => True) (sound_ite
        (fun _ => hargs q1 o (by omega) (by omega)) (fun _ => sound_pure trivial)) ?_
      intro _ q2 _ _ _ _
      refine sound_bind (sound_expect_match he _ _ (by omega)) ?_
      intro _ q3 _ _ _ _
      exact sound_pure trivial

end

/-! ## Grouping, budgets and the program loop -/

theorem run_expect_true {c : P Bool} {p q : Parser} (h : c p = .ok true q) (msg : String) :
    expect c msg p = .ok () q := by
  simp [expect, h]

theorem run_expect_false {c : P Bool} {p q : Parser} {t : Token} (h : c p = .ok false q)
    (ht : q.tokens[q.current]? = some t) (msg : String) :
    expect c msg p = .raised { q with errors := q.errors ++ [(t, msg)] } := by
  simp [expect, h, fail, run_peek ht]

/-- C6: when `Parser::expression` parses the tokens `e`, followed by a closing
parenthesis, to the node `E` without a diagnostic, `Parser::primary` on
`( e )` returns the same node `E`, with no wrapper, and leaves the cursor just past the
closing parenthesis; and `(1 + 2) * 3` parses as `Binary(*, Binary(+, 1, 2), 3)`. -/
theorem primary_group (n : Nat) (lp rp : Token) (e rest : List Token) (E : Expr)
    (hlp : lp.type = .LEFT_PARENTHESIS) (hrp : rp.type = .RIGHT_PARENTHESIS)
    (h : expression n (Parser.new (e ++ rp :: rest))
      = .ok E ⟨e ++ rp :: rest, e.length, []⟩) :
    primary (n + 1) (Parser.new (lp :: (e ++ rp :: rest)))
        = .ok E ⟨lp :: (e ++ rp :: rest), e.length + 2, []⟩
    ∧ expression 24 (Parser.new [tok .LEFT_PARENTHESIS "(", tok .INT_LITERAL "1",
        tok .ADD "+", tok .INT_LITERAL "2", tok .RIGHT_PARENTHESIS ")", tok .MULTIPLY "*",
        tok .INT_LITERAL "3", tok .END_OF_FILE ""])
      = .ok (.Binary .MULTIPLY (.Binary .ADD (.Literal (tok .INT_LITERAL "1"))
            (.Literal (tok .INT_LITERAL "2"))) (.Literal (tok .INT_LITERAL "3")))
          ⟨[tok .LEFT_PARENTHESIS "(", tok .INT_LITERAL "1", tok .ADD "+",
            tok .INT_LITERAL "2", tok .RIGHT_PARENTHESIS ")", tok .MULTIPLY "*",
            tok .INT_LITERAL "3", tok .END_OF_FILE ""], 7, []⟩ := by
  refine ⟨?_, rfl⟩
  have h0 : (Parser.new (lp :: (e ++ rp :: rest))).tokens[
      (Parser.new (lp :: (e ++ rp :: rest))).current]? = some lp := by simp [Parser.new]
  have m1 := run_match_false h0 (T := [.INT_LITERAL, .FLOAT_LITERAL, .STRING_LITERAL,
    .BOOLEAN_LITERAL, .NULL_LITERAL]) (by simp [hlp])
  have m2 := run_match_false h0 (T := [.IDENTIFIER]) (by simp [hlp])
  have m3 := run_match_true h0 (by simp [hlp]) (T := [.LEFT_PARENTHESIS]) (by simp [hlp])
  have hs := (@sim_rules [lp] [] n n (Nat.le_refl n)).2.2.2.2.2.2.2.2.2.2.1
    (Parser.new (e ++ rp :: rest)) (by simp [h]) (by simp [h])
  rw [h] at hs
  have hrp1 : (lp :: (e ++ rp :: rest))[1 + e.length]? = some rp := by
    rw [Nat.add_comm, List.getElem?_cons_succ, List.getElem?_append_right (Nat.le_refl _)]
    simp
  have m4 := run_match_true (p := ⟨lp :: (e ++ rp :: rest), 1 + e.length, []⟩) hrp1
    (by simp [hrp]) (T := [.RIGHT_PARENTHESIS]) (by simp [hrp])
  have x4 := run_expect_true m4 "Expected \x27)\x27 after expression."
  simp only [Parser.new, Parser.shift, Outcome.shift, List.length_singleton,
    List.singleton_append, List.nil_append, Nat.add_zero] at hs m1 m2 m3 x4 ⊢
  rw [primary]
  simp [m1, m2, m3, hs, x4]
  omega

/-- The instance `(1 + 2)` of `primary_group`. -/
theorem primary_group_witness :
    primary 13 (Parser.new [tok .LEFT_PARENTHESIS "(", tok .INT_LITERAL "1",
        tok .ADD "+", tok .INT_LITERAL "2", tok .RIGHT_PARENTHESIS ")",
        tok .END_OF_FILE ""])
      = .ok (.Binary .ADD (.Literal (tok .INT_LITERAL "1"))
          (.Literal (tok .INT_LITERAL "2")))
          ⟨[tok .LEFT_PARENTHESIS "(", tok .INT_LITERAL "1", tok .ADD "+",
            tok .INT_LITERAL "2", tok .RIGHT_PARENTHESIS ")", tok .END_OF_FILE ""], 5, []⟩ :=
  (primary_group 12 (tok .LEFT_PARENTHESIS "(") (tok .RIGHT_PARENTHESIS ")")
    [tok .INT_LITERAL "1", tok .ADD "+", tok .INT_LITERAL "2"] [tok .END_OF_FILE ""]
    (.Binary .ADD (.Literal (tok .INT_LITERAL "1")) (.Literal (tok .INT_LITERAL "2")))
    rfl rfl rfl).1


section
variable {ts : List Token} {e o : Nat}

theorem sound_programRound (he : EofAt ts e) (n : Nat) (ds : List StmtPtr) (p : Parser)
    (hb : 32 * (e - p.current) + 13 ≤ n) :
    Sound ts e o (AGScript.programRound n ds) p (Step.Advanced p.current) := by
  intro ht hc
  refine (?_ : Sound ts e o _ p _) ht hc
  unfold AGScript.programRound
  refine sound_bind (sound_isAtEnd he p) ?_
  rintro b q - - - ⟨rfl, hnb⟩
  refine sound_ite (fun hbt => ?_) (fun _ => sound_pure trivial)
  have hn : NotAtEnd q := hnb (by simpa using hbt)
  refine sound_tryCatch q.errors.length ?_ ?_
  · refine sound_bind ((sound_rules he n).1 q q.errors.length (Nat.le_refl _) hb) ?_
    intro s r _ _ _ hs
    exact sound_pure hs
  · intro r hr1 hr2 hr3
    intro hrt hrc
    refine (?_ : Sound ts e o _ r _) hrt hrc
    have hsame : r.current = q.current → NotAtEnd r := by
      intro h0
      obtain ⟨t, h1, h2⟩ := hn
      exact ⟨t, by rw [hrt, h0, ← ht]; exact h1, h2⟩
    have hpre : 0 < r.current ∨ NotAtEnd r := by
      by_cases h0 : r.current = q.current
      · exact Or.inr (hsame h0)
      · exact Or.inl (by omega)
    refine sound_bind (sound_synchronize he hpre) ?_
    intro _ r1 _ _ _ hsync
    refine sound_pure ?_
    show q.current < r1.current
    by_cases h0 : r.current = q.current
    · have := hsync (hsame h0)
      omega
    · omega

theorem sound_program (he : EofAt ts e) (n : Nat) (p : Parser)
    (hb : 32 * (e - p.current) + 13 ≤ n) :
    Sound ts e o (AGScript.program n) p (fun _ _ => True) := by
  unfold AGScript.program
  exact sound_loop p.current 0 (fun s q _ _ => sound_programRound he n s q (by omega))
    n [] p (Nat.le_refl _) (Nat.zero_le _) (by omega)

/-- A sound call that returns normally or throws names its outcome. -/
theorem sound_cases {α : Type} {m : P α} {p : Parser} {Q : α → Parser → Prop}
    (h : Sound ts e o m p Q) (ht : p.tokens = ts) (hc : p.current ≤ e) :
    m p ≠ .noFuel ∧ m p ≠ .outOfBounds := by
  have h1 := h ht hc
  cases hmp : m p with
  | ok a q => simp
  | raised q => simp
  | outOfBounds => rw [hmp] at h1; exact absurd h1 id
  | noFuel => rw [hmp] at h1; exact absurd h1 id

end

theorem parser_shift_nil (p : Parser) : p.shift [] [] = p := by
  cases p
  simp [Parser.shift]

theorem outcome_shift_nil {α : Type} (r : Outcome α) : r.shift [] [] = r := by
  cases r <;> simp [Outcome.shift, parser_shift_nil]

theorem eofAt_of_mem {tokens : List Token} (h : ∃ t ∈ tokens, t.type = .END_OF_FILE) :
    ∃ e, EofAt tokens e := by
  obtain ⟨t, ht, hty⟩ := h
  obtain ⟨e, he⟩ := List.mem_iff_getElem?.mp ht
  exact ⟨e, t, he, hty⟩

/-- With the budget that soundness asks for, `program` returns, and a larger budget gives
the same result. -/
theorem program_ok {ts : List Token} {e : Nat} (he : EofAt ts e) (n : Nat) (p : Parser)
    (ht : p.tokens = ts) (hc : p.current ≤ e) (hb : 32 * (e - p.current) + 13 ≤ n) :
    ∃ ds q, program n p = .ok ds q ∧ q.tokens = ts := by
  cases hr : program n p with
  | ok ds q =>
    have := sound_program (o := 0) he n p hb ht hc
    rw [hr] at this
    exact ⟨ds, q, rfl, this.1⟩
  | raised q =>
    have := sound_program (o := q.errors.length) he n p hb ht hc
    rw [hr] at this
    exact absurd this.2.2.2.2 (Nat.lt_irrefl _)
  | outOfBounds =>
    have := sound_program (o := 0) he n p hb ht hc
    rw [hr] at this
    exact absurd this id
  | noFuel =>
    have := sound_program (o := 0) he n p hb ht hc
    rw [hr] at this
    exact absurd this id

/-- The outcome of `declaration` does not depend on the budget, once a budget gives one
and the other budget is the one that soundness asks for. -/
theorem declaration_fuel {ts : List Token} {e : Nat} (he : EofAt ts e) (p : Parser)
    (ht : p.tokens = ts) (hc : p.current ≤ e) (n j : Nat)
    (hn : 32 * (e - p.current) + 13 ≤ n) (hf : declaration j p ≠ .noFuel)
    (ho : declaration j p ≠ .outOfBounds) : declaration n p = declaration j p := by
  have hs := sound_cases ((sound_rules he n).1 p p.errors.length (Nat.le_refl _) hn) ht hc
  rcases Nat.le_total j n with h | h
  · have := (@sim_rules [] [] j n h).1 p hf ho
    simpa [parser_shift_nil, outcome_shift_nil] using this
  · have := (@sim_rules [] [] n j h).1 p hs.1 hs.2
    simpa [parser_shift_nil, outcome_shift_nil] using this.symm

/-- On a token array that holds an end-of-input token `Parser::parse` returns: its budget
does not run out, no access leaves the array, and no exception escapes. -/
theorem parse_ok (tokens : List Token) (h : ∃ t ∈ tokens, t.type = .END_OF_FILE) :
    ∃ ds q, parse tokens = .ok ds q ∧ q.tokens = tokens := by
  obtain ⟨e, he⟩ := eofAt_of_mem h
  have hlt := he.lt_length
  exact program_ok he _ (Parser.new tokens) rfl (Nat.zero_le _)
    (by simp [parseFuel, Parser.new]; omega)

/-! ## Error recovery -/

/-- One literal that no binary operator follows is parsed by `logical_or` to its literal
node. -/
theorem logical_or_literal (n : Nat) {p : Parser} {x v : Token}
    (hx : p.tokens[p.current]? = some x) (hl : x.type ∈ literalKinds)
    (hv : p.tokens[p.current + 1]? = some v) (hn : v.type ∉ binaryKinds) :
    logical_or (n + 8) p = .ok (.Literal x) { p with current := p.current + 1 } := by
  have sub : ∀ T : List TokenType, (∀ t ∈ T, t ∈ binaryKinds) → v.type ∉ T :=
    fun T hT h => hn (hT _ h)
  have h0 := addition_literal n hx hl hv (sub _ (by simp [binaryKinds]))
  have h1 := run_match_false (p := { p with current := p.current + 1 }) hv
    (sub [.LESS_THAN, .LESS_THAN_OR_EQUAL, .GREATER_THAN, .GREATER_THAN_OR_EQUAL]
      (by simp [binaryKinds]))
  have h2 := run_match_false (p := { p with current := p.current + 1 }) hv
    (sub [.EQUAL, .NOT_EQUAL] (by simp [binaryKinds]))
  have h3 := run_match_false (p := { p with current := p.current + 1 }) hv
    (sub [.AND] (by simp [binaryKinds]))
  have h4 := run_match_false (p := { p with current := p.current + 1 }) hv
    (sub [.OR] (by simp [binaryKinds]))
  simp [logical_or, logical_and, equality, comparison, h0, loop, h1, h2, h3, h4]

/-- On `a = b ;` with literals `a` and `b`, `declaration` throws with the cursor on the
`;` after reporting the `=` as an invalid assignment target. -/
theorem declaration_literal_assignment (n : Nat) (a asg b semi : Token) (rest : List Token)
    (ha : a.type ∈ literalKinds) (hb : b.type ∈ literalKinds)
    (hasg : asg.type = .ASSIGN) (hsemi : semi.type = .SEMI_COLON) :
    declaration (n + 16) (Parser.new (a :: asg :: b :: semi :: rest))
      = .raised ⟨a :: asg :: b :: semi :: rest, 3,
          [(asg, "Invalid assignment target.")]⟩ := by
  have h0 : (Parser.new (a :: asg :: b :: semi :: rest)).tokens[
      (Parser.new (a :: asg :: b :: semi :: rest)).current]? = some a := by simp [Parser.new]
  have nm : ∀ T : List TokenType, (∀ t ∈ T, t ∉ literalKinds) →
      «match» T (Parser.new (a :: asg :: b :: semi :: rest))
        = .ok false (Parser.new (a :: asg :: b :: semi :: rest)) :=
    fun T hT => run_match_false h0 (fun h => hT _ h ha)
  have l1 := logical_or_literal (n + 3) (x := a) (v := asg)
    (p := Parser.new (a :: asg :: b :: semi :: rest)) h0 ha (by simp [Parser.new])
    (by simp [hasg, binaryKinds])
  have m1 := run_match_true (t := asg) (T := [.ASSIGN])
    (p := ⟨a :: asg :: b :: semi :: rest, 1, []⟩) (by simp) (by simp [hasg]) (by simp [hasg])
  have l2 := logical_or_literal (n + 2) (x := b) (v := semi)
    (p := ⟨a :: asg :: b :: semi :: rest, 2, []⟩) (by simp) hb (by simp)
    (by simp [hsemi, binaryKinds])
  have m2 := run_match_false (t := semi) (T := [.ASSIGN])
    (p := ⟨a :: asg :: b :: semi :: rest, 3, []⟩) (by simp) (by simp [hsemi])
  simp only [Parser.new] at l1 m1 l2 m2 nm ⊢
  simp [declaration, statement, expression_statement, expression, assignment,
    nm [.FUNCTION] (by simp [literalKinds]), nm [.LET] (by simp [literalKinds]),
    nm [.IF] (by simp [literalKinds]), nm [.WHILE] (by simp [literalKinds]),
    nm [.RETURN] (by simp [literalKinds]), nm [.FOR] (by simp [literalKinds]),
    nm [.LEFT_BRACE] (by simp [literalKinds]), nm [.SEMI_COLON] (by simp [literalKinds]),
    l1, m1, previous, l2, m2]

/-- The loop of `synchronize` walks from the cursor `j` to the first index `stop` at which
it may stop: the end-of-input token, or a token right after a `;`, or a token of one of
the statement-starting kinds. -/
theorem synchronize_loop (T : List Token) (errs : List (Token × String)) (stop : Nat)
    (hlen : stop < T.length)
    (hend : (∃ t, T[stop]? = some t ∧ t.type = .END_OF_FILE)
      ∨ (∃ t, T[stop - 1]? = some t ∧ t.type = .SEMI_COLON)
      ∨ (∃ t, T[stop]? = some t ∧ t.type ∈ syncKinds)) :
    ∀ (d j rounds : Nat), j + d = stop → 0 < j → d < rounds →
      (∀ i t, j ≤ i → i < stop → T[i]? = some t →
        t.type ≠ .END_OF_FILE ∧ t.type ∉ syncKinds) →
      (∀ i t, j ≤ i + 1 → i + 1 < stop → T[i]? = some t → t.type ≠ .SEMI_COLON) →
      loop (fun (_ : Unit) => synchronizeRound) rounds () ⟨T, j, errs⟩
        = .ok () ⟨T, stop, errs⟩ := by
  intro d
  induction d with
  | zero =>
    intro j rounds hj hpos hr _ _
    obtain ⟨r, rfl⟩ : ∃ r, rounds = r + 1 := ⟨rounds - 1, by omega⟩
    have hjs : j = stop := by omega
    subst hjs
    have hs : T[j]? = some T[j] := List.getElem?_eq_getElem hlen
    obtain ⟨u, hp⟩ : ∃ u, T[j - 1]? = some u := ⟨_, List.getElem?_eq_getElem (by omega)⟩
    apply loop_done
    have hat := run_isAtEnd (p := ⟨T, j, errs⟩) hs
    by_cases he : T[j].type = .END_OF_FILE
    · simp [synchronizeRound, hat, he]
    · have hpr := run_previous (p := ⟨T, j, errs⟩) (c := j - 1) (by simp; omega) hp
      by_cases hsc : u.type = .SEMI_COLON
      · simp [synchronizeRound, hat, he, hpr, hsc]
      · have hk : T[j].type ∈ syncKinds := by
          rcases hend with ⟨t, h1, h2⟩ | ⟨t, h1, h2⟩ | ⟨t, h1, h2⟩
          · rw [hs] at h1; cases h1; exact absurd h2 he
          · rw [hp] at h1; cases h1; exact absurd h2 hsc
          · rw [hs] at h1; cases h1; exact h2
        simp [synchronizeRound, hat, he, hpr, hsc, run_peek (p := ⟨T, j, errs⟩) hs, hk]
  | succ d ih =>
    intro j rounds hj hpos hr hclean hsemi
    obtain ⟨r, rfl⟩ : ∃ r, rounds = r + 1 := ⟨rounds - 1, by omega⟩
    have hjl : j < T.length := by omega
    have hs : T[j]? = some T[j] := List.getElem?_eq_getElem hjl
    obtain ⟨u, hp⟩ : ∃ u, T[j - 1]? = some u := ⟨_, List.getElem?_eq_getElem (by omega)⟩
    obtain ⟨he, hk⟩ := hclean j _ (Nat.le_refl _) (by omega) hs
    have hsc := hsemi (j - 1) _ (by omega) (by omega) hp
    have hat := run_isAtEnd (p := ⟨T, j, errs⟩) hs
    have hpr := run_previous (p := ⟨T, j, errs⟩) (c := j - 1) (by simp; omega) hp
    have hadv := run_advance (p := ⟨T, j, errs⟩) hs he
    rw [loop_next (r := ()) (q := ⟨T, j + 1, errs⟩)]
    · exact ih (j + 1) r (by omega) (by omega) (by omega)
        (fun i t h1 h2 h3 => hclean i t (by omega) h2 h3)
        (fun i t h1 h2 h3 => hsemi i t (by omega) h2 h3)
    · simp [synchronizeRound, hat, he, hpr, hsc, run_peek (p := ⟨T, j, errs⟩) hs, hk, hadv]

/-- `synchronize` from an offending token that is not the end of input: it discards up to
the first index `stop` after it where the loop may stop. -/
theorem synchronize_stops (T : List Token) (errs : List (Token × String)) (c stop : Nat)
    (hc : c < stop) (hlen : stop < T.length)
    (h0 : ∀ t, T[c]? = some t → t.type ≠ .END_OF_FILE)
    (hend : (∃ t, T[stop]? = some t ∧ t.type = .END_OF_FILE)
      ∨ (∃ t, T[stop - 1]? = some t ∧ t.type = .SEMI_COLON)
      ∨ (∃ t, T[stop]? = some t ∧ t.type ∈ syncKinds))
    (hclean : ∀ i t, c < i → i < stop → T[i]? = some t →
      t.type ≠ .END_OF_FILE ∧ t.type ∉ syncKinds)
    (hsemi : ∀ i t, c ≤ i → i + 1 < stop → T[i]? = some t → t.type ≠ .SEMI_COLON) :
    synchronize ⟨T, c, errs⟩ = .ok () ⟨T, stop, errs⟩ := by
  have hs : T[c]? = some T[c] := List.getElem?_eq_getElem (by omega)
  have hadv := run_advance (p := ⟨T, c, errs⟩) hs (h0 _ hs)
  have hl := synchronize_loop T errs stop hlen hend (stop - (c + 1)) (c + 1)
    (T.length - (c + 1) + 1) (by omega) (by omega) (by omega)
    (fun i t h1 h2 h3 => hclean i t (by omega) h2 h3)
    (fun i t h1 h2 h3 => hsemi i t (by omega) h2 h3)
  simp [synchronize, hadv, hl]

/-- `synchronize` when the offending token is the end-of-input token: nothing moves. -/
theorem synchronize_at_end (T : List Token) (errs : List (Token × String)) (c : Nat)
    (hc : 0 < c) (h0 : ∃ t, T[c]? = some t ∧ t.type = .END_OF_FILE) :
    synchronize ⟨T, c, errs⟩ = .ok () ⟨T, c, errs⟩ := by
  obtain ⟨t, ht, hty⟩ := h0
  have hlen : c < T.length := by
    by_contra hn
    rw [List.getElem?_eq_none (by omega)] at ht
    exact absurd ht (by simp)
  obtain ⟨u, hp⟩ : ∃ u, T[c - 1]? = some u := ⟨_, List.getElem?_eq_getElem (by omega)⟩
  have hat := run_isAtEnd (p := ⟨T, c, errs⟩) ht
  have hpr := run_previous (p := ⟨T, c, errs⟩) (c := c - 1) (by simp; omega) hp
  simp [synchronize, advance, hat, hty, hpr, loop, synchronizeRound]

theorem run_programRound_raised {n : Nat} {d : List StmtPtr} {p q r : Parser} {t : Token}
    (ht : p.tokens[p.current]? = some t) (hne : t.type ≠ .END_OF_FILE)
    (hd : declaration n p = .raised q) (hs : synchronize q = .ok () r) :
    programRound n d p = .ok (.next d) r := by
  simp [programRound, run_isAtEnd ht, hne, tryCatch, hd, hs]

theorem run_programRound_ok {n : Nat} {d : List StmtPtr} {p q : Parser} {t : Token}
    {s : StmtPtr} (ht : p.tokens[p.current]? = some t) (hne : t.type ≠ .END_OF_FILE)
    (hd : declaration n p = .ok s q) :
    programRound n d p = .ok (.next (d ++ [s])) q := by
  simp [programRound, run_isAtEnd ht, hne, tryCatch, hd]

theorem run_programRound_done {n : Nat} {d : List StmtPtr} {p : Parser} {t : Token}
    (ht : p.tokens[p.current]? = some t) (he : t.type = .END_OF_FILE) :
    programRound n d p = .ok (.done d) p := by
  simp [programRound, run_isAtEnd ht, he]

theorem sim_programRound {pre : List Token} {errs : List (Token × String)} (n j : Nat)
    (h : n ≤ j) (ds : List StmtPtr) :
    Sim pre errs (programRound n ds) (programRound j ds) := by
  unfold programRound
  refine sim_bind sim_isAtEnd (fun _ => sim_ite ?_ (sim_pure _))
  exact sim_tryCatch (sim_bind (sim_rules n j h).1 (fun _ => sim_pure _))
    (sim_bind sim_synchronize (fun _ => sim_pure _))

/-- C8: for literal tokens `a`, `b` and every token sequence `rest` that holds an
end-of-input token, `Parser::parse` on `a = b ;` followed by `rest` returns exactly the
statements that it returns on `rest` alone, so the prefix adds no statement, and its
diagnostics are one diagnostic whose offending token is the `=` token, followed by the
diagnostics of `rest`. -/
theorem parse_literal_assignment (a asg b semi : Token) (rest : List Token)
    (ha : a.type ∈ literalKinds) (hb : b.type ∈ literalKinds)
    (hasg : asg.type = .ASSIGN) (hsemi : semi.type = .SEMI_COLON)
    (hrest : ∃ t ∈ rest, t.type = .END_OF_FILE) :
    ∃ ds q, parse rest = .ok ds q
      ∧ parse (a :: asg :: b :: semi :: rest)
        = .ok ds ⟨a :: asg :: b :: semi :: rest, 4 + q.current,
            (asg, "Invalid assignment target.") :: q.errors⟩ := by
  obtain ⟨ds, q, hq, hqt⟩ := parse_ok rest hrest
  refine ⟨ds, q, hq, ?_⟩
  obtain ⟨r0, rest1, rfl⟩ : ∃ r0 rest1, rest = r0 :: rest1 := by
    cases rest with
    | nil => obtain ⟨t, ht, _⟩ := hrest; cases ht
    | cons r0 rest1 => exact ⟨r0, rest1, rfl⟩
  have hfuel : parseFuel (a :: asg :: b :: semi :: r0 :: rest1)
      = (parseFuel (r0 :: rest1) + 127) + 1 := by
    simp [parseFuel]
    omega
  have hd := declaration_literal_assignment (parseFuel (r0 :: rest1) + 112) a asg b semi
    (r0 :: rest1) ha hb hasg hsemi
  have hsy : synchronize ⟨a :: asg :: b :: semi :: r0 :: rest1, 3,
      [(asg, "Invalid assignment target.")]⟩
      = .ok () ⟨a :: asg :: b :: semi :: r0 :: rest1, 4,
        [(asg, "Invalid assignment target.")]⟩ := by
    by_cases he : r0.type = .END_OF_FILE
    · exact synchronize_stops _ _ 3 4 (by omega) (by simp)
        (by intro t ht; simp at ht; subst ht; simp [hsemi])
        (Or.inl ⟨r0, by simp, he⟩) (fun i t h1 h2 => by omega) (fun i t h1 h2 => by omega)
    · exact synchronize_stops _ _ 3 4 (by omega) (by simp)
        (by intro t ht; simp at ht; subst ht; simp [hsemi])
        (Or.inr (Or.inl ⟨semi, by simp, hsemi⟩)) (fun i t h1 h2 => by omega)
        (fun i t h1 h2 => by omega)
  have hround := run_programRound_raised
    (n := parseFuel (r0 :: rest1) + 112 + 16) (d := [])
    (p := Parser.new (a :: asg :: b :: semi :: r0 :: rest1)) (t := a)
    (by simp [Parser.new]) (ne_eof_of_mem_literalKinds ha) hd hsy
  have hsim := @sim_loop [a, asg, b, semi] [(asg, "Invalid assignment target.")] _ _ _
    (sim_programRound (parseFuel (r0 :: rest1)) (parseFuel (r0 :: rest1) + 112 + 16)
      (by omega))
    (parseFuel (r0 :: rest1)) (parseFuel (r0 :: rest1) + 127) (by omega) []
    (Parser.new (r0 :: rest1))
    (by unfold parse program at hq; simp [hq]) (by unfold parse program at hq; simp [hq])
  unfold parse program at hq ⊢
  rw [hfuel, loop_next hround, hq] at *
  rw [hq] at hsim
  simpa [Parser.shift, Outcome.shift, Parser.new, hqt] using hsim

/-- The instance `1 = 2 ;` followed by the end of input of `parse_literal_assignment`. -/
theorem parse_literal_assignment_witness :
    ∃ ds q, parse [tok .END_OF_FILE ""] = .ok ds q
      ∧ parse [tok .INT_LITERAL "1", tok .ASSIGN "=", tok .INT_LITERAL "2",
          tok .SEMI_COLON ";", tok .END_OF_FILE ""]
        = .ok ds ⟨[tok .INT_LITERAL "1", tok .ASSIGN "=", tok .INT_LITERAL "2",
            tok .SEMI_COLON ";", tok .END_OF_FILE ""], 4 + q.current,
            (tok .ASSIGN "=", "Invalid assignment target.") :: q.errors⟩ :=
  parse_literal_assignment (tok .INT_LITERAL "1") (tok .ASSIGN "=") (tok .INT_LITERAL "2")
    (tok .SEMI_COLON ";") [tok .END_OF_FILE ""] (by decide) (by decide) rfl rfl
    ⟨tok .END_OF_FILE "", by simp, rfl⟩

/-- What `declaration` does with the budget of `parse` is what it does with any budget
that gives an outcome. -/
theorem declaration_parseFuel {T : List Token} {e : Nat} (he : EofAt T e)
    (c : Nat) (errs : List (Token × String)) (hc : c ≤ e) (j : Nat) {r : Outcome StmtPtr}
    (h : declaration j ⟨T, c, errs⟩ = r) (hf : r ≠ .noFuel) (ho : r ≠ .outOfBounds) :
    declaration (parseFuel T) ⟨T, c, errs⟩ = r := by
  have hlt := he.lt_length
  rw [← h]
  exact declaration_fuel he ⟨T, c, errs⟩ rfl hc (parseFuel T) j
    (by simp [parseFuel]; omega) (by rw [h]; exact hf) (by rw [h]; exact ho)

/-- The cursor has moved when `declaration` returns, and a diagnostic has been reported
when it throws. -/
theorem declaration_progress {T : List Token} {e : Nat} (he : EofAt T e)
    (c : Nat) (errs : List (Token × String)) (hc : c ≤ e) :
    (∀ s q, declaration (parseFuel T) ⟨T, c, errs⟩ = .ok s q → c < q.current)
    ∧ (∀ q, declaration (parseFuel T) ⟨T, c, errs⟩ = .raised q →
        q.current ≤ e ∧ errs.length < q.errors.length) := by
  have hlt := he.lt_length
  have h := (sound_rules he (parseFuel T)).1 ⟨T, c, errs⟩ errs.length (Nat.le_refl _)
    (by simp [parseFuel]; omega) rfl hc
  constructor
  · intro s q hq
    rw [hq] at h
    exact h.2.2.2.2
  · intro q hq
    rw [hq] at h
    exact ⟨h.2.2.1, h.2.2.2.2⟩

/-- After a cursor `c` in front of the end-of-input token there is a first place where
`synchronize` may stop. -/
theorem exists_first_syncStop {T : List Token} {e c : Nat} (he : EofAt T e) (hce : c < e) :
    ∃ s, c < s ∧ s ≤ e ∧ SyncStop T s ∧ ∀ r, c < r → r < s → ¬SyncStop T r := by
  classical
  have hex : ∃ s, c < s ∧ SyncStop T s := ⟨e, hce, Or.inl he⟩
  exact ⟨Nat.find hex, (Nat.find_spec hex).1, Nat.find_min' hex ⟨hce, Or.inl he⟩,
    (Nat.find_spec hex).2, fun r h1 h2 h3 => Nat.find_min hex h2 ⟨h1, h3⟩⟩

/-- `synchronize`, entered on a token that is not the end-of-input token, returns at the
first place after it where it may stop. -/
theorem synchronize_first_stop (T : List Token) (errs : List (Token × String)) (c s : Nat)
    (hc : c < s) (hlen : s < T.length)
    (h0 : ∀ t, T[c]? = some t → t.type ≠ .END_OF_FILE)
    (hstop : SyncStop T s) (hfirst : ∀ r, c < r → r < s → ¬SyncStop T r) :
    synchronize ⟨T, c, errs⟩ = .ok () ⟨T, s, errs⟩ := by
  refine synchronize_stops T errs c s hc hlen h0 hstop ?_ ?_
  · intro i t h1 h2 h3
    constructor
    · intro h4
      exact hfirst i h1 h2 (Or.inl ⟨t, h3, h4⟩)
    · intro h4
      exact hfirst i h1 h2 (Or.inr (Or.inr ⟨t, h3, h4⟩))
  · intro i t h1 h2 h3 h4
    exact hfirst (i + 1) (by omega) h2 (Or.inr (Or.inl ⟨t, by simpa using h3, h4⟩))

/-- The loop of `program`, entered with a number of rounds that covers the tokens left,
does what `program` does from the same state. -/
theorem loop_programRound_eq_program {T : List Token} {e : Nat} (he : EofAt T e)
    (n k : Nat) (p : Parser) (ht : p.tokens = T) (hc : p.current ≤ e)
    (hn : 32 * (e - p.current) + 13 ≤ n) (hk : e - p.current < k) (hkn : k ≤ n) :
    loop (programRound n) k [] p = program n p := by
  have hs : Sound T e 0 (loop (programRound n) k []) p (fun _ _ => True) :=
    sound_loop p.current 0 (fun s q _ _ => sound_programRound he n s q (by omega))
      k [] p (Nat.le_refl _) (Nat.zero_le _) hk
  obtain ⟨h1, h2⟩ := sound_cases hs ht hc
  have := @sim_loop [] [] _ _ _ (fun s => sim_programRound n n (Nat.le_refl _) s) k n hkn []
    p h1 h2
  rw [parser_shift_nil, outcome_shift_nil] at this
  unfold program
  exact this.symm

/-- C10, amended: when `declaration` throws on a function declaration that the end of
input follows, with the cursor at index `c` and the diagnostics `errs`, `synchronize`
moves the cursor to some `s`, which is the first place after `c` where it may stop (and
`c` itself when the throw was at the end of input); nothing is added for the function
declaration, and `Parser::parse` returns exactly what the loop of `program` returns when
it is started at `s` with `errs`. So `parse` returns no statement exactly when that loop
returns none, in particular when `s` is the end of input; and at least one diagnostic is
reported. -/
theorem parse_function_body_error (ts : List Token) (eof : Token) (j c : Nat)
    (errs : List (Token × String)) (heof : eof.type = .END_OF_FILE)
    (hne : ∀ t ∈ ts, t.type ≠ .END_OF_FILE)
    (hfun : ∃ t, ts[0]? = some t ∧ t.type = .FUNCTION)
    (hbad : declaration j (Parser.new (ts ++ [eof])) = .raised ⟨ts ++ [eof], c, errs⟩) :
    ∃ s, synchronize ⟨ts ++ [eof], c, errs⟩ = .ok () ⟨ts ++ [eof], s, errs⟩
      ∧ c ≤ s ∧ s ≤ ts.length
      ∧ (c < ts.length → c < s ∧ SyncStop (ts ++ [eof]) s
          ∧ ∀ r, c < r → r < s → ¬SyncStop (ts ++ [eof]) r)
      ∧ parse (ts ++ [eof])
          = program (parseFuel (ts ++ [eof])) ⟨ts ++ [eof], s, errs⟩
      ∧ (∀ q, parse (ts ++ [eof]) = .ok [] q
          ↔ program (parseFuel (ts ++ [eof])) ⟨ts ++ [eof], s, errs⟩ = .ok [] q)
      ∧ (s = ts.length → parse (ts ++ [eof]) = .ok [] ⟨ts ++ [eof], ts.length, errs⟩)
      ∧ 1 ≤ errs.length := by
  have he : EofAt (ts ++ [eof]) ts.length := ⟨eof, by simp, heof⟩
  have hin : ∀ i, i < ts.length → (ts ++ [eof])[i]? = ts[i]? :=
    fun i hi => List.getElem?_append_left hi
  have hnoeof : ∀ i t, i < ts.length → (ts ++ [eof])[i]? = some t →
      t.type ≠ .END_OF_FILE := by
    intro i t hi ht
    rw [hin i hi] at ht
    exact hne t (List.getElem?_mem ht)
  obtain ⟨f, hf0, _⟩ := hfun
  have hpos : 0 < ts.length := by
    by_contra hn
    rw [List.getElem?_eq_none (by omega)] at hf0
    exact absurd hf0 (by simp)
  have hdF := declaration_parseFuel he 0 [] (Nat.zero_le _) j hbad (by simp) (by simp)
  obtain ⟨hce, herr⟩ := (declaration_progress he 0 [] (Nat.zero_le _)).2 _ hdF
  simp only [List.length_nil] at hce herr
  -- where `synchronize` stops
  obtain ⟨s, hsy, hcs, hse, hfirst⟩ : ∃ s,
      synchronize ⟨ts ++ [eof], c, errs⟩ = .ok () ⟨ts ++ [eof], s, errs⟩
      ∧ c ≤ s ∧ s ≤ ts.length
      ∧ (c < ts.length → c < s ∧ SyncStop (ts ++ [eof]) s
          ∧ ∀ r, c < r → r < s → ¬SyncStop (ts ++ [eof]) r) := by
    rcases Nat.lt_or_ge c ts.length with hlt | hge
    · obtain ⟨s, h1, h2, h3, h4⟩ := exists_first_syncStop he hlt
      refine ⟨s, ?_, by omega, h2, fun _ => ⟨h1, h3, h4⟩⟩
      exact synchronize_first_stop _ errs c s h1 (by simp; omega)
        (fun t ht => hnoeof c t hlt ht) h3 h4
    · have hceq : c = ts.length := by
        have : c ≤ ts.length := hce
        omega
      subst hceq
      exact ⟨ts.length, synchronize_at_end _ _ _ hpos he, Nat.le_refl _, Nat.le_refl _,
        fun h => absurd h (Nat.lt_irrefl _)⟩
  have hfuel : parseFuel (ts ++ [eof]) = (32 * ts.length + 63) + 1 := by
    simp [parseFuel]
    omega
  have h1 := run_programRound_raised (n := parseFuel (ts ++ [eof])) (d := [])
    (p := Parser.new (ts ++ [eof])) (t := f) (by simpa [Parser.new, hin 0 hpos] using hf0)
    (hnoeof 0 f hpos (by simpa [hin 0 hpos] using hf0)) hdF hsy
  have hres : parse (ts ++ [eof])
      = program (parseFuel (ts ++ [eof])) ⟨ts ++ [eof], s, errs⟩ := by
    have hl := loop_programRound_eq_program he (parseFuel (ts ++ [eof]))
      (32 * ts.length + 63) ⟨ts ++ [eof], s, errs⟩ rfl hse
      (by simp [parseFuel]; omega) (by simp; omega) (by simp [parseFuel]; omega)
    rw [← hl]
    unfold parse program
    rw [hfuel] at h1 ⊢
    rw [loop_next h1]
  refine ⟨s, hsy, hcs, hse, hfirst, hres, fun q => by rw [hres], ?_, by omega⟩
  intro hs
  subst hs
  rw [hres]
  have h2 := run_programRound_done (n := parseFuel (ts ++ [eof])) (d := [])
    (p := ⟨ts ++ [eof], ts.length, errs⟩) (t := eof) (by simp) heof
  unfold program
  rw [hfuel] at h2 ⊢
  rw [loop_done h2]

/-- C9, amended: a malformed top-level statement `m` on which `declaration` throws at one
of its own tokens (index `c`), where the end of `m` is the first place after `c` at which
`synchronize` may stop (the token before it is a `;`, or the token at it starts a
statement-level construct or is the end-of-input token), followed by two declarations
`d1`, `d2` that `declaration` parses without a diagnostic and by the end-of-input token:
`Parser::parse` returns exactly the two statements of `d1` and `d2` and at least one
diagnostic. -/
theorem parse_recovers_after_malformed (m d1 d2 : List Token) (eof : Token)
    (j0 j1 j2 c : Nat) (errs : List (Token × String)) (s1 s2 : StmtPtr)
    (heof : eof.type = .END_OF_FILE)
    (hne : ∀ t ∈ m ++ d1 ++ d2, t.type ≠ .END_OF_FILE)
    (hbad : declaration j0 (Parser.new (m ++ d1 ++ d2 ++ [eof]))
      = .raised ⟨m ++ d1 ++ d2 ++ [eof], c, errs⟩)
    (hc : c < m.length)
    (hstop : SyncStop (m ++ d1 ++ d2 ++ [eof]) m.length)
    (hfirst : ∀ s, c < s → s < m.length → ¬SyncStop (m ++ d1 ++ d2 ++ [eof]) s)
    (hd1 : declaration j1 ⟨m ++ d1 ++ d2 ++ [eof], m.length, errs⟩
      = .ok s1 ⟨m ++ d1 ++ d2 ++ [eof], m.length + d1.length, errs⟩)
    (hd2 : declaration j2 ⟨m ++ d1 ++ d2 ++ [eof], m.length + d1.length, errs⟩
      = .ok s2 ⟨m ++ d1 ++ d2 ++ [eof], m.length + d1.length + d2.length, errs⟩) :
    parse (m ++ d1 ++ d2 ++ [eof])
        = .ok [s1, s2] ⟨m ++ d1 ++ d2 ++ [eof], m.length + d1.length + d2.length, errs⟩
      ∧ 1 ≤ errs.length := by
  have hlen : (m ++ d1 ++ d2).length = m.length + d1.length + d2.length := by
    simp only [List.length_append]
  have hend : (m ++ d1 ++ d2 ++ [eof])[m.length + d1.length + d2.length]? = some eof := by
    rw [← hlen]
    exact List.getElem?_concat_length _ _
  have he : EofAt (m ++ d1 ++ d2 ++ [eof]) (m.length + d1.length + d2.length) :=
    ⟨eof, hend, heof⟩
  have hin : ∀ i, i < m.length + d1.length + d2.length →
      (m ++ d1 ++ d2 ++ [eof])[i]? = (m ++ d1 ++ d2)[i]? :=
    fun i hi => List.getElem?_append_left (by rw [hlen]; exact hi)
  have hnoeof : ∀ i t, i < m.length + d1.length + d2.length →
      (m ++ d1 ++ d2 ++ [eof])[i]? = some t → t.type ≠ .END_OF_FILE := by
    intro i t hi ht
    rw [hin i hi] at ht
    exact hne t (List.getElem?_mem ht)
  have hsome : ∀ i, i < m.length + d1.length + d2.length →
      ∃ t, (m ++ d1 ++ d2 ++ [eof])[i]? = some t :=
    fun i hi => ⟨_, List.getElem?_eq_getElem (by simp only [List.length_append]; omega)⟩
  -- the three calls of `declaration`, with the budget of `parse`
  have hb0 := declaration_parseFuel he 0 [] (Nat.zero_le _) j0 hbad (by simp) (by simp)
  have hb1 := declaration_parseFuel he m.length errs (by omega) j1 hd1 (by simp) (by simp)
  have hb2 := declaration_parseFuel he (m.length + d1.length) errs (by omega) j2 hd2
    (by simp) (by simp)
  obtain ⟨-, herr⟩ := (declaration_progress he 0 [] (Nat.zero_le _)).2 _ hb0
  have hp1 := (declaration_progress he m.length errs (by omega)).1 _ _ hb1
  have hp2 := (declaration_progress he (m.length + d1.length) errs (by omega)).1 _ _ hb2
  simp only [List.length_nil] at herr hp1 hp2
  -- `synchronize` stops at the end of `m`
  have hsy : synchronize ⟨m ++ d1 ++ d2 ++ [eof], c, errs⟩
      = .ok () ⟨m ++ d1 ++ d2 ++ [eof], m.length, errs⟩ :=
    synchronize_first_stop _ errs c m.length hc
      (by simp only [List.length_append, List.length_singleton]; omega)
      (fun t ht => hnoeof c t (by omega) ht) hstop hfirst
  obtain ⟨t0, ht0⟩ := hsome 0 (by omega)
  obtain ⟨t1, ht1⟩ := hsome m.length (by omega)
  obtain ⟨t2, ht2⟩ := hsome (m.length + d1.length) (by omega)
  have hfuel : parseFuel (m ++ d1 ++ d2 ++ [eof])
      = (32 * (m.length + d1.length + d2.length) + 60) + 1 + 1 + 1 + 1 := by
    simp only [parseFuel, List.length_append, List.length_singleton]
    omega
  have r1 := run_programRound_raised (n := parseFuel (m ++ d1 ++ d2 ++ [eof])) (d := [])
    (p := Parser.new (m ++ d1 ++ d2 ++ [eof])) (t := t0) ht0
    (hnoeof 0 t0 (by omega) ht0) hb0 hsy
  have r2 := run_programRound_ok (n := parseFuel (m ++ d1 ++ d2 ++ [eof])) (d := [])
    (p := ⟨m ++ d1 ++ d2 ++ [eof], m.length, errs⟩) (t := t1) ht1
    (hnoeof _ t1 (by omega) ht1) hb1
  have r3 := run_programRound_ok (n := parseFuel (m ++ d1 ++ d2 ++ [eof])) (d := [] ++ [s1])
    (p := ⟨m ++ d1 ++ d2 ++ [eof], m.length + d1.length, errs⟩) (t := t2) ht2
    (hnoeof _ t2 (by omega) ht2) hb2
  have r4 := run_programRound_done (n := parseFuel (m ++ d1 ++ d2 ++ [eof]))
    (d := [] ++ [s1] ++ [s2])
    (p := ⟨m ++ d1 ++ d2 ++ [eof], m.length + d1.length + d2.length, errs⟩) (t := eof)
    hend heof
  refine ⟨?_, by omega⟩
  unfold parse program
  rw [hfuel] at r1 r2 r3 r4 ⊢
  rw [loop_next r1, loop_next r2, loop_next r3, loop_done r4]
  rfl

/-- Two instances of `parse_recovers_after_malformed`: `1 2 ;` followed by `3 ;` and
`4 ;`, where `synchronize` stops after the `;` of the malformed statement, and `1 2`
followed by `let x ;` and `let y ;`, where it stops in front of the first `let`. -/
theorem parse_recovers_after_malformed_witness :
    (parse [tok .INT_LITERAL "1", tok .INT_LITERAL "2", tok .SEMI_COLON ";",
        tok .INT_LITERAL "3", tok .SEMI_COLON ";", tok .INT_LITERAL "4",
        tok .SEMI_COLON ";", tok .END_OF_FILE ""]
      = .ok [none, none]
          ⟨[tok .INT_LITERAL "1", tok .INT_LITERAL "2", tok .SEMI_COLON ";",
            tok .INT_LITERAL "3", tok .SEMI_COLON ";", tok .INT_LITERAL "4",
            tok .SEMI_COLON ";", tok .END_OF_FILE ""], 7,
            [(tok .INT_LITERAL "2", "Expected \x27;\x27 after expression")]⟩
      ∧ 1 ≤ [(tok .INT_LITERAL "2", "Expected \x27;\x27 after expression")].length)
    ∧ (parse [tok .INT_LITERAL "1", tok .INT_LITERAL "2", tok .LET "let",
        tok .IDENTIFIER "x", tok .SEMI_COLON ";", tok .LET "let", tok .IDENTIFIER "y",
        tok .SEMI_COLON ";", tok .END_OF_FILE ""]
      = .ok [none, none]
          ⟨[tok .INT_LITERAL "1", tok .INT_LITERAL "2", tok .LET "let",
            tok .IDENTIFIER "x", tok .SEMI_COLON ";", tok .LET "let", tok .IDENTIFIER "y",
            tok .SEMI_COLON ";", tok .END_OF_FILE ""], 8,
            [(tok .INT_LITERAL "2", "Expected \x27;\x27 after expression")]⟩
      ∧ 1 ≤ [(tok .INT_LITERAL "2", "Expected \x27;\x27 after expression")].length) :=
  ⟨parse_recovers_after_malformed
      [tok .INT_LITERAL "1", tok .INT_LITERAL "2", tok .SEMI_COLON ";"]
      [tok .INT_LITERAL "3", tok .SEMI_COLON ";"]
      [tok .INT_LITERAL "4", tok .SEMI_COLON ";"]
      (tok .END_OF_FILE "") 20 20 20 1
      [(tok .INT_LITERAL "2", "Expected \x27;\x27 after expression")] none none
      rfl (by decide) rfl (by decide) (Or.inr (Or.inl ⟨tok .SEMI_COLON ";", rfl, rfl⟩))
      (fun s h1 h2 => by
        have hs : s = 2 := by
          simp only [List.length_cons, List.length_nil] at h2
          omega
        subst hs
        simp [SyncStop, syncKinds, tok])
      rfl rfl,
    parse_recovers_after_malformed
      [tok .INT_LITERAL "1", tok .INT_LITERAL "2"]
      [tok .LET "let", tok .IDENTIFIER "x", tok .SEMI_COLON ";"]
      [tok .LET "let", tok .IDENTIFIER "y", tok .SEMI_COLON ";"]
      (tok .END_OF_FILE "") 20 20 20 1
      [(tok .INT_LITERAL "2", "Expected \x27;\x27 after expression")] none none
      rfl (by decide) rfl (by decide)
      (Or.inr (Or.inr ⟨tok .LET "let", rfl, by decide⟩))
      (fun s h1 h2 => by
        simp only [List.length_cons, List.length_nil] at h2
        omega)
      rfl rfl⟩

/-- C9 fails as stated: `declaration` throws on the malformed declaration
`function f ( ) { 1 2 ; }`; the two declarations `3 ;` and `4 ;` that follow it are
well-formed (parsed alone they give two statements and no diagnostic); and on the whole
sequence `Parser::parse` returns one statement, not two: `synchronize` resumes inside the
function body, the closing brace raises a second error, and the recovery from that one
discards `3 ;`. -/
theorem parse_recovery_loses_declaration :
    raisedAt (declaration 40 (Parser.new [tok .FUNCTION "function", tok .IDENTIFIER "f",
        tok .LEFT_PARENTHESIS "(", tok .RIGHT_PARENTHESIS ")", tok .LEFT_BRACE "\x7b",
        tok .INT_LITERAL "1", tok .INT_LITERAL "2", tok .SEMI_COLON ";",
        tok .RIGHT_BRACE "\x7d", tok .INT_LITERAL "3", tok .SEMI_COLON ";",
        tok .INT_LITERAL "4", tok .SEMI_COLON ";", tok .END_OF_FILE ""]))
      = some (6, [(tok .INT_LITERAL "2", "Expected \x27;\x27 after expression")])
    ∧ parseSummary (parse [tok .INT_LITERAL "3", tok .SEMI_COLON ";",
        tok .INT_LITERAL "4", tok .SEMI_COLON ";", tok .END_OF_FILE ""])
      = some (2, 4, [])
    ∧ parseSummary (parse [tok .FUNCTION "function", tok .IDENTIFIER "f",
        tok .LEFT_PARENTHESIS "(", tok .RIGHT_PARENTHESIS ")", tok .LEFT_BRACE "\x7b",
        tok .INT_LITERAL "1", tok .INT_LITERAL "2", tok .SEMI_COLON ";",
        tok .RIGHT_BRACE "\x7d", tok .INT_LITERAL "3", tok .SEMI_COLON ";",
        tok .INT_LITERAL "4", tok .SEMI_COLON ";", tok .END_OF_FILE ""])
      = some (1, 13, [(tok .INT_LITERAL "2", "Expected \x27;\x27 after expression"),
          (tok .RIGHT_BRACE "\x7d", "Expected expression.")]) := by
  decide!

/-- The instance `function f ( ) \x7b 1 2 ; \x7d` of `parse_function_body_error`, with
what the code does on it: `declaration` throws on `2` (index 6), `synchronize` stops
after the `;` (index 8), inside the body, and the loop of `program` resumed there
returns no statement: the closing brace raises a second error, and the recovery from it
reaches the end of input. -/
theorem parse_function_body_error_witness :
    (∃ s, synchronize ⟨[tok .FUNCTION "function", tok .IDENTIFIER "f", tok .LEFT_PARENTHESIS "(",
          tok .RIGHT_PARENTHESIS ")", tok .LEFT_BRACE "\x7b", tok .INT_LITERAL "1",
          tok .INT_LITERAL "2", tok .SEMI_COLON ";", tok .RIGHT_BRACE "\x7d", tok .END_OF_FILE ""], 6,
          [(tok .INT_LITERAL "2", "Expected \x27;\x27 after expression")]⟩
        = .ok () ⟨[tok .FUNCTION "function", tok .IDENTIFIER "f", tok .LEFT_PARENTHESIS "(",
          tok .RIGHT_PARENTHESIS ")", tok .LEFT_BRACE "\x7b", tok .INT_LITERAL "1",
          tok .INT_LITERAL "2", tok .SEMI_COLON ";", tok .RIGHT_BRACE "\x7d", tok .END_OF_FILE ""], s,
          [(tok .INT_LITERAL "2", "Expected \x27;\x27 after expression")]⟩
      ∧ 6 ≤ s ∧ s ≤ 9
      ∧ (6 < 9 → 6 < s
          ∧ SyncStop [tok .FUNCTION "function", tok .IDENTIFIER "f", tok .LEFT_PARENTHESIS "(",
            tok .RIGHT_PARENTHESIS ")", tok .LEFT_BRACE "\x7b", tok .INT_LITERAL "1",
            tok .INT_LITERAL "2", tok .SEMI_COLON ";", tok .RIGHT_BRACE "\x7d", tok .END_OF_FILE ""] s
          ∧ ∀ r, 6 < r → r < s →
            ¬SyncStop [tok .FUNCTION "function", tok .IDENTIFIER "f", tok .LEFT_PARENTHESIS "(",
              tok .RIGHT_PARENTHESIS ")", tok .LEFT_BRACE "\x7b", tok .INT_LITERAL "1",
              tok .INT_LITERAL "2", tok .SEMI_COLON ";", tok .RIGHT_BRACE "\x7d", tok .END_OF_FILE ""] r)
      ∧ parse [tok .FUNCTION "function", tok .IDENTIFIER "f", tok .LEFT_PARENTHESIS "(",
          tok .RIGHT_PARENTHESIS ")", tok .LEFT_BRACE "\x7b", tok .INT_LITERAL "1",
          tok .INT_LITERAL "2", tok .SEMI_COLON ";", tok .RIGHT_BRACE "\x7d", tok .END_OF_FILE ""]
        = program (parseFuel [tok .FUNCTION "function", tok .IDENTIFIER "f", tok .LEFT_PARENTHESIS "(",
            tok .RIGHT_PARENTHESIS ")", tok .LEFT_BRACE "\x7b", tok .INT_LITERAL "1",
            tok .INT_LITERAL "2", tok .SEMI_COLON ";", tok .RIGHT_BRACE "\x7d", tok .END_OF_FILE ""])
            ⟨[tok .FUNCTION "function", tok .IDENTIFIER "f", tok .LEFT_PARENTHESIS "(",
              tok .RIGHT_PARENTHESIS ")", tok .LEFT_BRACE "\x7b", tok .INT_LITERAL "1",
              tok .INT_LITERAL "2", tok .SEMI_COLON ";", tok .RIGHT_BRACE "\x7d", tok .END_OF_FILE ""], s,
              [(tok .INT_LITERAL "2", "Expected \x27;\x27 after expression")]⟩
      ∧ (∀ q, parse [tok .FUNCTION "function", tok .IDENTIFIER "f", tok .LEFT_PARENTHESIS "(",
            tok .RIGHT_PARENTHESIS ")", tok .LEFT_BRACE "\x7b", tok .INT_LITERAL "1",
            tok .INT_LITERAL "2", tok .SEMI_COLON ";", tok .RIGHT_BRACE "\x7d", tok .END_OF_FILE ""]
            = .ok [] q
          ↔ program (parseFuel [tok .FUNCTION "function", tok .IDENTIFIER "f", tok .LEFT_PARENTHESIS "(",
              tok .RIGHT_PARENTHESIS ")", tok .LEFT_BRACE "\x7b", tok .INT_LITERAL "1",
              tok .INT_LITERAL "2", tok .SEMI_COLON ";", tok .RIGHT_BRACE "\x7d", tok .END_OF_FILE ""])
              ⟨[tok .FUNCTION "function", tok .IDENTIFIER "f", tok .LEFT_PARENTHESIS "(",
                tok .RIGHT_PARENTHESIS ")", tok .LEFT_BRACE "\x7b", tok .INT_LITERAL "1",
                tok .INT_LITERAL "2", tok .SEMI_COLON ";", tok .RIGHT_BRACE "\x7d", tok .END_OF_FILE ""], s,
                [(tok .INT_LITERAL "2", "Expected \x27;\x27 after expression")]⟩
            = .ok [] q)
      ∧ (s = 9 → parse [tok .FUNCTION "function", tok .IDENTIFIER "f", tok .LEFT_PARENTHESIS "(",
            tok .RIGHT_PARENTHESIS ")", tok .LEFT_BRACE "\x7b", tok .INT_LITERAL "1",
            tok .INT_LITERAL "2", tok .SEMI_COLON ";", tok .RIGHT_BRACE "\x7d", tok .END_OF_FILE ""]
          = .ok [] ⟨[tok .FUNCTION "function", tok .IDENTIFIER "f", tok .LEFT_PARENTHESIS "(",
              tok .RIGHT_PARENTHESIS ")", tok .LEFT_BRACE "\x7b", tok .INT_LITERAL "1",
              tok .INT_LITERAL "2", tok .SEMI_COLON ";", tok .RIGHT_BRACE "\x7d", tok .END_OF_FILE ""], 9,
              [(tok .INT_LITERAL "2", "Expected \x27;\x27 after expression")]⟩)
      ∧ 1 ≤ [(tok .INT_LITERAL "2", "Expected \x27;\x27 after expression")].length)
    ∧ synchronize ⟨[tok .FUNCTION "function", tok .IDENTIFIER "f", tok .LEFT_PARENTHESIS "(",
          tok .RIGHT_PARENTHESIS ")", tok .LEFT_BRACE "\x7b", tok .INT_LITERAL "1",
          tok .INT_LITERAL "2", tok .SEMI_COLON ";", tok .RIGHT_BRACE "\x7d", tok .END_OF_FILE ""], 6,
          [(tok .INT_LITERAL "2", "Expected \x27;\x27 after expression")]⟩
        = .ok () ⟨[tok .FUNCTION "function", tok .IDENTIFIER "f", tok .LEFT_PARENTHESIS "(",
          tok .RIGHT_PARENTHESIS ")", tok .LEFT_BRACE "\x7b", tok .INT_LITERAL "1",
          tok .INT_LITERAL "2", tok .SEMI_COLON ";", tok .RIGHT_BRACE "\x7d", tok .END_OF_FILE ""], 8,
          [(tok .INT_LITERAL "2", "Expected \x27;\x27 after expression")]⟩
    ∧ parseSummary (parse [tok .FUNCTION "function", tok .IDENTIFIER "f", tok .LEFT_PARENTHESIS "(",
          tok .RIGHT_PARENTHESIS ")", tok .LEFT_BRACE "\x7b", tok .INT_LITERAL "1",
          tok .INT_LITERAL "2", tok .SEMI_COLON ";", tok .RIGHT_BRACE "\x7d", tok .END_OF_FILE ""])
        = some (0, 9, [(tok .INT_LITERAL "2", "Expected \x27;\x27 after expression"),
            (tok .RIGHT_BRACE "\x7d", "Expected expression.")]) :=
  ⟨parse_function_body_error
      [tok .FUNCTION "function", tok .IDENTIFIER "f", tok .LEFT_PARENTHESIS "(",
        tok .RIGHT_PARENTHESIS ")", tok .LEFT_BRACE "\x7b", tok .INT_LITERAL "1",
        tok .INT_LITERAL "2", tok .SEMI_COLON ";", tok .RIGHT_BRACE "\x7d"]
      (tok .END_OF_FILE "") 40 6
      [(tok .INT_LITERAL "2", "Expected \x27;\x27 after expression")]
      rfl (by decide) ⟨tok .FUNCTION "function", rfl, rfl⟩ rfl,
    rfl, by decide!⟩
/-- C10 fails as stated: in `function f ( ) { 1 2 ; 3 ; }` the statement `1 2 ;` of the
body is malformed, and `Parser::parse` returns one statement: `synchronize` stops after
the first `;`, inside the body, and the body statement `3 ;` is then parsed as a
top-level declaration. -/
theorem parse_function_body_contributes :
    parseSummary (parse [tok .FUNCTION "function", tok .IDENTIFIER "f",
        tok .LEFT_PARENTHESIS "(", tok .RIGHT_PARENTHESIS ")", tok .LEFT_BRACE "\x7b",
        tok .INT_LITERAL "1", tok .INT_LITERAL "2", tok .SEMI_COLON ";",
        tok .INT_LITERAL "3", tok .SEMI_COLON ";", tok .RIGHT_BRACE "\x7d",
        tok .END_OF_FILE ""])
      = some (1, 11, [(tok .INT_LITERAL "2", "Expected \x27;\x27 after expression"),
          (tok .RIGHT_BRACE "\x7d", "Expected expression.")]) := by
  decide!

/-! ## Termination of the program loop -/

/-- `synchronize` returns, never behind its starting cursor, and beyond it when the
starting cursor is not on the end-of-input token. -/
theorem synchronize_ok {ts : List Token} {e : Nat} (he : EofAt ts e) (c : Nat)
    (errs : List (Token × String)) (hc : c ≤ e)
    (h : 0 < c ∨ NotAtEnd ⟨ts, c, errs⟩) :
    ∃ q, synchronize ⟨ts, c, errs⟩ = .ok () q ∧ c ≤ q.current
      ∧ (NotAtEnd ⟨ts, c, errs⟩ → c < q.current) := by
  cases hr : synchronize ⟨ts, c, errs⟩ with
  | ok u q =>
    have := sound_synchronize (o := 0) he (p := ⟨ts, c, errs⟩) h rfl hc
    rw [hr] at this
    exact ⟨q, rfl, this.2.1, this.2.2.2.2⟩
  | raised q =>
    have := sound_synchronize (o := q.errors.length) he (p := ⟨ts, c, errs⟩) h rfl hc
    rw [hr] at this
    exact absurd this.2.2.2.2 (Nat.lt_irrefl _)
  | outOfBounds =>
    have := sound_synchronize (o := 0) he (p := ⟨ts, c, errs⟩) h rfl hc
    rw [hr] at this
    exact absurd this id
  | noFuel =>
    have := sound_synchronize (o := 0) he (p := ⟨ts, c, errs⟩) h rfl hc
    rw [hr] at this
    exact absurd this id

/-- A round of the loop of `program` returns, and when it asks for another round the
cursor has moved forward. -/
theorem programRound_ok {ts : List Token} {e : Nat} (he : EofAt ts e) (n c : Nat)
    (errs : List (Token × String)) (ds : List StmtPtr) (hc : c ≤ e)
    (hb : 32 * (e - c) + 13 ≤ n) :
    ∃ st q, programRound n ds ⟨ts, c, errs⟩ = .ok st q ∧ st.Advanced c q := by
  cases hr : programRound n ds ⟨ts, c, errs⟩ with
  | ok st q =>
    have := sound_programRound (o := 0) he n ds ⟨ts, c, errs⟩ hb rfl hc
    rw [hr] at this
    exact ⟨st, q, rfl, this.2.2.2.2⟩
  | raised q =>
    have := sound_programRound (o := q.errors.length) he n ds ⟨ts, c, errs⟩ hb rfl hc
    rw [hr] at this
    exact absurd this.2.2.2.2 (Nat.lt_irrefl _)
  | outOfBounds =>
    have := sound_programRound (o := 0) he n ds ⟨ts, c, errs⟩ hb rfl hc
    rw [hr] at this
    exact absurd this id
  | noFuel =>
    have := sound_programRound (o := 0) he n ds ⟨ts, c, errs⟩ hb rfl hc
    rw [hr] at this
    exact absurd this id

/-- A call of `statement` with the budget that soundness asks for returns with the cursor
moved forward, or throws. -/
theorem statement_advances_or_raises {ts : List Token} {e : Nat} (he : EofAt ts e)
    (n c : Nat) (errs : List (Token × String)) (hc : c ≤ e) (hb : 32 * (e - c) + 12 ≤ n) :
    (∃ s q, statement n ⟨ts, c, errs⟩ = .ok s q ∧ c < q.current)
      ∨ ∃ q, statement n ⟨ts, c, errs⟩ = .raised q := by
  have := (sound_rules he n).2.2.2.2.1 ⟨ts, c, errs⟩ errs.length (Nat.le_refl _) hb rfl hc
  cases hr : statement n ⟨ts, c, errs⟩ with
  | ok s q =>
    rw [hr] at this
    exact Or.inl ⟨s, q, rfl, this.2.2.2.2⟩
  | raised q => exact Or.inr ⟨q, rfl⟩
  | outOfBounds => rw [hr] at this; exact absurd this id
  | noFuel => rw [hr] at this; exact absurd this id

/-- C11, amended: on a token array that holds an end-of-input token, at index `e`,
`Parser::parse` returns. Every round of the loop of `program` that is followed by another
round has moved the cursor forward; a successful `declaration` moves the cursor forward;
`synchronize` never moves it back and moves it forward when it starts on a token that is
not the end-of-input token; and a call of `statement`, as the loop of `block` makes it,
moves the cursor forward or throws. -/
theorem parse_terminates (tokens : List Token) (e : Nat) (he : EofAt tokens e) :
    (∃ ds q, parse tokens = .ok ds q)
    ∧ (∀ c errs ds, c ≤ e → ∃ st q,
        programRound (parseFuel tokens) ds ⟨tokens, c, errs⟩ = .ok st q ∧ st.Advanced c q)
    ∧ (∀ c errs, c ≤ e → ∀ s q,
        declaration (parseFuel tokens) ⟨tokens, c, errs⟩ = .ok s q → c < q.current)
    ∧ (∀ c errs, c ≤ e → (0 < c ∨ NotAtEnd ⟨tokens, c, errs⟩) →
        ∃ q, synchronize ⟨tokens, c, errs⟩ = .ok () q ∧ c ≤ q.current
          ∧ (NotAtEnd ⟨tokens, c, errs⟩ → c < q.current))
    ∧ (∀ n c errs, c ≤ e → 32 * (e - c) + 12 ≤ n →
        (∃ s q, statement n ⟨tokens, c, errs⟩ = .ok s q ∧ c < q.current)
          ∨ ∃ q, statement n ⟨tokens, c, errs⟩ = .raised q) := by
  have hlt := he.lt_length
  refine ⟨?_, ?_, ?_, ?_, ?_⟩
  · obtain ⟨t, ht, hty⟩ := he
    obtain ⟨ds, q, hq, -⟩ := parse_ok tokens ⟨t, List.getElem?_mem ht, hty⟩
    exact ⟨ds, q, hq⟩
  · intro c errs ds hc
    exact programRound_ok he _ c errs ds hc (by simp [parseFuel]; omega)
  · intro c errs hc
    exact (declaration_progress he c errs hc).1
  · intro c errs hc h
    exact synchronize_ok he c errs hc h
  · intro n c errs hc hb
    exact statement_advances_or_raises he n c errs hc hb

/-- The instance `1 ;` followed by the end of input of `parse_terminates`. -/
theorem parse_terminates_witness :
    (∃ ds q, parse [tok .INT_LITERAL "1", tok .SEMI_COLON ";", tok .END_OF_FILE ""]
        = .ok ds q)
    ∧ (∀ c errs ds, c ≤ 2 → ∃ st q,
        programRound (parseFuel [tok .INT_LITERAL "1", tok .SEMI_COLON ";",
            tok .END_OF_FILE ""]) ds
          ⟨[tok .INT_LITERAL "1", tok .SEMI_COLON ";", tok .END_OF_FILE ""], c, errs⟩
          = .ok st q ∧ st.Advanced c q)
    ∧ (∀ c errs, c ≤ 2 → ∀ s q,
        declaration (parseFuel [tok .INT_LITERAL "1", tok .SEMI_COLON ";",
            tok .END_OF_FILE ""])
          ⟨[tok .INT_LITERAL "1", tok .SEMI_COLON ";", tok .END_OF_FILE ""], c, errs⟩
          = .ok s q → c < q.current)
    ∧ (∀ c errs, c ≤ 2 →
        (0 < c ∨ NotAtEnd ⟨[tok .INT_LITERAL "1", tok .SEMI_COLON ";",
          tok .END_OF_FILE ""], c, errs⟩) →
        ∃ q, synchronize ⟨[tok .INT_LITERAL "1", tok .SEMI_COLON ";",
            tok .END_OF_FILE ""], c, errs⟩ = .ok () q ∧ c ≤ q.current
          ∧ (NotAtEnd ⟨[tok .INT_LITERAL "1", tok .SEMI_COLON ";",
            tok .END_OF_FILE ""], c, errs⟩ → c < q.current))
    ∧ (∀ n c errs, c ≤ 2 → 32 * (2 - c) + 12 ≤ n →
        (∃ s q, statement n ⟨[tok .INT_LITERAL "1", tok .SEMI_COLON ";",
            tok .END_OF_FILE ""], c, errs⟩ = .ok s q ∧ c < q.current)
          ∨ ∃ q, statement n ⟨[tok .INT_LITERAL "1", tok .SEMI_COLON ";",
            tok .END_OF_FILE ""], c, errs⟩ = .raised q) :=
  parse_terminates [tok .INT_LITERAL "1", tok .SEMI_COLON ";", tok .END_OF_FILE ""] 2
    ⟨tok .END_OF_FILE "", rfl, rfl⟩

/-- C11 fails as stated: on `1` followed by the end of input, `declaration` throws with
the cursor on the end-of-input token, and the call of `synchronize` that the loop of
`program` then makes leaves the cursor where it is; the loop ends because the cursor is
on the end-of-input token, not because `synchronize` moved it. -/
theorem synchronize_at_end_of_input_stays :
    declaration (parseFuel [tok .INT_LITERAL "1", tok .END_OF_FILE ""])
        (Parser.new [tok .INT_LITERAL "1", tok .END_OF_FILE ""])
      = .raised ⟨[tok .INT_LITERAL "1", tok .END_OF_FILE ""], 1,
          [(tok .END_OF_FILE "", "Expected \x27;\x27 after expression")]⟩
    ∧ synchronize ⟨[tok .INT_LITERAL "1", tok .END_OF_FILE ""], 1,
          [(tok .END_OF_FILE "", "Expected \x27;\x27 after expression")]⟩
      = .ok () ⟨[tok .INT_LITERAL "1", tok .END_OF_FILE ""], 1,
          [(tok .END_OF_FILE "", "Expected \x27;\x27 after expression")]⟩
    ∧ parse [tok .INT_LITERAL "1", tok .END_OF_FILE ""]
      = .ok [] ⟨[tok .INT_LITERAL "1", tok .END_OF_FILE ""], 1,
          [(tok .END_OF_FILE "", "Expected \x27;\x27 after expression")]⟩ :=
  ⟨rfl, rfl, rfl⟩

/-! ## Declarations and blocks -/

/-- When `parse` returns, its result is fixed by the shape of the result: every entry is
the placeholder, so the flags fix the entries. -/
theorem parse_eq_of_parseShape {tokens : List Token} {k c : Nat}
    {errs : List (Token × String)} (h : ∃ t ∈ tokens, t.type = .END_OF_FILE)
    (hs : parseShape (parse tokens) = some (List.replicate k false, c, errs)) :
    parse tokens = .ok (List.replicate k none) ⟨tokens, c, errs⟩ := by
  obtain ⟨ds, q, hq, hqt⟩ := parse_ok tokens h
  have hnull := program_returns_null _ _ _ _ hq
  rw [hq] at hs ⊢
  simp only [parseShape, Option.some.injEq, Prod.mk.injEq] at hs
  obtain ⟨h1, h2, h3⟩ := hs
  have hds : ds = List.replicate k none := by
    have hl : ds.length = k := by
      have := congrArg List.length h1
      simpa using this
    rw [List.eq_replicate_iff]
    exact ⟨hl, hnull⟩
  cases q
  simp only at hqt h2 h3
  rw [hds, hqt, h2, h3]

/-- C12 fails on the code: on the tokens of `function f(a, b) { return a + b; }`
`Parser::parse` returns one entry and no diagnostic, and the entry is the placeholder
`nullptr`, not a FunctionDeclaration node: name, parameter names and body are read and
dropped. `Parser::function_decl` returns the placeholder on every input. -/
theorem parse_function_declaration_null :
    parse [tok .FUNCTION "function", tok .IDENTIFIER "f", tok .LEFT_PARENTHESIS "(",
        tok .IDENTIFIER "a", tok .COMMA ",", tok .IDENTIFIER "b",
        tok .RIGHT_PARENTHESIS ")", tok .LEFT_BRACE "\x7b", tok .RETURN "return",
        tok .IDENTIFIER "a", tok .ADD "+", tok .IDENTIFIER "b", tok .SEMI_COLON ";",
        tok .RIGHT_BRACE "\x7d", tok .END_OF_FILE ""]
      = .ok [none]
          ⟨[tok .FUNCTION "function", tok .IDENTIFIER "f", tok .LEFT_PARENTHESIS "(",
            tok .IDENTIFIER "a", tok .COMMA ",", tok .IDENTIFIER "b",
            tok .RIGHT_PARENTHESIS ")", tok .LEFT_BRACE "\x7b", tok .RETURN "return",
            tok .IDENTIFIER "a", tok .ADD "+", tok .IDENTIFIER "b", tok .SEMI_COLON ";",
            tok .RIGHT_BRACE "\x7d", tok .END_OF_FILE ""], 14, []⟩
    ∧ ∀ n, Returns (function_decl n) (· = none) := by
  refine ⟨?_, fun n => (statement_rules_return_null n).2.1⟩
  exact parse_eq_of_parseShape (k := 1) ⟨tok .END_OF_FILE "", by simp, rfl⟩ (by decide!)

/-- C13 fails on the code: on the tokens of `let x = 5;` and of `let y;`
`Parser::parse` returns one entry and no diagnostic, and the entry is the placeholder
`nullptr`, not a VariableDeclaration node: the name and the initializer are read and
dropped. `Parser::variable_decl` returns the placeholder on every input. -/
theorem parse_variable_declaration_null :
    parse [tok .LET "let", tok .IDENTIFIER "x", tok .ASSIGN "=", tok .INT_LITERAL "5",
        tok .SEMI_COLON ";", tok .END_OF_FILE ""]
      = .ok [none]
          ⟨[tok .LET "let", tok .IDENTIFIER "x", tok .ASSIGN "=", tok .INT_LITERAL "5",
            tok .SEMI_COLON ";", tok .END_OF_FILE ""], 5, []⟩
    ∧ parse [tok .LET "let", tok .IDENTIFIER "y", tok .SEMI_COLON ";", tok .END_OF_FILE ""]
      = .ok [none]
          ⟨[tok .LET "let", tok .IDENTIFIER "y", tok .SEMI_COLON ";",
            tok .END_OF_FILE ""], 3, []⟩
    ∧ ∀ n, Returns (variable_decl n) (· = none) :=
  ⟨rfl, rfl, fun n => (statement_rules_return_null n).2.2.1⟩

/-- C14 fails on the code: `Parser::statement` consumes the opening brace and then calls
`Parser::block`, which asks for an opening brace again. So `statement` on an opening
brace that a token of another kind follows throws, with the diagnostic
`Expected '{' to start block` at that token. `Parser::parse` on the empty block returns no
statement and that diagnostic; what it takes as one statement without a diagnostic is a
block written with two opening braces and one closing brace. -/
theorem statement_block_needs_second_brace (n : Nat) (p : Parser) (lb t : Token)
    (h0 : p.tokens[p.current]? = some lb) (hlb : lb.type = .LEFT_BRACE)
    (h1 : p.tokens[p.current + 1]? = some t) (ht : t.type ≠ .LEFT_BRACE) :
    statement (n + 2) p
        = .raised { p with
            current := p.current + 1,
            errors := p.errors ++ [(t, "Expected \x27\x7b\x27 to start block")] }
    ∧ parse [tok .LEFT_BRACE "\x7b", tok .RIGHT_BRACE "\x7d", tok .END_OF_FILE ""]
      = .ok []
          ⟨[tok .LEFT_BRACE "\x7b", tok .RIGHT_BRACE "\x7d", tok .END_OF_FILE ""], 2,
            [(tok .RIGHT_BRACE "\x7d", "Expected \x27\x7b\x27 to start block")]⟩
    ∧ parse [tok .LEFT_BRACE "\x7b", tok .LEFT_BRACE "\x7b", tok .RIGHT_BRACE "\x7d",
        tok .END_OF_FILE ""]
      = .ok [none]
          ⟨[tok .LEFT_BRACE "\x7b", tok .LEFT_BRACE "\x7b", tok .RIGHT_BRACE "\x7d",
            tok .END_OF_FILE ""], 3, []⟩ := by
  refine ⟨?_, rfl, rfl⟩
  have hne : lb.type ≠ .END_OF_FILE := by rw [hlb]; decide
  have m1 := run_match_false h0 (T := [.IF]) (by simp [hlb])
  have m2 := run_match_false h0 (T := [.WHILE]) (by simp [hlb])
  have m3 := run_match_false h0 (T := [.RETURN]) (by simp [hlb])
  have m4 := run_match_false h0 (T := [.FOR]) (by simp [hlb])
  have m5 := run_match_false h0 (T := [.LET]) (by simp [hlb])
  have m6 := run_match_true h0 hne (T := [.LEFT_BRACE]) (by simp [hlb])
  have m7 := run_match_false (p := { p with current := p.current + 1 }) h1
    (T := [.LEFT_BRACE]) (by simpa using ht)
  have x7 := run_expect_false m7 h1 "Expected \x27\x7b\x27 to start block"
  rw [statement]
  simp only [run_bind, m1, m2, m3, m4, m5, m6, andThen_ok]
  simp only [Bool.false_eq_true, if_false, if_true]
  simp [run_bind, m1, m2, m3, m4, m5, m6, block, x7]

/-- The instance of the empty block of `statement_block_needs_second_brace`. -/
theorem statement_block_needs_second_brace_witness :
    statement 2 (Parser.new [tok .LEFT_BRACE "\x7b", tok .RIGHT_BRACE "\x7d",
        tok .END_OF_FILE ""])
      = .raised ⟨[tok .LEFT_BRACE "\x7b", tok .RIGHT_BRACE "\x7d", tok .END_OF_FILE ""], 1,
          [(tok .RIGHT_BRACE "\x7d", "Expected \x27\x7b\x27 to start block")]⟩ :=
  (statement_block_needs_second_brace 0
    (Parser.new [tok .LEFT_BRACE "\x7b", tok .RIGHT_BRACE "\x7d", tok .END_OF_FILE ""])
    (tok .LEFT_BRACE "\x7b") (tok .RIGHT_BRACE "\x7d") rfl rfl rfl (by decide)).1

/-! ## The scanner: cursor and loops -/

@[simp] theorem advance_source (lx : Lexer) : lx.advance.source = lx.source := by
  unfold Lexer.advance
  split <;> rfl

@[simp] theorem advance_position (lx : Lexer) : lx.advance.position = lx.position + 1 := by
  unfold Lexer.advance
  split <;> rfl

theorem skipWhitespaceLoop_source (fuel : Nat) (lx : Lexer) :
    (lx.skipWhitespaceLoop fuel).source = lx.source := by
  induction fuel generalizing lx with
  | zero => rfl
  | succ k ih =>
    unfold Lexer.skipWhitespaceLoop
    split
    · split
      · rw [ih, advance_source]
      · rfl
    · rfl

theorem skipWhitespaceLoop_position (fuel : Nat) (lx : Lexer) :
    lx.position ≤ (lx.skipWhitespaceLoop fuel).position := by
  induction fuel generalizing lx with
  | zero => exact Nat.le_refl _
  | succ k ih =>
    unfold Lexer.skipWhitespaceLoop
    split
    · split
      · have := ih lx.advance
        rw [advance_position] at this
        omega
      · exact Nat.le_refl _
    · exact Nat.le_refl _

/-- After the loop of `skipWhitespace`, run with the characters left as its bound, the
cursor is at the end of the source or on a character that is not white space. -/
theorem skipWhitespaceLoop_stops (fuel : Nat) (lx : Lexer)
    (h : lx.source.length - lx.position ≤ fuel) (c : Char)
    (hc : (lx.skipWhitespaceLoop fuel).source[(lx.skipWhitespaceLoop fuel).position]? = some c) :
    isspace c = false := by
  induction fuel generalizing lx with
  | zero =>
    simp only [Lexer.skipWhitespaceLoop] at hc
    have := List.getElem?_eq_some_iff.mp hc
    obtain ⟨hlt, -⟩ := this
    omega
  | succ k ih =>
    cases hd : lx.source[lx.position]? with
    | none =>
      simp only [Lexer.skipWhitespaceLoop, hd] at hc
      cases hc
    | some d =>
      simp only [Lexer.skipWhitespaceLoop, hd] at hc
      by_cases hs : isspace d = true
      · rw [if_pos hs] at hc
        exact ih lx.advance (by simp; omega) hc
      · rw [if_neg hs, hd] at hc
        cases hc
        simpa using hs

/-- The loop of `skipWhitespace` does not depend on its bound, once the bound covers the
characters left. -/
theorem skipWhitespaceLoop_fuel (fuel : Nat) (lx : Lexer)
    (h : lx.source.length - lx.position ≤ fuel) :
    lx.skipWhitespaceLoop fuel = lx.skipWhitespaceLoop (lx.source.length - lx.position) := by
  induction fuel generalizing lx with
  | zero =>
    have : lx.source.length - lx.position = 0 := by omega
    rw [this]
  | succ k ih =>
    cases hd : lx.source[lx.position]? with
    | none =>
      have hlen : lx.source.length ≤ lx.position := List.getElem?_eq_none_iff.mp hd
      have : lx.source.length - lx.position = 0 := by omega
      rw [this]
      simp [Lexer.skipWhitespaceLoop, hd]
    | some c =>
      have hlt : lx.position < lx.source.length := (List.getElem?_eq_some_iff.mp hd).1
      obtain ⟨m, hm⟩ : ∃ m, lx.source.length - lx.position = m + 1 :=
        ⟨lx.source.length - lx.position - 1, by omega⟩
      rw [hm]
      simp only [Lexer.skipWhitespaceLoop, hd]
      split
      · rw [ih lx.advance (by simp; omega)]
        have : lx.advance.source.length - lx.advance.position = m := by simp; omega
        rw [this]
      · rfl

/-- The `while` loop of `Lexer::skipWhitespace` as the source writes it: while the cursor
is inside the source and on a white-space character, `advance` and go round again. -/
theorem skipWhitespace_eq (lx : Lexer) :
    lx.skipWhitespace =
      match lx.source[lx.position]? with
      | some c => if isspace c then lx.advance.skipWhitespace else lx
      | none => lx := by
  unfold Lexer.skipWhitespace
  cases hd : lx.source[lx.position]? with
  | none =>
    have hlen : lx.source.length ≤ lx.position := List.getElem?_eq_none_iff.mp hd
    have : lx.source.length - lx.position = 0 := by omega
    rw [this]
    rfl
  | some c =>
    have hlt : lx.position < lx.source.length := (List.getElem?_eq_some_iff.mp hd).1
    obtain ⟨m, hm⟩ : ∃ m, lx.source.length - lx.position = m + 1 :=
      ⟨lx.source.length - lx.position - 1, by omega⟩
    rw [hm]
    simp only [Lexer.skipWhitespaceLoop, hd]
    have : lx.advance.source.length - lx.advance.position = m := by simp; omega
    rw [this]

theorem skipWhitespace_of_none {lx : Lexer} (h : lx.source[lx.position]? = none) :
    lx.skipWhitespace = lx := by
  rw [skipWhitespace_eq, h]

theorem skipWhitespace_of_not_space {lx : Lexer} {c : Char}
    (h : lx.source[lx.position]? = some c) (hc : isspace c = false) :
    lx.skipWhitespace = lx := by
  rw [skipWhitespace_eq, h]
  simp [hc]

theorem skipWhitespace_source (lx : Lexer) : lx.skipWhitespace.source = lx.source :=
  skipWhitespaceLoop_source _ lx

theorem skipWhitespace_position (lx : Lexer) : lx.position ≤ lx.skipWhitespace.position :=
  skipWhitespaceLoop_position _ lx

theorem skipWhitespace_stops (lx : Lexer) (c : Char)
    (hc : lx.skipWhitespace.source[lx.skipWhitespace.position]? = some c) :
    isspace c = false :=
  skipWhitespaceLoop_stops _ lx (Nat.le_refl _) c hc

/-- No entry of the keyword table is the end-of-input kind. -/
theorem lookup_keywords_ne_eof (w : String) :
    keywords.lookup w ≠ some TokenType.END_OF_FILE := by
  simp only [keywords, List.lookup]
  repeat' split
  all_goals simp

theorem lexBoolean_type_ne_eof (lx : Lexer) : lx.lexBoolean.1.type ≠ .END_OF_FILE := by
  unfold Lexer.lexBoolean
  simp only
  split
  · rename_i ty h
    intro he
    simp only at he
    rw [he] at h
    exact lookup_keywords_ne_eof _ h
  · simp

theorem ite_of_both {α : Type} {Q : α → Prop} (p : Prop) [Decidable p] (a b : α)
    (ha : Q a) (hb : Q b) : Q (if p then a else b) := by
  split <;> assumption

/-- The dispatch of `Lexer::getNextToken` on the first character that is not white
space: which function scans the token. -/
theorem getNextToken_cases (lx : Lexer) :
    (lx.skipWhitespace.source[lx.skipWhitespace.position]? = none
      ∧ lx.getNextToken = (lx.skipWhitespace.makeToken .END_OF_FILE "", lx.skipWhitespace))
    ∨ ∃ c, lx.skipWhitespace.source[lx.skipWhitespace.position]? = some c
      ∧ (((isalpha c = true ∨ c = '_') ∧ lx.getNextToken = lx.skipWhitespace.lexBoolean)
        ∨ (isdigit c = true ∧ lx.getNextToken = lx.skipWhitespace.lexNumber)
        ∨ (c = '"' ∧ lx.getNextToken = lx.skipWhitespace.lexString)
        ∨ (c = '=' ∧ lx.getNextToken = lx.skipWhitespace.lexAssignOrEqual)
        ∨ (isalpha c = false ∧ c ≠ '_' ∧ isdigit c = false ∧ c ≠ '"' ∧ c ≠ '='
          ∧ ∃ type value, lx.getNextToken = lx.skipWhitespace.single type value
            ∧ type ≠ .END_OF_FILE ∧ type ≠ .STRING_LITERAL ∧ value.length = 1)) := by
  cases hd : lx.skipWhitespace.source[lx.skipWhitespace.position]? with
  | none =>
    left
    refine ⟨rfl, ?_⟩
    unfold Lexer.getNextToken
    simp only []
    rw [hd]
  | some c =>
    right
    refine ⟨c, rfl, ?_⟩
    unfold Lexer.getNextToken
    simp only []
    rw [hd]
    simp only []
    clear hd
    generalize lx.skipWhitespace = s
    by_cases h1 : c = 'f' ∨ c = 't'
    · rw [if_pos h1]
      refine Or.inl ⟨Or.inl ?_, rfl⟩
      rcases h1 with rfl | rfl <;> decide
    rw [if_neg h1]
    by_cases h2 : isalpha c = true ∨ c = '_'
    · rw [if_pos h2]
      exact Or.inl ⟨h2, rfl⟩
    rw [if_neg h2]
    by_cases h3 : isdigit c = true
    · rw [if_pos h3]
      exact Or.inr (Or.inl ⟨h3, rfl⟩)
    rw [if_neg h3]
    by_cases h4 : c = '"'
    · rw [if_pos h4]
      exact Or.inr (Or.inr (Or.inl ⟨h4, rfl⟩))
    rw [if_neg h4]
    by_cases h5 : c = '='
    · subst h5
      exact Or.inr (Or.inr (Or.inr (Or.inl ⟨rfl, by simp⟩)))
    refine Or.inr (Or.inr (Or.inr (Or.inr ⟨by simpa using fun h => h2 (Or.inl h),
      fun h => h2 (Or.inr h), by simpa using h3, h4, h5, ?_⟩)))
    clear h1 h2 h3
    rw [if_neg h5, if_neg h4]
    have key := @ite_of_both (Token × Lexer) (fun r => ∃ type value,
      r = s.single type value ∧ type ≠ .END_OF_FILE ∧ type ≠ .STRING_LITERAL
        ∧ value.length = 1)
    repeat (first
      | exact ⟨_, _, rfl, by decide, by decide, by decide⟩
      | exact ⟨_, _, rfl, by decide, by decide, rfl⟩
      | refine key _ _ _ ?_ ?_)

theorem lexAssignOrEqual_type_ne_eof (lx : Lexer) :
    lx.lexAssignOrEqual.1.type ≠ .END_OF_FILE := by
  unfold Lexer.lexAssignOrEqual
  simp only []
  split <;> simp

/-- The end-of-input token comes from one place only: the cursor, after the white space is
skipped, is at the end of the source. -/
theorem getNextToken_eof {lx : Lexer} (h : lx.getNextToken.1.type = .END_OF_FILE) :
    lx.skipWhitespace.source[lx.skipWhitespace.position]? = none := by
  rcases getNextToken_cases lx with ⟨hn, -⟩ | ⟨c, -, hc⟩
  · exact hn
  · exfalso
    rcases hc with ⟨-, he⟩ | ⟨-, he⟩ | ⟨-, he⟩ | ⟨-, he⟩ | ⟨-, -, -, -, -, ty, v, he, hty, -, -⟩
    · rw [he] at h
      exact lexBoolean_type_ne_eof _ h
    · rw [he] at h
      simp [Lexer.lexNumber] at h
    · rw [he] at h
      simp [Lexer.lexString] at h
    · rw [he] at h
      exact lexAssignOrEqual_type_ne_eof _ h
    · rw [he] at h
      exact hty h

theorem getNextToken_at_end {lx : Lexer} (h : lx.source[lx.position]? = none) :
    lx.getNextToken = (lx.makeToken .END_OF_FILE "", lx) := by
  unfold Lexer.getNextToken
  simp only []
  rw [skipWhitespace_of_none h, h]

theorem afterCalls_at_end {lx : Lexer} (h : lx.source[lx.position]? = none) (k : Nat) :
    lx.afterCalls k = lx := by
  induction k with
  | zero => rfl
  | succ k ih =>
    rw [Lexer.afterCalls, getNextToken_at_end h]
    exact ih

/-- C15: once `Lexer::getNextToken` has returned an end-of-input token, every later call
returns the same token, with the empty text and the same line and column, and leaves the
scanner as the first such call left it. -/
theorem getNextToken_eof_idempotent (lx : Lexer) (k : Nat)
    (h : lx.getNextToken.1.type = .END_OF_FILE) :
    lx.getNextToken.1.value = ""
    ∧ (lx.getNextToken.2.afterCalls k).getNextToken = lx.getNextToken
    ∧ lx.getNextToken.2.afterCalls (k + 1) = lx.getNextToken.2 := by
  have hn := getNextToken_eof h
  have h1 : lx.getNextToken = (lx.skipWhitespace.makeToken .END_OF_FILE "",
      lx.skipWhitespace) := by
    unfold Lexer.getNextToken
    simp only []
    rw [hn]
  rw [h1]
  simp only
  refine ⟨rfl, ?_, ?_⟩
  · rw [afterCalls_at_end hn, getNextToken_at_end hn]
  · exact afterCalls_at_end hn _

/-- The instance of a source with trailing white space, at the call after the last
token, of `getNextToken_eof_idempotent`. -/
theorem getNextToken_eof_idempotent_witness :
    (Lexer.getNextToken ⟨['a', ' ', '\n', ' '], 1, 1, 2⟩).1.value = ""
    ∧ ((Lexer.getNextToken ⟨['a', ' ', '\n', ' '], 1, 1, 2⟩).2.afterCalls 3).getNextToken
      = Lexer.getNextToken ⟨['a', ' ', '\n', ' '], 1, 1, 2⟩
    ∧ (Lexer.getNextToken ⟨['a', ' ', '\n', ' '], 1, 1, 2⟩).2.afterCalls (3 + 1)
      = (Lexer.getNextToken ⟨['a', ' ', '\n', ' '], 1, 1, 2⟩).2 :=
  getNextToken_eof_idempotent ⟨['a', ' ', '\n', ' '], 1, 1, 2⟩ 3 (by decide)

/-- The loop of `lexBoolean` does not depend on its bound, once the bound covers the
characters left. -/
theorem lexBooleanLoop_fuel (fuel1 : Nat) :
    ∀ (fuel2 : Nat) (ident : String) (lx : Lexer),
      lx.source.length - lx.position ≤ fuel1 → lx.source.length - lx.position ≤ fuel2 →
      Lexer.lexBooleanLoop fuel1 ident lx = Lexer.lexBooleanLoop fuel2 ident lx := by
  induction fuel1 with
  | zero =>
    intro fuel2 ident lx h1 _
    have hn : lx.source[lx.position]? = none := List.getElem?_eq_none_iff.mpr (by omega)
    cases fuel2 with
    | zero => rfl
    | succ j => simp only [Lexer.lexBooleanLoop, hn]
  | succ k ih =>
    intro fuel2 ident lx h1 h2
    cases hd : lx.source[lx.position]? with
    | none =>
      cases fuel2 with
      | zero => simp only [Lexer.lexBooleanLoop, hd]
      | succ j => simp only [Lexer.lexBooleanLoop, hd]
    | some c =>
      have hlt : lx.position < lx.source.length := (List.getElem?_eq_some_iff.mp hd).1
      obtain ⟨j, rfl⟩ : ∃ j, fuel2 = j + 1 := ⟨fuel2 - 1, by omega⟩
      simp only [Lexer.lexBooleanLoop, hd]
      split
      · exact ih j _ _ (by simp; omega) (by simp; omega)
      · rfl

/-- The loop of `lexNumber` does not depend on its bound, once the bound covers the
characters left. -/
theorem lexNumberLoop_fuel (fuel1 : Nat) :
    ∀ (fuel2 : Nat) (lx : Lexer),
      lx.source.length - lx.position ≤ fuel1 → lx.source.length - lx.position ≤ fuel2 →
      lx.lexNumberLoop fuel1 = lx.lexNumberLoop fuel2 := by
  induction fuel1 with
  | zero =>
    intro fuel2 lx h1 _
    have hn : lx.source[lx.position]? = none := List.getElem?_eq_none_iff.mpr (by omega)
    cases fuel2 with
    | zero => rfl
    | succ j => simp only [Lexer.lexNumberLoop, hn]
  | succ k ih =>
    intro fuel2 lx h1 h2
    cases hd : lx.source[lx.position]? with
    | none =>
      cases fuel2 with
      | zero => simp only [Lexer.lexNumberLoop, hd]
      | succ j => simp only [Lexer.lexNumberLoop, hd]
    | some c =>
      have hlt : lx.position < lx.source.length := (List.getElem?_eq_some_iff.mp hd).1
      obtain ⟨j, rfl⟩ : ∃ j, fuel2 = j + 1 := ⟨fuel2 - 1, by omega⟩
      simp only [Lexer.lexNumberLoop, hd]
      split
      · exact ih j _ (by simp; omega) (by simp; omega)
      · rfl

/-- The loop of `lexString` does not depend on its bound, once the bound covers the
characters left. -/
theorem lexStringLoop_fuel (fuel1 : Nat) :
    ∀ (fuel2 : Nat) (strContent : String) (lx : Lexer),
      lx.source.length - lx.position ≤ fuel1 → lx.source.length - lx.position ≤ fuel2 →
      Lexer.lexStringLoop fuel1 strContent lx = Lexer.lexStringLoop fuel2 strContent lx := by
  induction fuel1 with
  | zero =>
    intro fuel2 strContent lx h1 _
    have hn : lx.source[lx.position]? = none := List.getElem?_eq_none_iff.mpr (by omega)
    cases fuel2 with
    | zero => rfl
    | succ j => simp only [Lexer.lexStringLoop, hn]
  | succ k ih =>
    intro fuel2 strContent lx h1 h2
    cases hd : lx.source[lx.position]? with
    | none =>
      cases fuel2 with
      | zero => simp only [Lexer.lexStringLoop, hd]
      | succ j => simp only [Lexer.lexStringLoop, hd]
    | some c =>
      have hlt : lx.position < lx.source.length := (List.getElem?_eq_some_iff.mp hd).1
      obtain ⟨j, rfl⟩ : ∃ j, fuel2 = j + 1 := ⟨fuel2 - 1, by omega⟩
      simp only [Lexer.lexStringLoop, hd]
      split
      · rfl
      · split
        · split
          · rfl
          · split
            · exact ih j _ _ (by simp; omega) (by simp; omega)
            · exact ih j _ _ (by simp; omega) (by simp; omega)
        · exact ih j _ _ (by simp; omega) (by simp; omega)

/-! ## The scanner: forward progress -/

theorem lexBooleanLoop_source (fuel : Nat) (ident : String) (lx : Lexer) :
    (Lexer.lexBooleanLoop fuel ident lx).2.source = lx.source := by
  induction fuel generalizing ident lx with
  | zero => rfl
  | succ k ih =>
    unfold Lexer.lexBooleanLoop
    split
    · split
      · rw [ih, advance_source]
      · rfl
    · rfl

theorem lexBooleanLoop_position (fuel : Nat) (ident : String) (lx : Lexer) :
    lx.position ≤ (Lexer.lexBooleanLoop fuel ident lx).2.position := by
  induction fuel generalizing ident lx with
  | zero => exact Nat.le_refl _
  | succ k ih =>
    unfold Lexer.lexBooleanLoop
    split
    · split
      · have := ih (ident.push ‹Char›) lx.advance
        rw [advance_position] at this
        omega
      · exact Nat.le_refl _
    · exact Nat.le_refl _

theorem lexNumberLoop_source (fuel : Nat) (lx : Lexer) :
    (lx.lexNumberLoop fuel).source = lx.source := by
  induction fuel generalizing lx with
  | zero => rfl
  | succ k ih =>
    unfold Lexer.lexNumberLoop
    split
    · split
      · rw [ih, advance_source]
      · rfl
    · rfl

theorem lexNumberLoop_position (fuel : Nat) (lx : Lexer) :
    lx.position ≤ (lx.lexNumberLoop fuel).position := by
  induction fuel generalizing lx with
  | zero => exact Nat.le_refl _
  | succ k ih =>
    unfold Lexer.lexNumberLoop
    split
    · split
      · have := ih lx.advance
        rw [advance_position] at this
        omega
      · exact Nat.le_refl _
    · exact Nat.le_refl _

theorem lexStringLoop_source (fuel : Nat) (strContent : String) (lx : Lexer) :
    (Lexer.lexStringLoop fuel strContent lx).2.source = lx.source := by
  induction fuel generalizing strContent lx with
  | zero => rfl
  | succ k ih =>
    unfold Lexer.lexStringLoop
    split
    · rfl
    · split
      · simp
      · split
        · split
          · simp
          · split
            · rw [ih]; simp
            · rw [ih]; simp
        · rw [ih]; simp

theorem lexStringLoop_position (fuel : Nat) (strContent : String) (lx : Lexer) :
    lx.position ≤ (Lexer.lexStringLoop fuel strContent lx).2.position := by
  induction fuel generalizing strContent lx with
  | zero => exact Nat.le_refl _
  | succ k ih =>
    unfold Lexer.lexStringLoop
    split
    · exact Nat.le_refl _
    · split
      · simp
      · split
        · split
          · simp
          · split
            · have := ih (strContent.push ‹Char›) lx.advance.advance
              simp at this
              omega
            · have := ih ((strContent.push '\\').push ‹Char›) lx.advance.advance
              simp at this
              omega
        · have := ih (strContent.push ‹Char›) lx.advance
          simp at this
          omega

/-- A call of `getNextToken` whose first character after the white space is not `_`
moves the cursor forward. -/
theorem getNextToken_progress (lx : Lexer) (c : Char)
    (hc : lx.skipWhitespace.source[lx.skipWhitespace.position]? = some c) (hne : c ≠ '_') :
    lx.position < lx.getNextToken.2.position := by
  have hsk := skipWhitespace_position lx
  have hlt : lx.skipWhitespace.position < lx.skipWhitespace.source.length :=
    (List.getElem?_eq_some_iff.mp hc).1
  obtain ⟨m, hm⟩ : ∃ m, lx.skipWhitespace.source.length - lx.skipWhitespace.position = m + 1 :=
    ⟨lx.skipWhitespace.source.length - lx.skipWhitespace.position - 1, by omega⟩
  rcases getNextToken_cases lx with ⟨hn, -⟩ | ⟨d, hd, hcase⟩
  · rw [hn] at hc
    cases hc
  · rw [hc] at hd
    cases hd
    rcases hcase with ⟨ha, he⟩ | ⟨ha, he⟩ | ⟨-, he⟩ | ⟨-, he⟩ | ⟨-, -, -, -, -, ty, v, he, -⟩
    · have hal : isalpha c = true := ha.resolve_right hne
      rw [he]
      unfold Lexer.lexBoolean
      simp only []
      have hpos : lx.skipWhitespace.position + 1
          ≤ (Lexer.lexBooleanLoop (lx.skipWhitespace.source.length
              - lx.skipWhitespace.position) "" lx.skipWhitespace).2.position := by
        rw [hm]
        simp only [Lexer.lexBooleanLoop, hc, hal, if_true]
        have := lexBooleanLoop_position m ("".push c) lx.skipWhitespace.advance
        simpa using this
      split <;> (simp only []; omega)
    · rw [he]
      unfold Lexer.lexNumber
      simp only []
      rw [hm]
      simp only [Lexer.lexNumberLoop, hc, ha, if_true]
      have := lexNumberLoop_position m lx.skipWhitespace.advance
      simp at this
      omega
    · rw [he]
      unfold Lexer.lexString
      simp only []
      have := lexStringLoop_position (lx.skipWhitespace.advance.source.length
        - lx.skipWhitespace.advance.position) "" lx.skipWhitespace.advance
      simp at this ⊢
      omega
    · rw [he]
      unfold Lexer.lexAssignOrEqual
      simp only []
      split <;> (simp; omega)
    · rw [he]
      simp [Lexer.single]
      omega

/-- On `_` the scan of `lexBoolean` reads no character: the token is an identifier with
the empty text and the scanner has not moved. -/
theorem getNextToken_underscore {lx : Lexer} (h : lx.source[lx.position]? = some '_') :
    lx.getNextToken = (⟨.IDENTIFIER, "", lx.line, lx.column⟩, lx) := by
  have hlt : lx.position < lx.source.length := (List.getElem?_eq_some_iff.mp h).1
  obtain ⟨m, hm⟩ : ∃ m, lx.source.length - lx.position = m + 1 :=
    ⟨lx.source.length - lx.position - 1, by omega⟩
  have hs : lx.skipWhitespace = lx := skipWhitespace_of_not_space h (by decide)
  unfold Lexer.getNextToken
  simp only []
  rw [hs, h]
  simp only []
  rw [if_pos (Or.inr trivial)]
  unfold Lexer.lexBoolean
  simp only []
  rw [hm]
  have hl : Lexer.lexBooleanLoop (m + 1) "" lx = ("", lx) := by
    simp only [Lexer.lexBooleanLoop, h]
    rw [if_neg (by decide)]
  rw [hl]
  rfl

theorem afterCalls_underscore {lx : Lexer} (h : lx.source[lx.position]? = some '_')
    (k : Nat) : lx.afterCalls k = lx := by
  induction k with
  | zero => rfl
  | succ k ih =>
    rw [Lexer.afterCalls, getNextToken_underscore h]
    exact ih

theorem tokenize_underscore {lx : Lexer} (h : lx.source[lx.position]? = some '_')
    (fuel : Nat) : Lexer.tokenize fuel lx = none := by
  induction fuel with
  | zero => rfl
  | succ k ih =>
    rw [Lexer.tokenize, getNextToken_underscore h]
    simp [ih]

/-- C16 fails on the code: on the source `_` a call of `Lexer::getNextToken` returns an
identifier with the empty text, not the end-of-input token, and leaves the cursor at 0.
Every later call does the same, so the end-of-input token is never returned and the loop
that scans to exhaustion does not end, for a source of length 1. -/
theorem getNextToken_underscore_stalls :
    (Lexer.new ['_']).getNextToken = (⟨.IDENTIFIER, "", 1, 1⟩, Lexer.new ['_'])
    ∧ (∀ k, ((Lexer.new ['_']).afterCalls k).getNextToken
        = (⟨.IDENTIFIER, "", 1, 1⟩, Lexer.new ['_']))
    ∧ ∀ fuel, Lexer.tokenize fuel (Lexer.new ['_']) = none := by
  have h : (Lexer.new ['_']).source[(Lexer.new ['_']).position]? = some '_' := rfl
  refine ⟨getNextToken_underscore h, fun k => ?_, fun fuel => tokenize_underscore h fuel⟩
  rw [afterCalls_underscore h]
  exact getNextToken_underscore h

/-- C19 fails on the code: the scan of an identifier stops at the first character that is
not a letter. On `x1` the first token is the identifier `x` and the second the integer
`1`; on `my_var` the first token is the identifier `my`, and from the `_` on every call
returns an identifier with the empty text; on `_tmp` the first token is already the
identifier with the empty text, and the cursor stays at 0. -/
theorem identifier_scan_stops_at_digit_and_underscore :
    Lexer.tokenize 3 (Lexer.new ['x', '1'])
      = some [⟨.IDENTIFIER, "x", 1, 1⟩, ⟨.INT_LITERAL, "1", 1, 2⟩, ⟨.END_OF_FILE, "", 1, 3⟩]
    ∧ (Lexer.new ['m', 'y', '_', 'v', 'a', 'r']).getNextToken
      = (⟨.IDENTIFIER, "my", 1, 1⟩, ⟨['m', 'y', '_', 'v', 'a', 'r'], 2, 1, 3⟩)
    ∧ (Lexer.getNextToken ⟨['m', 'y', '_', 'v', 'a', 'r'], 2, 1, 3⟩)
      = (⟨.IDENTIFIER, "", 1, 3⟩, ⟨['m', 'y', '_', 'v', 'a', 'r'], 2, 1, 3⟩)
    ∧ (Lexer.new ['_', 't', 'm', 'p']).getNextToken
      = (⟨.IDENTIFIER, "", 1, 1⟩, Lexer.new ['_', 't', 'm', 'p'])
    ∧ ∀ fuel, Lexer.tokenize fuel (Lexer.new ['_', 't', 'm', 'p']) = none := by
  refine ⟨by decide, by decide, by decide, by decide, fun fuel => ?_⟩
  exact @tokenize_underscore (Lexer.new ['_', 't', 'm', 'p']) rfl fuel

/-! ## The scanner: words and string literals -/

theorem getElem?_cons_of_drop {α : Type} {l : List α} {c : Nat} {t : α} {ts : List α}
    (h : l.drop c = t :: ts) : l[c]? = some t ∧ l.drop (c + 1) = ts := by
  constructor
  · have := List.getElem?_drop (L := l) (i := c) (j := 0)
    simpa [h] using this.symm
  · have : l.drop (c + 1) = (l.drop c).drop 1 := by simp [List.drop_drop, Nat.add_comm]
    simp [this, h]

theorem isalpha_ne_newline {c : Char} (h : isalpha c = true) : c ≠ '\n' := by
  rintro rfl
  exact absurd h (by decide)

theorem isdigit_ne_newline {c : Char} (h : isdigit c = true) : c ≠ '\n' := by
  rintro rfl
  exact absurd h (by decide)

theorem isalpha_not_space {c : Char} (h : isalpha c = true) : isspace c = false := by
  cases hs : isspace c with
  | false => rfl
  | true =>
    exfalso
    simp only [isspace, Bool.or_eq_true, decide_eq_true_eq] at hs
    rcases hs with ((((rfl | rfl) | rfl) | rfl) | rfl) | rfl <;> exact absurd h (by decide)

/-- `advance` over a character that is not a newline: one column on, same line. -/
theorem advance_of_ne_newline {lx : Lexer} {c : Char} (h : lx.source[lx.position]? = some c)
    (hc : c ≠ '\n') :
    lx.advance = ⟨lx.source, lx.position + 1, lx.line, lx.column + 1⟩ := by
  unfold Lexer.advance
  rw [h, if_neg (by simpa using hc)]

/-- `advance` over a newline: next line, column 1. -/
theorem advance_of_newline {lx : Lexer} (h : lx.source[lx.position]? = some '\n') :
    lx.advance = ⟨lx.source, lx.position + 1, lx.line + 1, 1⟩ := by
  unfold Lexer.advance
  rw [if_pos h]

/-- The loop of `lexBoolean` on a run of letters that the end of the source or a
character that is no letter follows: it reads the whole run and stops there. -/
theorem lexBooleanLoop_run (run rest : List Char) (hrun : ∀ c ∈ run, isalpha c = true)
    (hrest : ∀ c, rest.head? = some c → isalpha c = false) :
    ∀ (fuel : Nat) (ident : String) (lx : Lexer),
      lx.source.drop lx.position = run ++ rest → run.length ≤ fuel →
      Lexer.lexBooleanLoop fuel ident lx
        = (⟨ident.data ++ run⟩,
            ⟨lx.source, lx.position + run.length, lx.line, lx.column + run.length⟩) := by
  induction run with
  | nil =>
    intro fuel ident lx hd _
    simp only [List.nil_append] at hd
    simp only [List.append_nil, List.length_nil, Nat.add_zero, Nat.cast_zero, Int.add_zero]
    cases fuel with
    | zero => rfl
    | succ k =>
      cases hr : rest with
      | nil =>
        rw [hr] at hd
        have hn : lx.source[lx.position]? = none := by
          rw [List.getElem?_eq_none_iff]
          have := congrArg List.length hd
          simp at this
          omega
        simp only [Lexer.lexBooleanLoop, hn]
      | cons d rest1 =>
        rw [hr] at hd
        have h0 := (getElem?_cons_of_drop hd).1
        have hna : isalpha d = false := hrest d (by rw [hr]; rfl)
        simp only [Lexer.lexBooleanLoop, h0, hna]
        rfl
  | cons c run ih =>
    intro fuel ident lx hd hf
    obtain ⟨k, rfl⟩ : ∃ k, fuel = k + 1 := ⟨fuel - 1, by simp at hf; omega⟩
    simp only [List.cons_append] at hd
    obtain ⟨h0, hd1⟩ := getElem?_cons_of_drop hd
    have hc : isalpha c = true := hrun c (by simp)
    have hadv := advance_of_ne_newline h0 (isalpha_ne_newline hc)
    simp only [Lexer.lexBooleanLoop, h0, hc, if_true]
    rw [hadv, ih (fun d hd => hrun d (by simp [hd])) k (ident.push c) _ (by simpa using hd1)
      (by simp at hf; omega)]
    simp only [String.data_push, List.append_assoc, List.singleton_append, List.length_cons,
      Nat.cast_add, Nat.cast_one]
    congr 2
    · omega
    · omega

/-- The table `keywords` classifies a word as the specification does. -/
theorem lookup_keywords (w : String) :
    (keywords.lookup w).getD .IDENTIFIER = wordKind w := by
  simp only [keywords, List.lookup, wordKind]
  by_cases h1 : w = "return"
  · subst h1; decide
  by_cases h2 : w = "function"
  · subst h2; decide
  by_cases h3 : w = "if"
  · subst h3; decide
  by_cases h4 : w = "else"
  · subst h4; decide
  by_cases h5 : w = "true"
  · subst h5; decide
  by_cases h6 : w = "false"
  · subst h6; decide
  by_cases h7 : w = "null"
  · subst h7; decide
  by_cases h8 : w = "and"
  · subst h8; decide
  by_cases h9 : w = "or"
  · subst h9; decide
  by_cases h10 : w = "not"
  · subst h10; decide
  by_cases h11 : w = "while"
  · subst h11; decide
  by_cases h12 : w = "for"
  · subst h12; decide
  by_cases h13 : w = "in"
  · subst h13; decide
  by_cases h14 : w = "let"
  · subst h14; decide
  have e : ∀ k : String, ¬w = k → (w == k) = false := fun k hk => by simpa using hk
  simp only [e _ h1, e _ h2, e _ h3, e _ h4, e _ h5, e _ h6, e _ h7, e _ h8, e _ h9,
    e _ h10, e _ h11, e _ h12, e _ h13, e _ h14]
  simp [h1, h2, h3, h4, h5, h6, h7, h8, h9, h10, h11, h12, h13, h14]

/-- `lexBoolean` on a run of letters that the end of the source or a character that is no
letter follows: the token is the run, classified by the keyword table. -/
theorem lexBoolean_run (run rest : List Char) (hrun : ∀ c ∈ run, isalpha c = true)
    (hrest : ∀ c, rest.head? = some c → isalpha c = false) (lx : Lexer)
    (hd : lx.source.drop lx.position = run ++ rest) :
    lx.lexBoolean
      = (⟨wordKind ⟨run⟩, ⟨run⟩, lx.line, lx.column⟩,
          ⟨lx.source, lx.position + run.length, lx.line, lx.column + run.length⟩) := by
  have hlen : run.length ≤ lx.source.length - lx.position := by
    have := congrArg List.length hd
    simp at this
    omega
  unfold Lexer.lexBoolean
  simp only []
  rw [lexBooleanLoop_run run rest hrun hrest _ "" lx hd hlen]
  have hk := lookup_keywords ⟨run⟩
  simp only [show ("" : String).data = [] from rfl, List.nil_append]
  cases hl : keywords.lookup ⟨run⟩ with
  | none => rw [hl] at hk; simp only [Option.getD_none] at hk; simp only [hk]
  | some ty => rw [hl] at hk; simp only [Option.getD_some] at hk; simp only [hk]

/-- C20: for every non-empty source `w` made only of ASCII letters, the call of
`Lexer::getNextToken` returns a token with the text `w`, at line 1, column 1, whose kind
is the keyword kind of `w` when `w` is a keyword, the boolean literal when `w` is `true`
or `false`, the null literal when `w` is `null`, and the identifier kind otherwise; the
cursor is left at the end of the source. -/
theorem getNextToken_word (w : List Char) (hne : w ≠ []) (hw : ∀ c ∈ w, isalpha c = true) :
    (Lexer.new w).getNextToken
      = (⟨wordKind ⟨w⟩, ⟨w⟩, 1, 1⟩, ⟨w, w.length, 1, 1 + w.length⟩) := by
  obtain ⟨c, w1, rfl⟩ : ∃ c w1, w = c :: w1 := by
    cases w with
    | nil => exact absurd rfl hne
    | cons c w1 => exact ⟨c, w1, rfl⟩
  have hc : isalpha c = true := hw c (by simp)
  have h0 : (Lexer.new (c :: w1)).source[(Lexer.new (c :: w1)).position]? = some c := by
    simp [Lexer.new]
  have hs := skipWhitespace_of_not_space h0 (isalpha_not_space hc)
  have hb := lexBoolean_run (c :: w1) [] hw (by simp) (Lexer.new (c :: w1))
    (by simp [Lexer.new])
  unfold Lexer.getNextToken
  simp only []
  rw [hs, h0]
  simp only []
  by_cases h1 : c = 'f' ∨ c = 't'
  · rw [if_pos h1, hb]
    simp [Lexer.new]
  · rw [if_neg h1, if_pos (Or.inl hc), hb]
    simp [Lexer.new]

/-- The instances `while`, `true` and `form` of `getNextToken_word`. -/
theorem getNextToken_word_witness :
    (Lexer.new ['w', 'h', 'i', 'l', 'e']).getNextToken
      = (⟨.WHILE, "while", 1, 1⟩, ⟨['w', 'h', 'i', 'l', 'e'], 5, 1, 6⟩)
    ∧ (Lexer.new ['t', 'r', 'u', 'e']).getNextToken
      = (⟨.BOOLEAN_LITERAL, "true", 1, 1⟩, ⟨['t', 'r', 'u', 'e'], 4, 1, 5⟩)
    ∧ (Lexer.new ['f', 'o', 'r', 'm']).getNextToken
      = (⟨.IDENTIFIER, "form", 1, 1⟩, ⟨['f', 'o', 'r', 'm'], 4, 1, 5⟩) :=
  ⟨getNextToken_word ['w', 'h', 'i', 'l', 'e'] (by decide) (by decide),
    getNextToken_word ['t', 'r', 'u', 'e'] (by decide) (by decide),
    getNextToken_word ['f', 'o', 'r', 'm'] (by decide) (by decide)⟩


/-- The loop of `lexString` on a body that a closing quote follows: it reads the body,
decodes it, consumes the closing quote and stops there. -/
theorem lexStringLoop_body (rest : List Char) :
    ∀ (n : Nat) (body : List Char), body.length ≤ n → escapedBody body = true →
    ∀ (fuel : Nat) (strContent : String) (lx : Lexer),
      lx.source.drop lx.position = body ++ '"' :: rest → body.length < fuel →
      (Lexer.lexStringLoop fuel strContent lx).1 = ⟨strContent.data ++ decode body⟩
      ∧ (Lexer.lexStringLoop fuel strContent lx).2.position = lx.position + body.length + 1
      ∧ (Lexer.lexStringLoop fuel strContent lx).2.source = lx.source := by
  intro n
  induction n with
  | zero =>
    intro body hn _ fuel strContent lx hd hf
    have hb : body = [] := List.length_eq_zero.mp (Nat.le_zero.mp hn)
    subst hb
    obtain ⟨k, rfl⟩ : ∃ k, fuel = k + 1 := ⟨fuel - 1, by simp at hf; omega⟩
    have h0 := (getElem?_cons_of_drop (by simpa using hd)).1
    simp [Lexer.lexStringLoop, h0, decode]
  | succ n ih =>
    intro body hn hesc fuel strContent lx hd hf
    obtain ⟨k, rfl⟩ : ∃ k, fuel = k + 1 := ⟨fuel - 1, by omega⟩
    match body, hn, hesc, hd, hf with
    | [], _, _, hd, _ =>
      have h0 := (getElem?_cons_of_drop (by simpa using hd)).1
      simp [Lexer.lexStringLoop, h0, decode]
    | [c], _, hesc, hd, hf =>
      simp only [escapedBody, Bool.and_eq_true, decide_eq_true_eq] at hesc
      obtain ⟨hq, hbs⟩ := hesc
      obtain ⟨h0, hd1⟩ := getElem?_cons_of_drop (by simpa using hd)
      have h := ih [] (Nat.zero_le _) rfl k (strContent.push c) lx.advance
        (by simpa using hd1) (by simp at hf ⊢; omega)
      simp only [Lexer.lexStringLoop, h0, if_neg hq, if_neg hbs]
      obtain ⟨h1, h2, h3⟩ := h
      refine ⟨?_, ?_, ?_⟩
      · rw [h1]; simp [decode]
      · rw [h2]; simp
      · rw [h3]; simp
    | c :: x :: body1, hn, hesc, hd, hf =>
      simp only [List.cons_append] at hd
      obtain ⟨h0, hd1⟩ := getElem?_cons_of_drop hd
      obtain ⟨h1, hd2⟩ := getElem?_cons_of_drop hd1
      by_cases hbs : c = '\\'
      · subst hbs
        simp only [escapedBody, if_true] at hesc
        have hx : lx.advance.source[lx.advance.position]? = some x := by simpa using h1
        by_cases hxq : x = '"' ∨ x = '\\'
        · have h := ih body1 (by simp at hn; omega) hesc k (strContent.push x)
            lx.advance.advance (by simpa using hd2) (by simp at hf; omega)
          simp only [Lexer.lexStringLoop, h0, if_neg (show '\\' ≠ '"' by decide), if_true,
            hx, if_pos hxq]
          obtain ⟨e1, e2, e3⟩ := h
          refine ⟨?_, ?_, ?_⟩
          · rw [e1]; simp [decode, hxq]
          · rw [e2]; simp; omega
          · rw [e3]; simp
        · have h := ih body1 (by simp at hn; omega) hesc k ((strContent.push '\\').push x)
            lx.advance.advance (by simpa using hd2) (by simp at hf; omega)
          simp only [Lexer.lexStringLoop, h0, if_neg (show '\\' ≠ '"' by decide), if_true,
            hx, if_neg hxq]
          obtain ⟨e1, e2, e3⟩ := h
          refine ⟨?_, ?_, ?_⟩
          · rw [e1]; simp [decode, hxq]
          · rw [e2]; simp; omega
          · rw [e3]; simp
      · simp only [escapedBody, if_neg hbs, Bool.and_eq_true, decide_eq_true_eq] at hesc
        obtain ⟨hq, hesc1⟩ := hesc
        have h := ih (x :: body1) (by simp at hn ⊢; omega) hesc1 k (strContent.push c)
          lx.advance (by simpa using hd1) (by simp at hf ⊢; omega)
        simp only [Lexer.lexStringLoop, h0, if_neg hq, if_neg hbs]
        obtain ⟨e1, e2, e3⟩ := h
        refine ⟨?_, ?_, ?_⟩
        · rw [e1]; simp [decode, hbs]
        · rw [e2]; simp; omega
        · rw [e3]; simp

/-- C18: on a source that begins with a quote, then a body with no quote outside an
escape and no unfinished escape, then the closing quote, `Lexer::getNextToken` returns a
string literal whose text is the decoded body, quotes excluded, and leaves the cursor just
past the closing quote. -/
theorem getNextToken_string_literal (body rest : List Char)
    (hbody : escapedBody body = true) :
    ((Lexer.new ('"' :: (body ++ '"' :: rest))).getNextToken).1.type = .STRING_LITERAL
    ∧ ((Lexer.new ('"' :: (body ++ '"' :: rest))).getNextToken).1.value = ⟨decode body⟩
    ∧ ((Lexer.new ('"' :: (body ++ '"' :: rest))).getNextToken).2.position
      = body.length + 2 := by
  have h0 : (Lexer.new ('"' :: (body ++ '"' :: rest))).source[
      (Lexer.new ('"' :: (body ++ '"' :: rest))).position]? = some '"' := by
    simp [Lexer.new]
  have hs := skipWhitespace_of_not_space h0 (by decide)
  have hg : (Lexer.new ('"' :: (body ++ '"' :: rest))).getNextToken
      = (Lexer.new ('"' :: (body ++ '"' :: rest))).lexString := by
    unfold Lexer.getNextToken
    simp only []
    rw [hs, h0]
    simp only []
    rw [if_neg (by decide), if_neg (by decide), if_neg (by decide)]
    simp
  rw [hg]
  unfold Lexer.lexString
  simp only []
  obtain ⟨e1, e2, e3⟩ := lexStringLoop_body rest body.length body (Nat.le_refl _) hbody
    ((Lexer.new ('"' :: (body ++ '"' :: rest))).advance.source.length
      - (Lexer.new ('"' :: (body ++ '"' :: rest))).advance.position) ""
    (Lexer.new ('"' :: (body ++ '"' :: rest))).advance
    (by simp [Lexer.new]) (by simp [Lexer.new])
  refine ⟨trivial, ?_, ?_⟩
  · rw [e1]
    rfl
  · rw [e2]
    simp [Lexer.new]
    omega

/-- The instance `"a\"b"` of `getNextToken_string_literal`: the text is `a"b`. -/
theorem getNextToken_string_literal_witness :
    ((Lexer.new ['"', 'a', '\\', '"', 'b', '"']).getNextToken).1.type = .STRING_LITERAL
    ∧ ((Lexer.new ['"', 'a', '\\', '"', 'b', '"']).getNextToken).1.value = "a\"b"
    ∧ ((Lexer.new ['"', 'a', '\\', '"', 'b', '"']).getNextToken).2.position = 6 :=
  getNextToken_string_literal ['a', '\\', '"', 'b'] [] (by decide)

/-! ## The scanner: lines and columns -/

theorem lineAt_succ_newline {src : List Char} {i : Nat} (h : src[i]? = some '\n') :
    lineAt src (i + 1) = lineAt src i + 1 := by
  simp only [lineAt, List.take_succ, h, Option.toList_some, List.count_append]
  simp
  omega

theorem lineAt_succ_other {src : List Char} {i : Nat} {c : Char} (h : src[i]? = some c)
    (hc : c ≠ '\n') : lineAt src (i + 1) = lineAt src i := by
  simp only [lineAt, List.take_succ, h, Option.toList_some, List.count_append]
  simp [List.count_singleton, hc]

theorem columnAt_succ_newline {src : List Char} {i : Nat} (h : src[i]? = some '\n') :
    columnAt src (i + 1) = 1 := by
  simp [columnAt, List.take_succ, h]

theorem columnAt_succ_other {src : List Char} {i : Nat} {c : Char} (h : src[i]? = some c)
    (hc : c ≠ '\n') : columnAt src (i + 1) = columnAt src i + 1 := by
  simp [columnAt, List.take_succ, h, List.takeWhile_cons, hc]
  omega

theorem inStep_new (source : List Char) : (Lexer.new source).InStep := by
  simp [Lexer.InStep, Lexer.new, lineAt, columnAt]

/-- `advance` inside the source keeps the counters in step with the cursor. -/
theorem advance_inStep {lx : Lexer} {c : Char} (h : lx.InStep)
    (hc : lx.source[lx.position]? = some c) : lx.advance.InStep := by
  have hlt : lx.position < lx.source.length := (List.getElem?_eq_some_iff.mp hc).1
  obtain ⟨-, hl, hcol⟩ := h
  by_cases hn : c = '\n'
  · subst hn
    rw [advance_of_newline hc]
    exact ⟨hlt, by simp only []; rw [lineAt_succ_newline hc, hl],
      by simp only []; rw [columnAt_succ_newline hc]⟩
  · rw [advance_of_ne_newline hc hn]
    exact ⟨hlt, by simp only []; rw [lineAt_succ_other hc hn, hl],
      by simp only []; rw [columnAt_succ_other hc hn, hcol]⟩

theorem skipWhitespaceLoop_inStep (fuel : Nat) (lx : Lexer) (h : lx.InStep) :
    (lx.skipWhitespaceLoop fuel).InStep := by
  induction fuel generalizing lx with
  | zero => exact h
  | succ k ih =>
    cases hd : lx.source[lx.position]? with
    | none => simp only [Lexer.skipWhitespaceLoop, hd]; exact h
    | some c =>
      simp only [Lexer.skipWhitespaceLoop, hd]
      split
      · exact ih _ (advance_inStep h hd)
      · exact h

theorem skipWhitespace_inStep (lx : Lexer) (h : lx.InStep) : lx.skipWhitespace.InStep :=
  skipWhitespaceLoop_inStep _ lx h

theorem lexBooleanLoop_inStep (fuel : Nat) (ident : String) (lx : Lexer) (h : lx.InStep) :
    (Lexer.lexBooleanLoop fuel ident lx).2.InStep
      ∧ (Lexer.lexBooleanLoop fuel ident lx).2.line = lx.line := by
  induction fuel generalizing ident lx with
  | zero => exact ⟨h, rfl⟩
  | succ k ih =>
    cases hd : lx.source[lx.position]? with
    | none => simp only [Lexer.lexBooleanLoop, hd]; exact ⟨h, trivial⟩
    | some c =>
      simp only [Lexer.lexBooleanLoop, hd]
      split
      · rename_i ha
        obtain ⟨h1, h2⟩ := ih (ident.push c) _ (advance_inStep h hd)
        refine ⟨h1, ?_⟩
        rw [h2, advance_of_ne_newline hd (isalpha_ne_newline ha)]
      · exact ⟨h, rfl⟩

theorem lexNumberLoop_inStep (fuel : Nat) (lx : Lexer) (h : lx.InStep) :
    (lx.lexNumberLoop fuel).InStep ∧ (lx.lexNumberLoop fuel).line = lx.line := by
  induction fuel generalizing lx with
  | zero => exact ⟨h, rfl⟩
  | succ k ih =>
    cases hd : lx.source[lx.position]? with
    | none => simp only [Lexer.lexNumberLoop, hd]; exact ⟨h, trivial⟩
    | some c =>
      simp only [Lexer.lexNumberLoop, hd]
      split
      · rename_i ha
        obtain ⟨h1, h2⟩ := ih _ (advance_inStep h hd)
        refine ⟨h1, ?_⟩
        rw [h2, advance_of_ne_newline hd (isdigit_ne_newline ha)]
      · exact ⟨h, rfl⟩

theorem lexStringLoop_inStep (fuel : Nat) (strContent : String) (lx : Lexer)
    (h : lx.InStep) : (Lexer.lexStringLoop fuel strContent lx).2.InStep := by
  induction fuel generalizing strContent lx with
  | zero => exact h
  | succ k ih =>
    cases hd : lx.source[lx.position]? with
    | none => simp only [Lexer.lexStringLoop, hd]; exact h
    | some c =>
      simp only [Lexer.lexStringLoop, hd]
      have h1 := advance_inStep h hd
      split
      · exact h1
      · split
        · cases hd1 : lx.advance.source[lx.advance.position]? with
          | none => exact h1
          | some x =>
            have h2 := advance_inStep h1 hd1
            simp only []
            split
            · exact ih _ _ h2
            · exact ih _ _ h2
        · exact ih _ _ h1

/-- Where `getNextToken` puts a token. With the counters of the scanner in step with its
cursor, they stay in step; the column of the token is the column of the first character
after the white space; the line of the token is the line of that character, unless the
token is a string literal, whose line is the line of the cursor after the scan. -/
theorem getNextToken_line_column (lx : Lexer) (h : lx.InStep) :
    lx.getNextToken.2.InStep
    ∧ lx.getNextToken.1.column = columnAt lx.source lx.skipWhitespace.position
    ∧ (lx.getNextToken.1.type ≠ .STRING_LITERAL →
        lx.getNextToken.1.line = lineAt lx.source lx.skipWhitespace.position)
    ∧ (lx.getNextToken.1.type = .STRING_LITERAL →
        lx.getNextToken.1.line = lineAt lx.source lx.getNextToken.2.position) := by
  have hs := skipWhitespace_inStep lx h
  have hsrc := skipWhitespace_source lx
  obtain ⟨hs0, hsl, hsc⟩ := hs
  rw [hsrc] at hsl hsc
  rcases getNextToken_cases lx with ⟨hn, he⟩ | ⟨c, hc, hcase⟩
  · rw [he]
    refine ⟨⟨hs0, by rw [hsrc]; exact hsl, by rw [hsrc]; exact hsc⟩, ?_, ?_, ?_⟩
    · simp [Lexer.makeToken, hsc]
    · intro _; simp [Lexer.makeToken, hsl]
    · intro hty; simp [Lexer.makeToken] at hty
  · have hs : lx.skipWhitespace.InStep := ⟨hs0, by rw [hsrc]; exact hsl, by rw [hsrc]; exact hsc⟩
    have hnsp := skipWhitespace_stops lx c hc
    have hnl : c ≠ '\n' := by
      rintro rfl
      exact absurd hnsp (by decide)
    have hadv := advance_of_ne_newline hc hnl
    have hadvs := advance_inStep hs hc
    rcases hcase with ⟨-, he⟩ | ⟨-, he⟩ | ⟨-, he⟩ | ⟨hceq, he⟩ | ⟨-, -, -, -, -, ty, v, he, -, hty, hv⟩
    · rw [he]
      obtain ⟨i1, i2⟩ := lexBooleanLoop_inStep (lx.skipWhitespace.source.length
        - lx.skipWhitespace.position) "" lx.skipWhitespace hs
      have i3 := lexBooleanLoop_source (lx.skipWhitespace.source.length
        - lx.skipWhitespace.position) "" lx.skipWhitespace
      unfold Lexer.lexBoolean
      simp only []
      split
      · simp only []
        refine ⟨i1, hsc, fun _ => by rw [i2, hsl], fun hty => ?_⟩
        rename_i ty hlk
        subst hty
        exact absurd hlk (by
          simp only [keywords, List.lookup]
          repeat' split
          all_goals simp)
      · exact ⟨i1, hsc, fun _ => by simp only []; rw [i2, hsl], fun hty => by simp at hty⟩
    · rw [he]
      obtain ⟨i1, i2⟩ := lexNumberLoop_inStep (lx.skipWhitespace.source.length
        - lx.skipWhitespace.position) lx.skipWhitespace hs
      unfold Lexer.lexNumber
      simp only []
      exact ⟨i1, hsc, fun _ => by rw [i2, hsl], fun hty => by simp at hty⟩
    · rw [he]
      have i1 := lexStringLoop_inStep (lx.skipWhitespace.advance.source.length
        - lx.skipWhitespace.advance.position) "" lx.skipWhitespace.advance hadvs
      have i3 := lexStringLoop_source (lx.skipWhitespace.advance.source.length
        - lx.skipWhitespace.advance.position) "" lx.skipWhitespace.advance
      unfold Lexer.lexString
      simp only []
      refine ⟨i1, hsc, fun hty => absurd rfl hty, fun _ => ?_⟩
      rw [i1.2.1, i3, advance_source, hsrc]
    · subst hceq
      rw [he]
      unfold Lexer.lexAssignOrEqual
      simp only []
      split
      · rename_i h2
        have hadv2 := advance_of_ne_newline h2 (by decide)
        refine ⟨advance_inStep hadvs h2, hsc, fun _ => ?_, fun hty => by simp at hty⟩
        simp only []
        rw [hadv2, hadv]
        exact hsl
      · refine ⟨hadvs, hsc, fun _ => ?_, fun hty => by simp at hty⟩
        simp only []
        rw [hadv]
        exact hsl
    · rw [he]
      simp only [Lexer.single, Lexer.makeToken]
      refine ⟨hadvs, ?_, fun _ => ?_, fun h => absurd h hty⟩
      · rw [hadv, hv]
        simp only []
        rw [hsc]
        omega
      · rw [hadv]
        exact hsl

/-- A call of `getNextToken` leaves the source text as it is. -/
theorem getNextToken_source (lx : Lexer) : lx.getNextToken.2.source = lx.source := by
  have hsrc := skipWhitespace_source lx
  rcases getNextToken_cases lx with ⟨-, he⟩ | ⟨c, -, hcase⟩
  · rw [he]
    exact hsrc
  · rcases hcase with ⟨-, he⟩ | ⟨-, he⟩ | ⟨-, he⟩ | ⟨-, he⟩ | ⟨-, -, -, -, -, ty, v, he, -⟩
    · rw [he]
      unfold Lexer.lexBoolean
      simp only []
      split <;> (simp only []; rw [lexBooleanLoop_source, hsrc])
    · rw [he]
      unfold Lexer.lexNumber
      simp only []
      rw [lexNumberLoop_source, hsrc]
    · rw [he]
      unfold Lexer.lexString
      simp only []
      rw [lexStringLoop_source, advance_source, hsrc]
    · rw [he]
      unfold Lexer.lexAssignOrEqual
      simp only []
      split <;> simp [hsrc]
    · rw [he]
      simp [Lexer.single, hsrc]

/-- From the constructor on, after any number of calls, the counters of the scanner are
in step with its cursor, and the source text is the one it was constructed with. -/
theorem afterCalls_inStep (source : List Char) (k : Nat) :
    ((Lexer.new source).afterCalls k).InStep
      ∧ ((Lexer.new source).afterCalls k).source = source := by
  have key : ∀ (k : Nat) (lx : Lexer), lx.InStep →
      (lx.afterCalls k).InStep ∧ (lx.afterCalls k).source = lx.source := by
    intro k
    induction k with
    | zero => exact fun lx h => ⟨h, rfl⟩
    | succ k ih =>
      intro lx h
      obtain ⟨h1, h2⟩ := ih lx.getNextToken.2 (getNextToken_line_column lx h).1
      exact ⟨h1, by rw [Lexer.afterCalls, h2, getNextToken_source]⟩
  exact key k (Lexer.new source) (inStep_new source)

/-- The line and the column of a place in the source are at least 1 and at most 1 plus
the number of characters in front of it. -/
theorem lineAt_columnAt_le (source : List Char) (i : Nat) :
    1 ≤ lineAt source i ∧ lineAt source i ≤ 1 + (source.length : Int)
      ∧ 1 ≤ columnAt source i ∧ columnAt source i ≤ 1 + (source.length : Int) := by
  have h1 : (source.take i).count '\n' ≤ source.length :=
    Nat.le_trans (List.count_le_length _ _) (List.length_take_le' i source)
  have h2 : ((source.take i).reverse.takeWhile (· ≠ '\n')).length ≤ source.length := by
    refine Nat.le_trans (List.Sublist.length_le (List.takeWhile_sublist _)) ?_
    rw [List.length_reverse]
    exact List.length_take_le' i source
  simp only [lineAt, columnAt]
  omega

/-- On a source of fewer than `2^31 - 1` characters, counters in step with the cursor
hold values of the range of `int`: from such a state no `line++` or `column++` of
`Lexer::advance` overflows, since the state after it is in step again
(`advance_inStep`). -/
theorem inStep_int_range (lx : Lexer) (h : lx.InStep)
    (hlen : lx.source.length < 2 ^ 31 - 1) :
    1 ≤ lx.line ∧ lx.line ≤ 2 ^ 31 - 1 ∧ 1 ≤ lx.column ∧ lx.column ≤ 2 ^ 31 - 1 := by
  obtain ⟨-, hl, hc⟩ := h
  obtain ⟨h1, h2, h3, h4⟩ := lineAt_columnAt_le lx.source lx.position
  rw [hl, hc]
  norm_num at hlen ⊢
  omega

/-- On a source of fewer than `2^31 - 1` characters, the counters hold values of the
range of `int` after any number of calls of `getNextToken`. -/
theorem afterCalls_int_range (source : List Char) (k : Nat)
    (hlen : source.length < 2 ^ 31 - 1) :
    1 ≤ ((Lexer.new source).afterCalls k).line
      ∧ ((Lexer.new source).afterCalls k).line ≤ 2 ^ 31 - 1
      ∧ 1 ≤ ((Lexer.new source).afterCalls k).column
      ∧ ((Lexer.new source).afterCalls k).column ≤ 2 ^ 31 - 1 := by
  obtain ⟨h1, h2⟩ := afterCalls_inStep source k
  exact inStep_int_range _ h1 (by rw [h2]; exact hlen)

/-- C17 fails on the code: `Lexer::lexString` keeps the column of the opening quote and
pairs it with the line counter as it is after the scan. On the source of a string literal
with a newline in it, which starts at line 1, column 1, the token carries line 2 and
column 1: the line of its closing quote, not of its first character. -/
theorem string_literal_line_of_closing_quote :
    (Lexer.new ['"', 'a', '\n', 'b', '"']).getNextToken
      = (⟨.STRING_LITERAL, "a\nb", 2, 1⟩, ⟨['"', 'a', '\n', 'b', '"'], 5, 2, 3⟩)
    ∧ lineAt ['"', 'a', '\n', 'b', '"'] 0 = 1
    ∧ columnAt ['"', 'a', '\n', 'b', '"'] 0 = 1
    ∧ lineAt ['"', 'a', '\n', 'b', '"'] 5 = 2 := by
  decide

/-! ## The scanner: integers, white space and punctuation -/

/-- `skipWhitespace` on a run of white space that the end of the source or a character
that is no white space follows: the cursor ends right after the run. -/
theorem skipWhitespace_run (ws rest : List Char) (hws : ∀ c ∈ ws, isspace c = true)
    (hrest : ∀ c, rest.head? = some c → isspace c = false) :
    ∀ (lx : Lexer), lx.source.drop lx.position = ws ++ rest →
      lx.skipWhitespace.position = lx.position + ws.length := by
  induction ws with
  | nil =>
    intro lx hd
    simp only [List.nil_append] at hd
    cases hr : rest with
    | nil =>
      rw [hr] at hd
      have hn : lx.source[lx.position]? = none := by
        rw [List.getElem?_eq_none_iff]
        have := congrArg List.length hd
        simp at this
        omega
      rw [skipWhitespace_of_none hn]
      rfl
    | cons d rest1 =>
      rw [hr] at hd
      have h0 := (getElem?_cons_of_drop hd).1
      rw [skipWhitespace_of_not_space h0 (hrest d (by rw [hr]; rfl))]
      rfl
  | cons c ws ih =>
    intro lx hd
    simp only [List.cons_append] at hd
    obtain ⟨h0, hd1⟩ := getElem?_cons_of_drop hd
    have hc : isspace c = true := hws c (by simp)
    rw [skipWhitespace_eq, h0]
    simp only [hc, if_true]
    rw [ih (fun d hd => hws d (by simp [hd])) lx.advance (by simpa using hd1)]
    simp
    omega

/-- The loop of `lexNumber` on a run of digits that the end of the source or a character
that is no digit follows: it reads the whole run and stops there. -/
theorem lexNumberLoop_run (run rest : List Char) (hrun : ∀ c ∈ run, isdigit c = true)
    (hrest : ∀ c, rest.head? = some c → isdigit c = false) :
    ∀ (fuel : Nat) (lx : Lexer),
      lx.source.drop lx.position = run ++ rest → run.length ≤ fuel →
      lx.lexNumberLoop fuel
        = ⟨lx.source, lx.position + run.length, lx.line, lx.column + run.length⟩ := by
  induction run with
  | nil =>
    intro fuel lx hd _
    simp only [List.nil_append] at hd
    simp only [List.length_nil, Nat.add_zero, Nat.cast_zero, Int.add_zero]
    cases fuel with
    | zero => rfl
    | succ k =>
      cases hr : rest with
      | nil =>
        rw [hr] at hd
        have hn : lx.source[lx.position]? = none := by
          rw [List.getElem?_eq_none_iff]
          have := congrArg List.length hd
          simp at this
          omega
        simp only [Lexer.lexNumberLoop, hn]
      | cons d rest1 =>
        rw [hr] at hd
        have h0 := (getElem?_cons_of_drop hd).1
        have hna : isdigit d = false := hrest d (by rw [hr]; rfl)
        simp only [Lexer.lexNumberLoop, h0, hna]
        rfl
  | cons c run ih =>
    intro fuel lx hd hf
    obtain ⟨k, rfl⟩ : ∃ k, fuel = k + 1 := ⟨fuel - 1, by simp at hf; omega⟩
    simp only [List.cons_append] at hd
    obtain ⟨h0, hd1⟩ := getElem?_cons_of_drop hd
    have hc : isdigit c = true := hrun c (by simp)
    have hadv := advance_of_ne_newline h0 (isdigit_ne_newline hc)
    simp only [Lexer.lexNumberLoop, h0, hc, if_true]
    rw [hadv, ih (fun d hd => hrun d (by simp [hd])) k _ (by simpa using hd1)
      (by simp at hf; omega)]
    simp only [List.length_cons, Nat.cast_add, Nat.cast_one]
    congr 1
    · omega
    · omega

theorem isdigit_not_space {c : Char} (h : isdigit c = true) : isspace c = false := by
  cases hs : isspace c with
  | false => rfl
  | true =>
    exfalso
    simp only [isspace, Bool.or_eq_true, decide_eq_true_eq] at hs
    rcases hs with ((((rfl | rfl) | rfl) | rfl) | rfl) | rfl <;> exact absurd h (by decide)

theorem isdigit_not_alpha {c : Char} (h : isdigit c = true) :
    isalpha c = false ∧ c ≠ '_' ∧ c ≠ 'f' ∧ c ≠ 't' := by
  simp only [isdigit, Char.isDigit, Bool.and_eq_true, decide_eq_true_eq] at h
  obtain ⟨h1, h2⟩ := h
  have h1 : 48 ≤ c.val.toNat := h1
  have h2 : c.val.toNat ≤ 57 := h2
  refine ⟨?_, ?_, ?_, ?_⟩
  · cases ha : isalpha c with
    | false => rfl
    | true =>
      exfalso
      simp only [isalpha, Char.isAlpha, Char.isUpper, Char.isLower, Bool.or_eq_true,
        Bool.and_eq_true, decide_eq_true_eq] at ha
      rcases ha with ⟨h3, -⟩ | ⟨h3, -⟩
      · have h3 : 65 ≤ c.val.toNat := h3
        omega
      · have h3 : 97 ≤ c.val.toNat := h3
        omega
  · rintro rfl
    exact absurd h2 (by decide)
  · rintro rfl
    exact absurd h2 (by decide)
  · rintro rfl
    exact absurd h2 (by decide)

/-- C21: on a source made of white space, then a non-empty run of digits, then the end of
the source or a character that is no digit, `Lexer::getNextToken` returns an integer
literal whose text is exactly the run of digits, and leaves the cursor right after the
run. -/
theorem getNextToken_integer (ws digits rest : List Char)
    (hws : ∀ c ∈ ws, isspace c = true) (hne : digits ≠ [])
    (hdigits : ∀ c ∈ digits, isdigit c = true)
    (hrest : ∀ c, rest.head? = some c → isdigit c = false) :
    (Lexer.new (ws ++ digits ++ rest)).getNextToken.1.type = .INT_LITERAL
    ∧ (Lexer.new (ws ++ digits ++ rest)).getNextToken.1.value = ⟨digits⟩
    ∧ (Lexer.new (ws ++ digits ++ rest)).getNextToken.2.position
      = ws.length + digits.length := by
  obtain ⟨d, ds, rfl⟩ : ∃ d ds, digits = d :: ds := by
    cases digits with
    | nil => exact absurd rfl hne
    | cons d ds => exact ⟨d, ds, rfl⟩
  have hd : isdigit d = true := hdigits d (by simp)
  have hsrc := skipWhitespace_source (Lexer.new (ws ++ (d :: ds) ++ rest))
  have hpos := skipWhitespace_run ws ((d :: ds) ++ rest) hws
    (by intro c hc; simp at hc; subst hc; exact isdigit_not_space hd)
    (Lexer.new (ws ++ (d :: ds) ++ rest)) (by simp [Lexer.new])
  simp only [Lexer.new, Nat.zero_add] at hsrc hpos
  have hdrop : (Lexer.skipWhitespace ⟨ws ++ (d :: ds) ++ rest, 0, 1, 1⟩).source.drop
      (Lexer.skipWhitespace ⟨ws ++ (d :: ds) ++ rest, 0, 1, 1⟩).position
      = (d :: ds) ++ rest := by
    rw [hsrc, hpos]
    simp
  have h0 := (@getElem?_cons_of_drop _ _ _ d (ds ++ rest) hdrop).1
  obtain ⟨na, nu, nf, nt⟩ := isdigit_not_alpha hd
  have hg : (Lexer.new (ws ++ (d :: ds) ++ rest)).getNextToken
      = (Lexer.skipWhitespace ⟨ws ++ (d :: ds) ++ rest, 0, 1, 1⟩).lexNumber := by
    unfold Lexer.getNextToken
    simp only [Lexer.new]
    rw [h0]
    simp only []
    rw [if_neg (by simp [nf, nt]), if_neg (by simp [na, nu]), if_pos hd]
  have hlen : (d :: ds).length ≤
      (Lexer.skipWhitespace ⟨ws ++ (d :: ds) ++ rest, 0, 1, 1⟩).source.length
        - (Lexer.skipWhitespace ⟨ws ++ (d :: ds) ++ rest, 0, 1, 1⟩).position := by
    rw [hsrc, hpos]
    simp
  have hl := lexNumberLoop_run (d :: ds) rest hdigits hrest _ _ hdrop hlen
  rw [hg]
  unfold Lexer.lexNumber
  simp only []
  rw [hl]
  refine ⟨trivial, ?_, ?_⟩
  · simp only [Nat.add_sub_cancel_left, substr]
    rw [hdrop]
    simp
  · simp only []
    rw [hpos]

/-- The instances `123` and `  42;` of `getNextToken_integer`. -/
theorem getNextToken_integer_witness :
    ((Lexer.new ['1', '2', '3']).getNextToken.1.type = .INT_LITERAL
      ∧ (Lexer.new ['1', '2', '3']).getNextToken.1.value = "123"
      ∧ (Lexer.new ['1', '2', '3']).getNextToken.2.position = 3)
    ∧ ((Lexer.new [' ', ' ', '4', '2', ';']).getNextToken.1.type = .INT_LITERAL
      ∧ (Lexer.new [' ', ' ', '4', '2', ';']).getNextToken.1.value = "42"
      ∧ (Lexer.new [' ', ' ', '4', '2', ';']).getNextToken.2.position = 4) :=
  ⟨getNextToken_integer [] ['1', '2', '3'] [] (by decide) (by decide) (by decide)
      (by decide),
    getNextToken_integer [' ', ' '] ['4', '2'] [';'] (by decide) (by decide) (by decide)
      (by decide)⟩

/-- On a source made of white space only, `getNextToken` returns the end-of-input token
at the line and column of the end of the source, with the cursor at the end. -/
theorem getNextToken_all_space (source : List Char) (h : ∀ c ∈ source, isspace c = true) :
    (Lexer.new source).getNextToken
      = (⟨.END_OF_FILE, "", lineAt source source.length, columnAt source source.length⟩,
          ⟨source, source.length, lineAt source source.length,
            columnAt source source.length⟩) := by
  have hsrc := skipWhitespace_source (Lexer.new source)
  have hpos := skipWhitespace_run source [] h (by simp) (Lexer.new source)
    (by simp [Lexer.new])
  obtain ⟨-, hl, hc⟩ := skipWhitespace_inStep (Lexer.new source) (inStep_new source)
  simp only [Lexer.new, Nat.zero_add] at hsrc hpos hl hc
  rw [hsrc, hpos] at hl hc
  have hn : (Lexer.skipWhitespace ⟨source, 0, 1, 1⟩).source[
      (Lexer.skipWhitespace ⟨source, 0, 1, 1⟩).position]? = none := by
    rw [hsrc, hpos]
    exact List.getElem?_eq_none_iff.mpr (Nat.le_refl _)
  have hstate : Lexer.skipWhitespace ⟨source, 0, 1, 1⟩
      = ⟨source, source.length, lineAt source source.length,
          columnAt source source.length⟩ := by
    cases hs : Lexer.skipWhitespace ⟨source, 0, 1, 1⟩ with
    | mk s p l c =>
      rw [hs] at hsrc hpos hl hc
      simp only at hsrc hpos hl hc
      rw [hsrc, hpos, hl, hc]
  unfold Lexer.getNextToken
  simp only [Lexer.new]
  rw [hn]
  simp only [Lexer.makeToken, hstate]
  simp

/-- C23: for every source made only of spaces, tabs, newlines and carriage returns, the
empty source included, and of fewer than `2^31 - 1` characters, so that the `int`
counters do not overflow, the first call of `Lexer::getNextToken` returns the
end-of-input token, with the line 1 plus the number of newlines in the source and the
column 1 plus the number of characters after the last newline; both are values of the
range of `int`. -/
theorem getNextToken_whitespace (source : List Char)
    (h : ∀ c ∈ source, c = ' ' ∨ c = '\t' ∨ c = '\n' ∨ c = '\r')
    (hlen : source.length < 2 ^ 31 - 1) :
    (Lexer.new source).getNextToken.1
        = ⟨.END_OF_FILE, "", 1 + (source.count '\n' : Nat),
            1 + ((source.reverse.takeWhile (· ≠ '\n')).length : Nat)⟩
      ∧ (1 + (source.count '\n' : Nat) : Int) ≤ 2 ^ 31 - 1
      ∧ (1 + ((source.reverse.takeWhile (· ≠ '\n')).length : Nat) : Int) ≤ 2 ^ 31 - 1 := by
  have hs : ∀ c ∈ source, isspace c = true := by
    intro c hc
    rcases h c hc with rfl | rfl | rfl | rfl <;> decide
  have hr := inStep_int_range (Lexer.new source).getNextToken.2
    (getNextToken_line_column _ (inStep_new source)).1
    (by rw [getNextToken_source]; exact hlen)
  rw [getNextToken_all_space source hs] at hr ⊢
  simp only [lineAt, columnAt, List.take_length] at hr ⊢
  exact ⟨trivial, hr.2.1, hr.2.2.2⟩

/-- The instances of the empty source and of a source of two lines and three more
characters of `getNextToken_whitespace`. -/
theorem getNextToken_whitespace_witness :
    ((Lexer.new []).getNextToken.1 = ⟨.END_OF_FILE, "", 1, 1⟩
      ∧ (1 : Int) ≤ 2 ^ 31 - 1 ∧ (1 : Int) ≤ 2 ^ 31 - 1)
    ∧ ((Lexer.new [' ', '\n', '\t', '\r', '\n', ' ', ' ', '\t']).getNextToken.1
        = ⟨.END_OF_FILE, "", 3, 4⟩
      ∧ (3 : Int) ≤ 2 ^ 31 - 1 ∧ (4 : Int) ≤ 2 ^ 31 - 1) :=
  ⟨getNextToken_whitespace [] (by decide) (by decide),
    getNextToken_whitespace [' ', '\n', '\t', '\r', '\n', ' ', ' ', '\t'] (by decide)
      (by decide)⟩

/-- The one-character tokens other than `[`: with the cursor on the character,
`getNextToken` returns the token with that character as its text and the kind of the
table, at the line and column of the character, and moves the cursor by one. -/
theorem getNextToken_punctuation (lx : Lexer) (c : Char) (type : TokenType)
    (hc : (c, type) ∈ punctuation) (h : lx.source[lx.position]? = some c) :
    lx.getNextToken
      = (⟨type, String.singleton c, lx.line, lx.column⟩,
          ⟨lx.source, lx.position + 1, lx.line, lx.column + 1⟩) := by
  have e : ∀ (x : Int) (w : String), w.length = 1 → x + 1 - (w.length : Int) = x := by
    intro x w hw
    rw [hw]
    omega
  have key : ∀ x ∈ punctuation, lx.source[lx.position]? = some x.1 →
      lx.getNextToken
        = (⟨x.2, String.singleton x.1, lx.line, lx.column⟩,
            ⟨lx.source, lx.position + 1, lx.line, lx.column + 1⟩) := by
    simp only [punctuation, List.forall_mem_cons]
    repeat' apply And.intro
    all_goals first
      | (intro x hx; cases hx)
      | (intro h0
         have hs := skipWhitespace_of_not_space h0 (by decide)
         have hadv := advance_of_ne_newline h0 (by decide)
         unfold Lexer.getNextToken
         simp only []
         rw [hs, h0]
         simp only [Lexer.single, Lexer.makeToken, hadv]
         rw [if_neg (by decide), if_neg (by decide)]
         refine Prod.ext ?_ rfl
         simp only []
         exact congrArg₂ (fun v (k : Int) => (⟨_, v, lx.line, k⟩ : Token)) (by decide)
           (e _ _ (by decide)))
  exact key (c, type) hc h

/-- C22 fails on the code: on `[` the call of `Lexer::getNextToken` returns a token whose
text is `]`, not `[`; the tokens of `[` and of `]` differ in their kind only. Each of the
other eleven characters gives a token with the character as its text, a kind of its own,
and the cursor moved by one. -/
theorem getNextToken_left_bracket_text :
    (Lexer.new ['[']).getNextToken = (⟨.LEFT_BRACE, "]", 1, 1⟩, ⟨['['], 1, 1, 2⟩)
    ∧ (Lexer.new [']']).getNextToken = (⟨.RIGHT_BRACE, "]", 1, 1⟩, ⟨[']'], 1, 1, 2⟩)
    ∧ (∀ (lx : Lexer) (c : Char) (type : TokenType), (c, type) ∈ punctuation →
        lx.source[lx.position]? = some c →
        lx.getNextToken
          = (⟨type, String.singleton c, lx.line, lx.column⟩,
              ⟨lx.source, lx.position + 1, lx.line, lx.column + 1⟩))
    ∧ (punctuation.map Prod.fst).Nodup ∧ (punctuation.map Prod.snd).Nodup
    ∧ TokenType.LEFT_BRACE ∉ punctuation.map Prod.snd :=
  ⟨by decide, by decide, getNextToken_punctuation, by decide, by decide, by decide⟩

/-! ## The scanner: kinds that are never produced -/

/-- No entry of the keyword table has one of the kinds in `neverKinds`. -/
theorem lookup_keywords_not_never (w : String) (ty : TokenType)
    (h : keywords.lookup w = some ty) : ty ∉ neverKinds := by
  revert h
  simp only [keywords, List.lookup]
  repeat' split
  all_goals
    intro h
    first
      | (cases h; decide)
      | exact absurd h (by simp)

/-- The kinds of the one-character tokens: none is in `neverKinds`. -/
theorem getNextToken_single_not_never (lx : Lexer) (c : Char)
    (hd : lx.skipWhitespace.source[lx.skipWhitespace.position]? = some c)
    (h1 : isalpha c = false) (h2 : c ≠ '_') (h3 : isdigit c = false) (h4 : c ≠ '"')
    (h5 : c ≠ '=') :
    ∃ type value, lx.getNextToken = lx.skipWhitespace.single type value
      ∧ type ∉ neverKinds := by
  have hf : ¬(c = 'f' ∨ c = 't') := by
    rintro (rfl | rfl) <;> exact absurd h1 (by decide)
  unfold Lexer.getNextToken
  simp only []
  rw [hd]
  simp only []
  generalize lx.skipWhitespace = s
  rw [if_neg hf, if_neg (by simp [h1, h2]), if_neg (by simp [h3]), if_neg h4]
  have key := @ite_of_both (Token × Lexer) (fun r => ∃ type value,
    r = s.single type value ∧ type ∉ neverKinds)
  repeat (first
    | exact ⟨_, _, rfl, by decide⟩
    | (rw [if_neg h5])
    | refine key _ _ _ ?_ ?_)

/-- The kind of a token of `getNextToken` is never one of `neverKinds`. -/
theorem getNextToken_type_not_never (lx : Lexer) : lx.getNextToken.1.type ∉ neverKinds := by
  rcases getNextToken_cases lx with ⟨-, he⟩ | ⟨c, hc, hcase⟩
  · rw [he]
    simp only [Lexer.makeToken]
    decide
  · rcases hcase with ⟨-, he⟩ | ⟨-, he⟩ | ⟨-, he⟩ | ⟨-, he⟩ | ⟨h1, h2, h3, h4, h5, -⟩
    · rw [he]
      unfold Lexer.lexBoolean
      simp only []
      split
      · rename_i ty hl
        exact lookup_keywords_not_never _ ty hl
      · simp only []
        decide
    · rw [he]
      simp only [Lexer.lexNumber]
      decide
    · rw [he]
      simp only [Lexer.lexString]
      decide
    · rw [he]
      unfold Lexer.lexAssignOrEqual
      simp only []
      split <;> (simp only []; decide)
    · obtain ⟨ty, v, he, hty⟩ := getNextToken_single_not_never lx c hc h1 h2 h3 h4 h5
      rw [he]
      exact hty

/-- The tokens of a scan to the end of the input: none has a kind of `neverKinds`. -/
theorem tokenize_not_never (fuel : Nat) :
    ∀ (lx : Lexer) (toks : List Token), Lexer.tokenize fuel lx = some toks →
      ∀ t ∈ toks, t.type ∉ neverKinds := by
  induction fuel with
  | zero =>
    intro lx toks h
    simp [Lexer.tokenize] at h
  | succ k ih =>
    intro lx toks h t ht
    rw [Lexer.tokenize] at h
    split at h
    · cases h
      rw [List.mem_singleton.mp ht]
      exact getNextToken_type_not_never lx
    · cases hr : Lexer.tokenize k lx.getNextToken.2 with
      | none => rw [hr] at h; simp at h
      | some rest =>
        rw [hr] at h
        simp only [Option.map_some', Option.some.injEq] at h
        subst h
        rcases List.mem_cons.mp ht with rfl | hm
        · exact getNextToken_type_not_never lx
        · exact ih _ rest hr t hm

/-- `match` on kinds that no token of the array has: nothing is matched. -/
theorem match_absent (T : List TokenType) (p : Parser)
    (h : ∀ t ∈ p.tokens, t.type ∉ T) (hc : p.current < p.tokens.length) :
    «match» T p = .ok false p := by
  have hs : p.tokens[p.current]? = some p.tokens[p.current] := List.getElem?_eq_getElem hc
  exact run_match_false hs (h _ (List.getElem?_mem hs))

/-- With the cursor on `*`, `/`, `<` or `>`, `getNextToken` returns an unknown token with
that character as its text and moves the cursor by one. -/
theorem getNextToken_operator_unknown (lx : Lexer) (c : Char)
    (hc : c ∈ ['*', '/', '<', '>']) (h : lx.source[lx.position]? = some c) :
    lx.getNextToken
      = (⟨.UNKNOWN, String.singleton c, lx.line, lx.column⟩,
          ⟨lx.source, lx.position + 1, lx.line, lx.column + 1⟩) := by
  have hns : isspace c = false := by
    simp only [List.mem_cons, List.mem_singleton, List.not_mem_nil, or_false] at hc
    rcases hc with rfl | rfl | rfl | rfl <;> decide
  have hnl : c ≠ '\n' := by
    rintro rfl
    exact absurd hns (by decide)
  have hs := skipWhitespace_of_not_space h hns
  have hadv := advance_of_ne_newline h hnl
  unfold Lexer.getNextToken
  simp only []
  rw [hs, h]
  simp only [Lexer.single, Lexer.makeToken, hadv]
  simp only [List.mem_cons, List.mem_singleton, List.not_mem_nil, or_false] at hc
  rcases hc with rfl | rfl | rfl | rfl
  all_goals
    rw [if_neg (by decide), if_neg (by decide)]
    refine Prod.ext ?_ rfl
    simp only []
    refine congrArg₂ (fun v (k : Int) => (⟨_, v, lx.line, k⟩ : Token)) rfl ?_
    have e : ∀ (x : Int) (w : String), w.length = 1 → x + 1 - (w.length : Int) = x := by
      intro x w hw
      rw [hw]
      omega
    exact e _ _ (by decide)

/-- C26: for every scanner state, the token that `Lexer::getNextToken` returns never has
one of the kinds FLOAT_LITERAL, MULTIPLY, DIVIDE, NOT_EQUAL, LESS_THAN,
LESS_THAN_OR_EQUAL, GREATER_THAN, GREATER_THAN_OR_EQUAL, KEYWORD, NEW_LINE, COMMENT; the
characters `*`, `/`, `<` and `>` each give a one-character unknown token; and on the
tokens of a scan of any source to its end, the `match` calls of `Parser::multiplication`
and of `Parser::comparison` find no operator at any cursor. -/
theorem getNextToken_never_kinds (lx : Lexer) :
    lx.getNextToken.1.type ∉ neverKinds
    ∧ (∀ c ∈ ['*', '/', '<', '>'], lx.source[lx.position]? = some c →
        lx.getNextToken
          = (⟨.UNKNOWN, String.singleton c, lx.line, lx.column⟩,
              ⟨lx.source, lx.position + 1, lx.line, lx.column + 1⟩))
    ∧ (∀ fuel toks, Lexer.tokenize fuel lx = some toks →
        (∀ t ∈ toks, t.type ∉ neverKinds)
        ∧ ∀ c errs, c < toks.length →
          «match» [.MULTIPLY, .DIVIDE] ⟨toks, c, errs⟩ = .ok false ⟨toks, c, errs⟩
          ∧ «match» [.LESS_THAN, .LESS_THAN_OR_EQUAL, .GREATER_THAN, .GREATER_THAN_OR_EQUAL]
              ⟨toks, c, errs⟩ = .ok false ⟨toks, c, errs⟩) := by
  refine ⟨getNextToken_type_not_never lx, fun c hc h => getNextToken_operator_unknown lx c hc h,
    fun fuel toks h => ⟨tokenize_not_never fuel lx toks h, fun c errs hc => ⟨?_, ?_⟩⟩⟩
  · refine match_absent _ ⟨toks, c, errs⟩ (fun t ht hm => ?_) hc
    refine tokenize_not_never fuel lx toks h t ht ?_
    simp only [List.mem_cons, List.mem_singleton, List.not_mem_nil, or_false] at hm
    rcases hm with hm | hm <;> (rw [hm]; decide)
  · refine match_absent _ ⟨toks, c, errs⟩ (fun t ht hm => ?_) hc
    refine tokenize_not_never fuel lx toks h t ht ?_
    simp only [List.mem_cons, List.mem_singleton, List.not_mem_nil, or_false] at hm
    rcases hm with hm | hm | hm | hm <;> (rw [hm]; decide)

/-- The instance `*` of `getNextToken_never_kinds`. -/
theorem getNextToken_never_kinds_witness :
    (Lexer.new ['*']).getNextToken = (⟨.UNKNOWN, "*", 1, 1⟩, ⟨['*'], 1, 1, 2⟩) :=
  (getNextToken_never_kinds (Lexer.new ['*'])).2.1 '*' (by decide) rfl

/-! ## The scanner and the parser on block delimiters -/

/-- C25 fails on the code: the scanner gives `{` and `}` the kinds LEFT_BRACKET and
RIGHT_BRACKET, and `Parser::block` asks for LEFT_BRACE and RIGHT_BRACE. The scan of
`function f() { }` to its end gives seven tokens; on them `Parser::parse` returns no
statement and the diagnostic that it expected an opening brace, at the token of `{`. On
the same tokens with the kinds that `block` asks for, it returns one statement and no
diagnostic. -/
theorem scanner_and_parser_disagree_on_braces :
    Lexer.tokenize 7 (Lexer.new ['f', 'u', 'n', 'c', 't', 'i', 'o', 'n', ' ', 'f', '(', ')',
        ' ', '\x7b', ' ', '\x7d'])
      = some [⟨.FUNCTION, "function", 1, 1⟩, ⟨.IDENTIFIER, "f", 1, 10⟩,
          ⟨.LEFT_PARENTHESIS, "(", 1, 11⟩, ⟨.RIGHT_PARENTHESIS, ")", 1, 12⟩,
          ⟨.LEFT_BRACKET, "\x7b", 1, 14⟩, ⟨.RIGHT_BRACKET, "\x7d", 1, 16⟩,
          ⟨.END_OF_FILE, "", 1, 17⟩]
    ∧ parseSummary (parse [⟨.FUNCTION, "function", 1, 1⟩, ⟨.IDENTIFIER, "f", 1, 10⟩,
          ⟨.LEFT_PARENTHESIS, "(", 1, 11⟩, ⟨.RIGHT_PARENTHESIS, ")", 1, 12⟩,
          ⟨.LEFT_BRACKET, "\x7b", 1, 14⟩, ⟨.RIGHT_BRACKET, "\x7d", 1, 16⟩,
          ⟨.END_OF_FILE, "", 1, 17⟩])
      = some (0, 6, [(⟨.LEFT_BRACKET, "\x7b", 1, 14⟩, "Expected \x27\x7b\x27 to start block")])
    ∧ parseSummary (parse [⟨.FUNCTION, "function", 1, 1⟩, ⟨.IDENTIFIER, "f", 1, 10⟩,
          ⟨.LEFT_PARENTHESIS, "(", 1, 11⟩, ⟨.RIGHT_PARENTHESIS, ")", 1, 12⟩,
          ⟨.LEFT_BRACE, "\x7b", 1, 14⟩, ⟨.RIGHT_BRACE, "\x7d", 1, 16⟩,
          ⟨.END_OF_FILE, "", 1, 17⟩])
      = some (1, 6, []) := by
  decide!

/-! ## The postcondition of synchronize -/

theorem notAtEnd_lt {ts : List Token} {e c : Nat} {errs : List (Token × String)}
    (he : EofAt ts e) (hc : c ≤ e) (hn : NotAtEnd ⟨ts, c, errs⟩) : c < e := by
  obtain ⟨t, ht, hty⟩ := he
  obtain ⟨u, hu, huty⟩ := hn
  rcases Nat.lt_or_ge c e with h | h
  · exact h
  · have : c = e := Nat.le_antisymm hc h
    subst this
    simp only at hu
    rw [ht] at hu
    cases hu
    exact absurd hty huty

/-- C24, amended: entered with the cursor `c` on a token that is not the end-of-input
token, `Parser::synchronize` returns with the cursor at some `s` beyond `c`, not beyond
the end-of-input token, where one of its three reasons to stop holds: the cursor is on the
end-of-input token, or the token before the cursor is a `;`, or the token at the cursor
starts a statement-level construct. `s` is the first such place: of the discarded tokens,
those at `c`, ..., `s - 1`, only the last one can be a `;`, and none after the first is
the end-of-input token or starts a statement-level construct. -/
theorem synchronize_postcondition (tokens : List Token) (e c : Nat)
    (errs : List (Token × String)) (he : EofAt tokens e) (hc : c ≤ e)
    (hn : NotAtEnd ⟨tokens, c, errs⟩) :
    ∃ s, synchronize ⟨tokens, c, errs⟩ = .ok () ⟨tokens, s, errs⟩
      ∧ c < s ∧ s ≤ e ∧ SyncStop tokens s
      ∧ (∀ i t, c ≤ i → i + 1 < s → tokens[i]? = some t → t.type ≠ .SEMI_COLON)
      ∧ (∀ i t, c < i → i < s → tokens[i]? = some t →
          t.type ≠ .END_OF_FILE ∧ t.type ∉ syncKinds) := by
  classical
  have hce := notAtEnd_lt he hc hn
  have hlt := he.lt_length
  have hex : ∃ s, c < s ∧ SyncStop tokens s := ⟨e, hce, Or.inl he⟩
  have hs := Nat.find_spec hex
  have hmin : ∀ m, m < Nat.find hex → ¬(c < m ∧ SyncStop tokens m) :=
    fun m hm => Nat.find_min hex hm
  have hse : Nat.find hex ≤ e := Nat.find_min' hex ⟨hce, Or.inl he⟩
  have hclean : ∀ i t, c < i → i < Nat.find hex → tokens[i]? = some t →
      t.type ≠ .END_OF_FILE ∧ t.type ∉ syncKinds := by
    intro i t h1 h2 h3
    constructor
    · intro h4
      exact hmin i h2 ⟨h1, Or.inl ⟨t, h3, h4⟩⟩
    · intro h4
      exact hmin i h2 ⟨h1, Or.inr (Or.inr ⟨t, h3, h4⟩)⟩
  have hsemi : ∀ i t, c ≤ i → i + 1 < Nat.find hex → tokens[i]? = some t →
      t.type ≠ .SEMI_COLON := by
    intro i t h1 h2 h3 h4
    exact hmin (i + 1) h2 ⟨by omega, Or.inr (Or.inl ⟨t, by simpa using h3, h4⟩)⟩
  refine ⟨Nat.find hex, ?_, hs.1, hse, hs.2, hsemi, hclean⟩
  obtain ⟨u, hu, huty⟩ := hn
  exact synchronize_stops tokens errs c (Nat.find hex) hs.1 (by omega)
    (fun t ht => by
      simp only at hu
      rw [hu] at ht
      cases ht
      exact huty)
    hs.2 hclean hsemi

/-- The instance of `synchronize_postcondition` on `1 2 ; 3 ;` with the cursor on `2`. -/
theorem synchronize_postcondition_witness :
    ∃ s, synchronize ⟨[tok .INT_LITERAL "1", tok .INT_LITERAL "2", tok .SEMI_COLON ";",
          tok .INT_LITERAL "3", tok .SEMI_COLON ";", tok .END_OF_FILE ""], 1, []⟩
        = .ok () ⟨[tok .INT_LITERAL "1", tok .INT_LITERAL "2", tok .SEMI_COLON ";",
          tok .INT_LITERAL "3", tok .SEMI_COLON ";", tok .END_OF_FILE ""], s, []⟩
      ∧ 1 < s ∧ s ≤ 5
      ∧ SyncStop [tok .INT_LITERAL "1", tok .INT_LITERAL "2", tok .SEMI_COLON ";",
          tok .INT_LITERAL "3", tok .SEMI_COLON ";", tok .END_OF_FILE ""] s
      ∧ (∀ i t, 1 ≤ i → i + 1 < s →
          [tok .INT_LITERAL "1", tok .INT_LITERAL "2", tok .SEMI_COLON ";",
            tok .INT_LITERAL "3", tok .SEMI_COLON ";", tok .END_OF_FILE ""][i]? = some t →
          t.type ≠ .SEMI_COLON)
      ∧ (∀ i t, 1 < i → i < s →
          [tok .INT_LITERAL "1", tok .INT_LITERAL "2", tok .SEMI_COLON ";",
            tok .INT_LITERAL "3", tok .SEMI_COLON ";", tok .END_OF_FILE ""][i]? = some t →
          t.type ≠ .END_OF_FILE ∧ t.type ∉ syncKinds) :=
  synchronize_postcondition
    [tok .INT_LITERAL "1", tok .INT_LITERAL "2", tok .SEMI_COLON ";",
      tok .INT_LITERAL "3", tok .SEMI_COLON ";", tok .END_OF_FILE ""] 5 1 []
    ⟨tok .END_OF_FILE "", rfl, rfl⟩ (by decide) ⟨tok .INT_LITERAL "2", rfl, by decide⟩

/-- C24 fails as stated, with the stopping point read as the cursor on return: on
`1 2 ; 3 ;`, entered with the cursor on `2` (index 1), `Parser::synchronize` discards
`2` and `;` and returns with the cursor on `3` (index 3). The `;` at index 2 lies strictly
between the first discarded token and the cursor on return: the last discarded token can
be a `;`, and is one whenever that is the reason to stop. -/
theorem synchronize_discards_semicolon :
    synchronize ⟨[tok .INT_LITERAL "1", tok .INT_LITERAL "2", tok .SEMI_COLON ";",
        tok .INT_LITERAL "3", tok .SEMI_COLON ";", tok .END_OF_FILE ""], 1, []⟩
      = .ok () ⟨[tok .INT_LITERAL "1", tok .INT_LITERAL "2", tok .SEMI_COLON ";",
        tok .INT_LITERAL "3", tok .SEMI_COLON ";", tok .END_OF_FILE ""], 3, []⟩
    ∧ [tok .INT_LITERAL "1", tok .INT_LITERAL "2", tok .SEMI_COLON ";",
        tok .INT_LITERAL "3", tok .SEMI_COLON ";", tok .END_OF_FILE ""][2]?
      = some (tok .SEMI_COLON ";")
    ∧ 1 < 2 ∧ 2 < 3 :=
  ⟨rfl, rfl, by decide, by decide⟩

/-! ## Cursor safety -/

/-- A call that is sound for every bound on the diagnostics of a throw does not throw:
it returns, inside the token array. -/
theorem sound_returns {ts : List Token} {e : Nat} {α : Type} {m : P α} {p : Parser}
    {Q : α → Parser → Prop} (h : ∀ o, Sound ts e o m p Q) (ht : p.tokens = ts)
    (hc : p.current ≤ e) :
    ∃ a q, m p = .ok a q ∧ q.tokens = ts ∧ p.current ≤ q.current ∧ q.current ≤ e ∧ Q a q := by
  cases hr : m p with
  | ok a q =>
    have := h 0 ht hc
    rw [hr] at this
    exact ⟨a, q, rfl, this.1, this.2.1, this.2.2.1, this.2.2.2.2⟩
  | raised q =>
    have := h q.errors.length ht hc
    rw [hr] at this
    exact absurd this.2.2.2.2 (Nat.lt_irrefl _)
  | outOfBounds =>
    have := h 0 ht hc
    rw [hr] at this
    exact absurd this id
  | noFuel =>
    have := h 0 ht hc
    rw [hr] at this
    exact absurd this id

/-- C27: on a token array that holds an end-of-input token at index `e`, the first such
index included, `Parser::parse` returns with the cursor not beyond `e` and without an
access outside the array: in the model such an access, `previous()` at cursor 0 included,
ends the call as `outOfBounds`, and nothing catches that. The same holds for the parts of
the run, from every cursor up to `e`: a round of the loop of `program` returns with the
cursor between its start and `e`; `declaration` returns or throws so, and after a throw
the cursor is beyond 0 or not on the end-of-input token, which is what the `advance()` at
the start of `synchronize` needs; `synchronize`, entered so, returns with the cursor not
beyond `e`; `peek()` reads inside the array, and so does `previous()` with the cursor
beyond 0. -/
theorem parse_cursor_safe (tokens : List Token) (e : Nat) (he : EofAt tokens e) :
    (∃ ds q, parse tokens = .ok ds q ∧ q.tokens = tokens ∧ q.current ≤ e)
    ∧ (∀ c errs ds, c ≤ e → ∃ st q,
        programRound (parseFuel tokens) ds ⟨tokens, c, errs⟩ = .ok st q
          ∧ q.tokens = tokens ∧ c ≤ q.current ∧ q.current ≤ e)
    ∧ (∀ c errs, c ≤ e →
        (∃ s q, declaration (parseFuel tokens) ⟨tokens, c, errs⟩ = .ok s q
          ∧ q.tokens = tokens ∧ c ≤ q.current ∧ q.current ≤ e)
        ∨ (∃ q, declaration (parseFuel tokens) ⟨tokens, c, errs⟩ = .raised q
          ∧ q.tokens = tokens ∧ c ≤ q.current ∧ q.current ≤ e
          ∧ (NotAtEnd ⟨tokens, c, errs⟩ → 0 < q.current ∨ NotAtEnd q)))
    ∧ (∀ c errs, c ≤ e → (0 < c ∨ NotAtEnd ⟨tokens, c, errs⟩) →
        ∃ q, synchronize ⟨tokens, c, errs⟩ = .ok () q
          ∧ q.tokens = tokens ∧ c ≤ q.current ∧ q.current ≤ e)
    ∧ (∀ c errs, c ≤ e → ∃ t, peek ⟨tokens, c, errs⟩ = .ok t ⟨tokens, c, errs⟩)
    ∧ (∀ c errs, 0 < c → c ≤ e →
        ∃ t, previous ⟨tokens, c, errs⟩ = .ok t ⟨tokens, c, errs⟩)
    ∧ (∀ errs, previous ⟨tokens, 0, errs⟩ = .outOfBounds)
    ∧ (∀ c errs, tokens.length ≤ c → peek ⟨tokens, c, errs⟩ = .outOfBounds) := by
  have hlt := he.lt_length
  refine ⟨?_, ?_, ?_, ?_, ?_, ?_, ?_, ?_⟩
  · obtain ⟨ds, q, h1, h2, -, h4, -⟩ := sound_returns
      (fun o => @sound_program tokens e o he (parseFuel tokens) (Parser.new tokens)
        (by simp [parseFuel, Parser.new]; omega)) rfl (Nat.zero_le _)
    exact ⟨ds, q, h1, h2, h4⟩
  · intro c errs ds hc
    obtain ⟨st, q, h1, h2, h3, h4, -⟩ := sound_returns
      (fun o => @sound_programRound tokens e o he (parseFuel tokens) ds ⟨tokens, c, errs⟩
        (by simp [parseFuel]; omega)) rfl hc
    exact ⟨st, q, h1, h2, h3, h4⟩
  · intro c errs hc
    have hd := (sound_rules he (parseFuel tokens)).1 ⟨tokens, c, errs⟩ errs.length
      (Nat.le_refl _) (by simp [parseFuel]; omega) rfl hc
    cases hr : declaration (parseFuel tokens) ⟨tokens, c, errs⟩ with
    | ok s q =>
      rw [hr] at hd
      exact Or.inl ⟨s, q, rfl, hd.1, hd.2.1, hd.2.2.1⟩
    | raised q =>
      rw [hr] at hd
      refine Or.inr ⟨q, rfl, hd.1, hd.2.1, hd.2.2.1, fun hn => ?_⟩
      by_cases h0 : q.current = c
      · right
        obtain ⟨t, h1, h2⟩ := hn
        exact ⟨t, by rw [hd.1, h0]; exact h1, h2⟩
      · left
        have := hd.2.1
        simp only at this
        omega
    | outOfBounds => rw [hr] at hd; exact absurd hd id
    | noFuel => rw [hr] at hd; exact absurd hd id
  · intro c errs hc h
    obtain ⟨u, q, h1, h2, h3, h4, -⟩ := sound_returns
      (fun o => @sound_synchronize tokens e o he ⟨tokens, c, errs⟩ h) rfl hc
    exact ⟨q, h1, h2, h3, h4⟩
  · intro c errs hc
    have hcl : c < tokens.length := by omega
    exact ⟨tokens[c], run_peek (p := ⟨tokens, c, errs⟩) (List.getElem?_eq_getElem hcl)⟩
  · intro c errs h0 hc
    obtain ⟨k, rfl⟩ : ∃ k, c = k + 1 := ⟨c - 1, by omega⟩
    have hkl : k < tokens.length := by omega
    exact ⟨tokens[k], run_previous (p := ⟨tokens, k + 1, errs⟩) rfl
      (List.getElem?_eq_getElem hkl)⟩
  · intro errs
    simp [previous]
  · intro c errs hc
    simp [peek, List.getElem?_eq_none hc]

/-- The instance `1 ;` followed by the end of input of `parse_cursor_safe`. -/
theorem parse_cursor_safe_witness :
    ∃ ds q, parse [tok .INT_LITERAL "1", tok .SEMI_COLON ";", tok .END_OF_FILE ""]
        = .ok ds q
      ∧ q.tokens = [tok .INT_LITERAL "1", tok .SEMI_COLON ";", tok .END_OF_FILE ""]
      ∧ q.current ≤ 2 :=
  (parse_cursor_safe [tok .INT_LITERAL "1", tok .SEMI_COLON ";", tok .END_OF_FILE ""] 2
    ⟨tok .END_OF_FILE "", rfl, rfl⟩).1

end AGScript
